import Mathlib

/-!
Verification of the B+ tree implementation (`src/include/BPlusTree.h`,
`src/include/Node.h`, `src/include/Config.h`).

The C++ code is embedded shallowly: a node is an inductive value (a leaf
holds its key/value slots as a list of pairs, an internal node holds its
separator keys and its children), and each member function becomes a pure
Lean function on that representation.  Pointer mutation along the
root-to-leaf path (and the split/underflow propagation that climbs the
parent pointers back up) is expressed as structural recursion that rebuilds
the path; the doubly linked leaf list is represented by the left-to-right
order of the leaves, which is exactly what the splice/unsplice code in
`splitLeaf`/`mergeNodes` maintains.  `size_t` arithmetic is `Nat`
arithmetic (all quantities involved are small and non-negative; the one
place the C++ guards against unsigned underflow — `mid - 1` in the binary
search — is modelled with the same guard).
-/

set_option linter.unusedSectionVars false

namespace BPT

/-- `DEFAULT_ORDER` from Config.h. -/
def DEFAULT_ORDER : Nat := 4

/-- `MIN_ORDER` from Config.h. -/
def MIN_ORDER : Nat := 3

variable {K V : Type}

/-- A node of the B+ tree: either a leaf holding the key/value slots
(`keys[i]`/`values[i]` with the common length `numKeys`), or an internal
node holding separator keys and one more child than keys.  The `parent`
back pointers and the `prev`/`next` leaf links of the C++ node are
represented implicitly by the tree structure and by the left-to-right
order of the leaves. -/
inductive BNode (K V : Type) where
  | leaf (entries : List (K × V))
  | internal (keys : List K) (children : List (BNode K V))

instance : Inhabited (BNode K V) := ⟨.leaf []⟩

/-- `numKeys` of a node. -/
def BNode.numKeys : BNode K V → Nat
  | .leaf es => es.length
  | .internal ks _ => ks.length

/-- The `keys` array of a node (for a leaf, the first components of the
slots). -/
def BNode.keyList : BNode K V → List K
  | .leaf es => es.map Prod.fst
  | .internal ks _ => ks

theorem sizeOf_list_pos [SizeOf α] (l : List α) : 1 ≤ sizeOf l := by
  cases l <;> simp_arith

theorem sizeOf_getD_lt_internal [SizeOf K] [SizeOf V] (ks : List K)
    (cs : List (BNode K V)) (i : Nat) :
    sizeOf (cs.getD i default) < sizeOf (BNode.internal ks cs) := by
  by_cases h : i < cs.length
  · rw [List.getD_eq_getElem _ _ h]
    have hmem : cs[i] ∈ cs := List.getElem_mem h
    have := List.sizeOf_lt_of_mem hmem
    have hks := sizeOf_list_pos ks
    simp only [BNode.internal.sizeOf_spec]
    omega
  · rw [List.getD_eq_default _ _ (Nat.le_of_not_lt h)]
    have hks := sizeOf_list_pos ks
    have hcs := sizeOf_list_pos cs
    simp only [default, BNode.internal.sizeOf_spec, BNode.leaf.sizeOf_spec]
    simp_arith
    omega

/-- All key/value pairs stored in the subtree, in leaf order (the order in
which the leaf linked list visits them). -/
def BNode.toList : BNode K V → List (K × V)
  | .leaf es => es
  | .internal _ cs => cs.attach.foldr (fun c acc => BNode.toList c.1 ++ acc) []
decreasing_by
  have := List.sizeOf_lt_of_mem c.2
  simp only [BNode.internal.sizeOf_spec]
  omega

theorem BNode.toList_leaf (es : List (K × V)) :
    BNode.toList (.leaf es : BNode K V) = es := by
  rw [BNode.toList]

theorem BNode.toList_internal (ks : List K) (cs : List (BNode K V)) :
    BNode.toList (.internal ks cs) = (cs.map BNode.toList).foldr (· ++ ·) [] := by
  rw [BNode.toList]
  induction cs with
  | nil => simp
  | cons c cs ih => simp [List.attach_cons, List.foldr_map]

/-- The entry lists of the leaves of the subtree, left to right: the
portion of the leaf linked list lying under this node. -/
def BNode.leafLists : BNode K V → List (List (K × V))
  | .leaf es => [es]
  | .internal _ cs => cs.attach.foldr (fun c acc => BNode.leafLists c.1 ++ acc) []
decreasing_by
  have := List.sizeOf_lt_of_mem c.2
  simp only [BNode.internal.sizeOf_spec]
  omega

theorem BNode.leafLists_leaf (es : List (K × V)) :
    BNode.leafLists (.leaf es : BNode K V) = [es] := by
  rw [BNode.leafLists]

theorem BNode.leafLists_internal (ks : List K) (cs : List (BNode K V)) :
    BNode.leafLists (.internal ks cs) = (cs.map BNode.leafLists).foldr (· ++ ·) [] := by
  rw [BNode.leafLists]
  induction cs with
  | nil => simp
  | cons c cs ih => simp [List.attach_cons, List.foldr_map]

/-- A well-founded "members first" induction principle for `BNode`. -/
theorem BNode.inductionOn {motive : BNode K V → Prop}
    (hleaf : ∀ es, motive (.leaf es))
    (hinternal : ∀ ks cs, (∀ c ∈ cs, motive c) → motive (.internal ks cs)) :
    ∀ n, motive n := by
  intro n
  induction n using WellFounded.induction
    (@WellFounded.onFun (BNode K V) Nat Nat.lt sizeOf Nat.lt_wfRel.wf) with
  | _ n ih =>
    cases n with
    | leaf es => exact hleaf es
    | internal ks cs =>
      refine hinternal ks cs fun c hc => ih c ?_
      show sizeOf c < sizeOf (BNode.internal ks cs)
      have := List.sizeOf_lt_of_mem hc
      simp only [BNode.internal.sizeOf_spec]
      omega

section NodeOps

variable [LinearOrder K] [Inhabited K] [Inhabited V]

/-- `InternalNode::findChildIndex`: the loop
`while (i < numKeys && key >= keys[i]) i++` — the number of leading
separators that are `≤ key` (equal keys descend right). -/
def findChildIndex (ks : List K) (key : K) : Nat :=
  match ks with
  | [] => 0
  | s :: rest => if s ≤ key then findChildIndex rest key + 1 else 0

/-- The loop body of `Node::findKeyPosition`.  `left`, `right`, `result`
are the loop state; `keys[mid]` is modelled by `ks.getD mid default`
(always in bounds when the loop is started by `findKeyPosition`).  The
`if (mid == 0) break` of the source (which returns `result`, just set to
`mid = 0`) is the second base case. -/
def findKeyPositionGo (ks : List K) (key : K) :
    (left : Nat) → (right : Nat) → (result : Nat) → Nat
  | left, right, result =>
    if left ≤ right then
      let mid := left + (right - left) / 2
      let x := ks.getD mid default
      if x = key then mid
      else if x < key then findKeyPositionGo ks key (mid + 1) right result
      else if mid = 0 then mid
      else findKeyPositionGo ks key left (mid - 1) mid
    else result
termination_by left right _ => right + 1 - left
decreasing_by
  · omega
  · omega

/-- `Node::findKeyPosition`: binary search returning the index of `key`
if present, otherwise the index at which it would be inserted. -/
def findKeyPosition (ks : List K) (key : K) : Nat :=
  if ks.length = 0 then 0
  else findKeyPositionGo ks key 0 (ks.length - 1) ks.length

/-- `LeafNode::findValue`: linear scan of the slots for an exact key
match (returns the value as an `Option` instead of through an out
parameter). -/
def findValue (es : List (K × V)) (key : K) : Option V :=
  match es with
  | [] => none
  | (k, v) :: rest => if k = key then some v else findValue rest key

/-- The key-removal scan in `BPlusTree::remove` followed by
`LeafNode::removeAt`: find the first slot whose key equals `key`; if
none, `none` (remove returns false); otherwise the slot list with that
slot erased. -/
def leafRemove (es : List (K × V)) (key : K) : Option (List (K × V)) :=
  match es with
  | [] => none
  | p :: rest =>
    if p.1 = key then some rest
    else (leafRemove rest key).map (p :: ·)

end NodeOps

section Tree

variable [LinearOrder K] [Inhabited K] [Inhabited V]

/-- The result of inserting into a subtree: either the rebuilt subtree,
or — when the subtree split — the two halves and the key promoted to the
parent (`insertIntoParent(left, key, right)` of the source).  The right
half is spliced immediately after the left one, which is exactly the leaf
linked-list update of `splitLeaf`. -/
inductive InsertResult (K V : Type) where
  | one (n : BNode K V)
  | split (l : BNode K V) (key : K) (r : BNode K V)

/-- `BPlusTree::splitLeaf` on an overflowing slot list: split point
`(maxKeys + 1) / 2` (C++ integer division), first `splitPoint` slots stay,
the rest move to the new right leaf, and a copy of the new leaf's first
key is promoted. -/
def splitLeaf (mx : Nat) (es : List (K × V)) : InsertResult K V :=
  let splitPoint := (mx + 1) / 2
  let newEs := es.drop splitPoint
  let promoteKey := (newEs.headD default).1
  .split (.leaf (es.take splitPoint)) promoteKey (.leaf newEs)

/-- `BPlusTree::splitInternal` on an overflowing internal node: promote
`keys[splitPoint]` (moved, not copied), keys `[splitPoint+1, numKeys)` and
children `[splitPoint+1, numKeys+1)` move to the new right node, the
original keeps `splitPoint` keys and `splitPoint + 1` children. -/
def splitInternal (mx : Nat) (ks : List K) (cs : List (BNode K V)) :
    InsertResult K V :=
  let splitPoint := (mx + 1) / 2
  let promoteKey := ks.getD splitPoint default
  .split (.internal (ks.take splitPoint) (cs.take (splitPoint + 1)))
    promoteKey
    (.internal (ks.drop (splitPoint + 1)) (cs.drop (splitPoint + 1)))

/-- The body of `BPlusTree::insert` below the root: descend with
`findChildIndex` to the leaf (`findLeaf`); at the leaf either overwrite
the value of an existing key in place, or insert the slot at its sorted
position and split on overflow; propagate splits into the parent
(`insertIntoParent`: insert the promoted key at its sorted position `pos`
and the right node at child position `pos + 1`, then split the parent if
it overflowed). -/
def insertRec (mx : Nat) (key : K) (v : V) : BNode K V → InsertResult K V
  | .leaf es =>
    let pos := findKeyPosition (es.map Prod.fst) key
    if pos < es.length ∧ (es.map Prod.fst).getD pos default = key then
      .one (.leaf (es.set pos (key, v)))
    else
      let es' := es.insertIdx pos (key, v)
      if es'.length > mx then splitLeaf mx es' else .one (.leaf es')
  | .internal ks cs =>
    let i := findChildIndex ks key
    match insertRec mx key v (cs.getD i default) with
    | .one c' => .one (.internal ks (cs.set i c'))
    | .split l pk r =>
      let pos := findKeyPosition ks pk
      let ks' := ks.insertIdx pos pk
      let cs' := ((cs.set i l).insertIdx (pos + 1) r)
      if ks'.length > mx then splitInternal mx ks' cs'
      else .one (.internal ks' cs')
decreasing_by
  apply sizeOf_getD_lt_internal

/-- The B+ tree: the owned root (`nullptr` is `none`) and the order.
`maxKeys` and `minKeys` are the derived capacities the constructor
computes. -/
structure BPlusTree (K V : Type) where
  root : Option (BNode K V)
  order : Nat

/-- The constructor `BPlusTree(order)`: clamps the order to `MIN_ORDER`
and starts with an empty root. -/
def BPlusTree.new (order : Nat) : BPlusTree K V :=
  { root := none, order := if order < MIN_ORDER then MIN_ORDER else order }

/-- `maxKeys = order - 1`. -/
def BPlusTree.maxKeys (t : BPlusTree K V) : Nat := t.order - 1

/-- `minKeys = (order + 1) / 2 - 1`, i.e. `⌈order/2⌉ - 1`. -/
def BPlusTree.minKeys (t : BPlusTree K V) : Nat := (t.order + 1) / 2 - 1

/-- `BPlusTree::isEmpty`. -/
def BPlusTree.isEmpty (t : BPlusTree K V) : Bool := t.root.isNone

/-- `BPlusTree::insert`: empty tree gets a fresh one-slot root leaf;
otherwise insert below, and if the root split, grow a new root with one
key and two children. -/
def BPlusTree.insert (t : BPlusTree K V) (key : K) (v : V) : BPlusTree K V :=
  match t.root with
  | none => { t with root := some (.leaf [(key, v)]) }
  | some r =>
    match insertRec t.maxKeys key v r with
    | .one r' => { t with root := some r' }
    | .split l pk rr => { t with root := some (.internal [pk] [l, rr]) }

/-- `BPlusTree::search`: descend with `findChildIndex`, then `findValue`
on the leaf. -/
def searchNode (key : K) : BNode K V → Option V
  | .leaf es => findValue es key
  | .internal ks cs => searchNode key (cs.getD (findChildIndex ks key) default)
decreasing_by
  apply sizeOf_getD_lt_internal

/-- `BPlusTree::search` (empty tree: not found). -/
def BPlusTree.search (t : BPlusTree K V) (key : K) : Option V :=
  match t.root with
  | none => none
  | some r => searchNode key r

/-- `BPlusTree::redistributeNodes` with `isLeftSibling = true`: the
underflowing child sits at index `i` of `cs`, its left sibling at
`i - 1`, the separator between them at `i - 1` (`parentIndex`).  The
sibling's last entry (leaf) or last child plus a key rotation through the
parent (internal) moves over; the parent separator is updated.  Returns
the updated keys and children of the parent.  (A leaf/internal shape
mismatch between the siblings cannot arise in a well-formed tree; the
model returns the node unchanged there.) -/
def redistributeFromLeft (ks : List K) (cs : List (BNode K V)) (i : Nat) :
    List K × List (BNode K V) :=
  match cs.getD (i - 1) default, cs.getD i default with
  | .leaf ses, .leaf es =>
    let moved := ses.getLastD default
    (ks.set (i - 1) moved.1,
      (cs.set (i - 1) (.leaf ses.dropLast)).set i (.leaf (moved :: es)))
  | .internal sks scs, .internal nks ncs =>
    (ks.set (i - 1) (sks.getLastD default),
      (cs.set (i - 1) (.internal sks.dropLast scs.dropLast)).set i
        (.internal (ks.getD (i - 1) default :: nks) (scs.getLastD default :: ncs)))
  | _, _ => (ks, cs)

/-- `BPlusTree::redistributeNodes` with `isLeftSibling = false`: the
underflowing child at index `i`, its right sibling at `i + 1`, separator
at `i` (`parentIndex`).  The sibling's first entry (leaf) or first child
plus a key rotation (internal) moves over. -/
def redistributeFromRight (ks : List K) (cs : List (BNode K V)) (i : Nat) :
    List K × List (BNode K V) :=
  match cs.getD i default, cs.getD (i + 1) default with
  | .leaf es, .leaf ses =>
    (ks.set i ((ses.tail.headD default).1),
      (cs.set i (.leaf (es ++ [ses.headD default]))).set (i + 1) (.leaf ses.tail))
  | .internal nks ncs, .internal sks scs =>
    (ks.set i (sks.headD default),
      (cs.set i (.internal (nks ++ [ks.getD i default]) (ncs ++ [scs.headD default]))).set
        (i + 1) (.internal sks.tail scs.tail))
  | _, _ => (ks, cs)

/-- `BPlusTree::mergeNodes` on the children `cs[m]` (left) and
`cs[m + 1]` (right) with `parentIndex = m`: leaves concatenate their
slots (and the right leaf is unlinked from the leaf list); internals pull
the parent separator down between them.  The parent removes the right
child pointer and then the separator key. -/
def mergeAt (ks : List K) (cs : List (BNode K V)) (m : Nat) :
    List K × List (BNode K V) :=
  let merged :=
    match cs.getD m default, cs.getD (m + 1) default with
    | .leaf les, .leaf res => BNode.leaf (les ++ res)
    | .internal lks lcs, .internal rks rcs =>
      BNode.internal (lks ++ ks.getD m default :: rks) (lcs ++ rcs)
    | _, _ => cs.getD m default
  (ks.eraseIdx m, (cs.set m merged).eraseIdx (m + 1))

/-- The decision procedure of `BPlusTree::deleteEntry` for a non-root
underflowing node, seen from its parent: the node is child `i`; try to
borrow from the left sibling, then from the right sibling (a sibling can
spare a key if it has more than `minKeys`); otherwise merge with the left
sibling if there is one, else with the right. -/
def deleteEntryAt (mn : Nat) (ks : List K) (cs : List (BNode K V)) (i : Nat) :
    List K × List (BNode K V) :=
  if 0 < i ∧ (cs.getD (i - 1) default).numKeys > mn then
    redistributeFromLeft ks cs i
  else if i < ks.length ∧ (cs.getD (i + 1) default).numKeys > mn then
    redistributeFromRight ks cs i
  else if 0 < i then
    mergeAt ks cs (i - 1)
  else
    mergeAt ks cs i

/-- The body of `BPlusTree::remove` below the root together with the
`deleteEntry` propagation: descend to the leaf; `none` when the key is
absent (the tree is unchanged and remove returns false); otherwise the
rebuilt subtree.  A parent rebalances a child that fell under `minKeys`
(`deleteEntry`); if that was a merge the parent itself may have fallen
under `minKeys`, which its own parent — or the root handling in
`remove` — deals with in turn. -/
def removeRec (mn : Nat) (key : K) : BNode K V → Option (BNode K V)
  | .leaf es => (leafRemove es key).map .leaf
  | .internal ks cs =>
    let i := findChildIndex ks key
    match removeRec mn key (cs.getD i default) with
    | none => none
    | some c' =>
      if c'.numKeys < mn then
        let p := deleteEntryAt mn ks (cs.set i c') i
        some (.internal p.1 p.2)
      else some (.internal ks (cs.set i c'))
decreasing_by
  apply sizeOf_getD_lt_internal

/-- `BPlusTree::remove`: false on an empty tree or a missing key (tree
unchanged); a root leaf that becomes empty is freed (`root = nullptr`);
an internal root left with zero keys by a merge of its children is
replaced by its only child (`deleteEntry` on the root). -/
def BPlusTree.remove (t : BPlusTree K V) (key : K) : Bool × BPlusTree K V :=
  match t.root with
  | none => (false, t)
  | some r =>
    match removeRec t.minKeys key r with
    | none => (false, t)
    | some r' =>
      match r' with
      | .leaf es =>
        if es.length = 0 then (true, { t with root := none })
        else (true, { t with root := some (.leaf es) })
      | .internal ks cs =>
        if ks.length = 0 then (true, { t with root := some (cs.getD 0 default) })
        else (true, { t with root := some (.internal ks cs) })

/-- The portion of the leaf linked list from the leaf that `findLeaf key`
reaches to the end of the list: the found leaf, the remaining leaves of
each ancestor's later siblings, in order. -/
def leavesFrom (key : K) : BNode K V → List (List (K × V))
  | .leaf es => [es]
  | .internal ks cs =>
    let i := findChildIndex ks key
    leavesFrom key (cs.getD i default) ++
      ((cs.drop (i + 1)).map BNode.leafLists).foldr (· ++ ·) []
decreasing_by
  apply sizeOf_getD_lt_internal

/-- The inner loop of `BPlusTree::rangeQuery` over one leaf: emit the
slots whose key lies in `[startKey, endKey]`; on the first key strictly
greater than `endKey`, stop the whole scan (the `Bool` flag is the early
`return`). -/
def rangeScanLeaf (startKey endKey : K) : List (K × V) → List (K × V) × Bool
  | [] => ([], false)
  | (k, v) :: rest =>
    if startKey ≤ k ∧ k ≤ endKey then
      let res := rangeScanLeaf startKey endKey rest
      ((k, v) :: res.1, res.2)
    else if endKey < k then ([], true)
    else rangeScanLeaf startKey endKey rest

/-- The outer loop of `BPlusTree::rangeQuery`: walk the leaf list,
accumulating, until the inner loop early-returns or the list ends. -/
def rangeScan (startKey endKey : K) : List (List (K × V)) → List (K × V)
  | [] => []
  | es :: rest =>
    let r := rangeScanLeaf startKey endKey es
    if r.2 then r.1 else r.1 ++ rangeScan startKey endKey rest

/-- `BPlusTree::rangeQuery`: empty result on an empty tree; otherwise
walk the leaf list from `findLeaf(start)`. -/
def BPlusTree.rangeQuery (t : BPlusTree K V) (startKey endKey : K) :
    List (K × V) :=
  match t.root with
  | none => []
  | some r => rangeScan startKey endKey (leavesFrom startKey r)

/-- `BPlusTree::height` below the root: 1 for the root's level plus one
per internal level, following `children[0]`. -/
def BNode.height : BNode K V → Nat
  | .leaf _ => 1
  | .internal _ cs => (cs.getD 0 default).height + 1
decreasing_by
  apply sizeOf_getD_lt_internal

/-- `BPlusTree::height`: 0 when empty. -/
def BPlusTree.height (t : BPlusTree K V) : Nat :=
  match t.root with
  | none => 0
  | some r => r.height

/-- The sortedness loop of `BPlusTree::validateNode`:
`keys[i-1] >= keys[i]` for some `i` means failure. -/
def keysSortedCheck : List K → Bool
  | [] => true
  | [_] => true
  | a :: b :: rest => if a ≥ b then false else keysSortedCheck (b :: rest)

mutual

/-- `BPlusTree::validateNode`: non-root nodes must have
`minKeys ≤ numKeys ≤ maxKeys`; keys must be strictly ascending; all
leaves must sit at the same level (threaded through `leafLevel`, the C++
`int&` with `-1` as `none`). -/
def validateNode (mx mn : Nat) (isRoot : Bool) (level : Nat)
    (n : BNode K V) (leafLevel : Option Nat) : Bool × Option Nat :=
  if ¬isRoot ∧ (n.numKeys < mn ∨ n.numKeys > mx) then (false, leafLevel)
  else if ¬(keysSortedCheck n.keyList) then (false, leafLevel)
  else
    match n with
    | .leaf _ =>
      match leafLevel with
      | none => (true, some level)
      | some l => (decide (l = level), some l)
    | .internal _ cs => validateChildren mx mn (level + 1) cs leafLevel
termination_by sizeOf n
decreasing_by
  simp only [BNode.internal.sizeOf_spec]
  omega

/-- The recursive-children loop of `validateNode`, threading `leafLevel`
and short-circuiting on the first failing child. -/
def validateChildren (mx mn : Nat) (level : Nat) :
    List (BNode K V) → Option Nat → Bool × Option Nat
  | [], ll => (true, ll)
  | c :: rest, ll =>
    let r := validateNode mx mn false level c ll
    if r.1 then validateChildren mx mn level rest r.2 else (false, r.2)
termination_by cs _ => sizeOf cs
decreasing_by
  all_goals simp_arith

end

/-- `BPlusTree::validate`: an empty tree is valid; otherwise run the
recursive check from the root at level 0 with no leaf level recorded
yet. -/
def BPlusTree.validate (t : BPlusTree K V) : Bool :=
  match t.root with
  | none => true
  | some r => (validateNode t.maxKeys t.minKeys true 0 r none).1

/-- One `operator++` of `BPlusTreeIterator` on the leaf chain `ls`: the
position is (index of the current leaf in the chain, slot index).  After
`index++`, if the index ran off the current leaf and a next leaf exists,
move to its slot 0; otherwise stay. -/
def fwdStep (ls : List (List (K × V))) (p : Nat × Nat) : Nat × Nat :=
  let cur := ls.getD p.1 []
  let idx := p.2 + 1
  if idx ≥ cur.length then
    if p.1 + 1 < ls.length then (p.1 + 1, 0) else (p.1, idx)
  else (p.1, idx)

/-- Whether a forward position equals `end()` — the pair
(last leaf, its `numKeys`); iterator equality compares the leaf pointer
and the index. -/
def isEndPos (ls : List (List (K × V))) (p : Nat × Nat) : Bool :=
  decide (p.1 = ls.length - 1 ∧ p.2 = (ls.getLastD []).length)

/-- The sequence a forward iterator yields: dereference, advance, repeat
until the position compares equal to `end()`.  `fuel` bounds the loop
(the iteration theorems are stated with enough fuel to reach `end()`). -/
def fwdCollect (ls : List (List (K × V))) : Nat → Nat × Nat → List (K × V)
  | 0, _ => []
  | fuel + 1, p =>
    if isEndPos ls p then []
    else (ls.getD p.1 []).getD p.2 default :: fwdCollect ls fuel (fwdStep ls p)

/-- `BPlusTree::begin` / `end` traversal: collect from the first leaf,
slot 0 (the empty tree has `begin() == end()` at once). -/
def BPlusTree.forwardTraversal (t : BPlusTree K V) : List (K × V) :=
  match t.root with
  | none => []
  | some r =>
    let ls := r.leafLists
    fwdCollect ls ls.flatten.length (0, 0)

/-- One `operator++` of `BPlusTreeReverseIterator` (which walks
backwards): decrement the slot, move to the previous leaf's last slot
when at slot 0, or reach the `(nullptr, 0)` end state (`none`). -/
def revStep (ls : List (List (K × V))) (p : Nat × Nat) : Option (Nat × Nat) :=
  if p.2 > 0 then some (p.1, p.2 - 1)
  else if p.1 > 0 then
    let cur := ls.getD (p.1 - 1) []
    some (p.1 - 1, if cur.length > 0 then cur.length - 1 else p.2)
  else none

/-- The sequence a reverse iterator yields, from a position, until it
reaches `rend()` (the `none` state). -/
def revCollect (ls : List (List (K × V))) : Nat → Option (Nat × Nat) → List (K × V)
  | 0, _ => []
  | _, none => []
  | fuel + 1, some p =>
    (ls.getD p.1 []).getD p.2 default :: revCollect ls fuel (revStep ls p)

/-- `BPlusTree::rbegin` / `rend` traversal: start at the last leaf's last
slot (or `rend()` if the tree is empty / the last leaf has no slots). -/
def BPlusTree.reverseTraversal (t : BPlusTree K V) : List (K × V) :=
  match t.root with
  | none => []
  | some r =>
    let ls := r.leafLists
    let lastEs := ls.getLastD []
    if lastEs.length > 0 then
      revCollect ls ls.flatten.length (some (ls.length - 1, lastEs.length - 1))
    else []

/-- The duplicate-coalescing buffer loop of `BPlusTree::bulkLoad`: if the
incoming key equals the buffer's last key, overwrite the last value,
otherwise append. -/
def bulkBufferStep (buf : List (K × V)) (p : K × V) : List (K × V) :=
  match buf.getLast? with
  | some q => if q.1 = p.1 then buf.dropLast ++ [(q.1, p.2)] else buf ++ [p]
  | none => [p]

/-- Step 1 of `BPlusTree::bulkLoad`: materialize the input, coalescing
runs of equal adjacent keys to the last value. -/
def bulkBuffer (data : List (K × V)) : List (K × V) :=
  data.foldl bulkBufferStep []

/-- The two-step node-count policy of `BPlusTree::bulkLoad` (steps 2 and
4): start from `⌈n / cap⌉` nodes, and if that would leave some node
below `low` members, reduce to `⌊n / low⌋` (kept at least 1). -/
def computeNodeCount (cap low n : Nat) : Nat :=
  let cnt := (n + cap - 1) / cap
  let maxPossible := n / low
  let maxPossible := if maxPossible = 0 then 1 else maxPossible
  if cnt > maxPossible then maxPossible else cnt

/-- Step 2 of `BPlusTree::bulkLoad` for the leaf level: a single leaf if
everything fits, otherwise the two-step policy (whose reduction branch is
additionally guarded by `maxPossibleLeaves > 0`). -/
def computeNumLeaves (mx mn n : Nat) : Nat :=
  if n ≤ mx then 1
  else
    let numLeaves := (n + mx - 1) / mx
    let maxPossible := n / mn
    if numLeaves > maxPossible ∧ maxPossible > 0 then maxPossible else numLeaves

/-- The distribution loop of `BPlusTree::bulkLoad`: node `0` of the
remaining `k` receives `min(⌈remaining / k⌉, cap)` of the remaining
members, and so on. -/
def chunks (cap : Nat) : Nat → List α → List (List α)
  | 0, _ => []
  | k + 1, elems =>
    let c := min ((elems.length + k) / (k + 1)) cap
    elems.take c :: chunks cap k (elems.drop c)

theorem chunks_length (cap : Nat) (k : Nat) (l : List α) :
    (chunks cap k l).length = k := by
  induction k generalizing l with
  | zero => simp [chunks]
  | succ k ih => simp [chunks, ih]

theorem computeNodeCount_lt (cap low nc : Nat) (hcap : 2 ≤ cap)
    (hlow : 2 ≤ low) (hnc : 2 ≤ nc) : computeNodeCount cap low nc < nc := by
  have h1 : (nc + cap - 1) / cap < nc := by
    rw [Nat.div_lt_iff_lt_mul (by omega)]
    rcases Nat.exists_eq_add_of_le (show 1 ≤ cap by omega) with ⟨d, hd⟩
    have hd1 : 1 ≤ d := by omega
    subst hd
    have hmul : 2 * d ≤ nc * d := Nat.mul_le_mul_right d (by omega)
    have hsplit : nc * (1 + d) = nc * d + nc := by ring
    omega
  have h5 : nc / low < nc := Nat.div_lt_self (by omega) (by omega)
  simp only [computeNodeCount]
  split <;> split <;> omega

/-- The `getLeftmostKey` lambda of `BPlusTree::bulkLoad`: descend through
`children[0]` to a leaf and take its first key. -/
def getLeftmostKey : BNode K V → K
  | .leaf es => (es.headD default).1
  | .internal _ cs =>
    match cs with
    | c :: _ => getLeftmostKey c
    | [] => default

/-- Assembling one internal node in step 5 of `BPlusTree::bulkLoad`: the
first child contributes no key; every later child contributes the
leftmost key of its subtree as the separator before it. -/
def mkInternal (cs : List (BNode K V)) : BNode K V :=
  .internal ((cs.drop 1).map getLeftmostKey) cs

/-- The bottom-up level loop of `BPlusTree::bulkLoad` (step 5): while
more than one node remains, group the level into internal nodes using
the two-step policy with `maxChildren = maxKeys + 1` and
`minChildren = minKeys + 1`.  The arithmetic facts `1 ≤ mx` and
`1 ≤ mn` (always true for a clamped order) bound the recursion. -/
def buildUp (mx mn : Nat) (hmx : 1 ≤ mx) (hmn : 1 ≤ mn) :
    List (BNode K V) → BNode K V
  | [] => default
  | [n] => n
  | n0 :: n1 :: rest =>
    buildUp mx mn hmx hmn
      ((chunks (mx + 1) (computeNodeCount (mx + 1) (mn + 1) (n0 :: n1 :: rest).length)
          (n0 :: n1 :: rest)).map mkInternal)
termination_by l => l.length
decreasing_by
  rw [List.length_map, chunks_length]
  exact computeNodeCount_lt _ _ _ (by omega) (by omega) (by simp_arith)

/-- `BPlusTree::bulkLoad` (the iterator-range version, on the input
sequence): clear the tree, coalesce into the buffer, build the leaf
level with the computed distribution, then the internal levels bottom
up.  `hmx`/`hmn` carry `1 ≤ maxKeys` and `1 ≤ minKeys`, true for every
clamped order. -/
def bulkLoadCore (mx mn : Nat) (hmx : 1 ≤ mx) (hmn : 1 ≤ mn)
    (data : List (K × V)) : Option (BNode K V) :=
  let buffer := bulkBuffer data
  if buffer.isEmpty then none
  else
    let numLeaves := computeNumLeaves mx mn buffer.length
    let leaves := (chunks mx numLeaves buffer).map BNode.leaf
    some (buildUp mx mn hmx hmn leaves)

theorem order_clamped_maxKeys (t : BPlusTree K V) (h : MIN_ORDER ≤ t.order) :
    1 ≤ t.maxKeys := by
  unfold BPlusTree.maxKeys MIN_ORDER at *
  omega

theorem order_clamped_minKeys (t : BPlusTree K V) (h : MIN_ORDER ≤ t.order) :
    1 ≤ t.minKeys := by
  unfold BPlusTree.minKeys MIN_ORDER at *
  omega

/-- `BPlusTree::bulkLoad` at the tree level, for a tree whose order was
clamped (every tree the constructor produces). -/
def BPlusTree.bulkLoad (t : BPlusTree K V) (h : MIN_ORDER ≤ t.order)
    (data : List (K × V)) : BPlusTree K V :=
  { t with
    root := bulkLoadCore t.maxKeys t.minKeys (order_clamped_maxKeys t h)
      (order_clamped_minKeys t h) data }

/-- `detail::BPTREE_MAGIC`. -/
def BPTREE_MAGIC : Nat := 0x54504221

/-- `detail::BPTREE_VERSION`. -/
def BPTREE_VERSION : Nat := 1

/-- The on-disk layout written by `BPlusTree::save`: magic, version,
order and element count, then the key/value pairs in leaf order.  The
payload bytes of the POD keys and values are modelled by the values
themselves (for trivially copyable types the byte image determines the
value exactly, which is what `save`'s `static_assert` enforces). -/
structure SaveFile (K V : Type) where
  magic : Nat
  version : Nat
  order : Nat
  count : Nat
  entries : List (K × V)

/-- `BPlusTree::save`: header, the element count obtained by walking the
leaf list once, then every pair by walking the leaf list again. -/
def BPlusTree.save (t : BPlusTree K V) : SaveFile K V :=
  let all :=
    match t.root with
    | none => []
    | some r => r.leafLists.flatten
  { magic := BPTREE_MAGIC, version := BPTREE_VERSION, order := t.order,
    count := all.length, entries := all }

/-- `BPlusTree::load`: validate magic and version, reject an order
mismatch, read `count` pairs (failing on a short file), and hand them to
the bulk loader. -/
def BPlusTree.load (t : BPlusTree K V) (h : MIN_ORDER ≤ t.order)
    (f : SaveFile K V) : Except String (BPlusTree K V) :=
  if f.magic ≠ BPTREE_MAGIC then
    .error "Invalid file format: not a B+ tree file"
  else if f.version ≠ BPTREE_VERSION then
    .error "Incompatible file version"
  else if f.order ≠ t.order then
    .error "Tree order mismatch"
  else if f.entries.length < f.count then
    .error "Unexpected end of file or read error"
  else
    .ok (t.bulkLoad h (f.entries.take f.count))

/-- `BPlusTree::loadFromFile`: same reading and validation, but the tree
is constructed with the order found in the file, so there is no mismatch
check. -/
def BPlusTree.loadFromFile (f : SaveFile K V) :
    Except String (BPlusTree K V) :=
  if f.magic ≠ BPTREE_MAGIC then
    .error "Invalid file format: not a B+ tree file"
  else if f.version ≠ BPTREE_VERSION then
    .error "Incompatible file version"
  else if f.entries.length < f.count then
    .error "Unexpected end of file or read error"
  else
    .ok ((BPlusTree.new f.order).bulkLoad
      (by simp [BPlusTree.new]; split <;> omega) (f.entries.take f.count))

/-- Modelled from the spec: `size()` is declared in the spec's public
surface ("**is_empty()**, **size()** where size is maintained exactly")
and exercised by `tests/test_statistics.cpp`, but its definition is not
among the sources under `src/`; per the spec it returns exactly the
number of stored pairs, i.e. the total number of slots on the leaf
list. -/
def BPlusTree.size (t : BPlusTree K V) : Nat :=
  match t.root with
  | none => 0
  | some r => (r.leafLists.map List.length).sum

/-- A public mutating operation of the tree: the alphabet of C1's
operation sequences. -/
inductive Op (K V : Type) where
  | ins (key : K) (v : V)
  | del (key : K)

/-- Run one operation. -/
def applyOp (t : BPlusTree K V) : Op K V → BPlusTree K V
  | .ins k v => t.insert k v
  | .del k => (t.remove k).2

/-- Run a sequence of operations left to right. -/
def applyOps (t : BPlusTree K V) (ops : List (Op K V)) : BPlusTree K V :=
  ops.foldl applyOp t

/-- The stored pairs of the whole tree in leaf order. -/
def BPlusTree.toList (t : BPlusTree K V) : List (K × V) :=
  match t.root with
  | none => []
  | some r => r.toList

end Tree

section SpecSide

variable [LinearOrder K]

/-- Specification-side insert-or-replace on a key-sorted association
list. -/
def listInsert (key : K) (v : V) : List (K × V) → List (K × V)
  | [] => [(key, v)]
  | (k, w) :: rest =>
    if key < k then (key, v) :: (k, w) :: rest
    else if key = k then (key, v) :: rest
    else (k, w) :: listInsert key v rest

/-- Specification-side erase of the first slot with the given key. -/
def eraseKey (key : K) : List (K × V) → List (K × V)
  | [] => []
  | (k, w) :: rest => if k = key then rest else (k, w) :: eraseKey key rest

/-- Specification-side model of the tree contents after an operation
sequence. -/
def modelList (ops : List (Op K V)) : List (K × V) :=
  ops.foldl (fun l op =>
    match op with
    | .ins k v => listInsert k v l
    | .del k => eraseKey k l) []

/-- Whether a key has been inserted and not subsequently removed by an
operation sequence. -/
def liveKey (ops : List (Op K V)) (key : K) : Bool :=
  ops.foldl (fun b op =>
    match op with
    | .ins k _ => if k = key then true else b
    | .del k => if k = key then false else b) false

end SpecSide

section Characterizations

variable [LinearOrder K] [Inhabited K] [Inhabited V]

theorem findChildIndex_eq_takeWhile (ks : List K) (key : K) :
    findChildIndex ks key = (ks.takeWhile (fun s => decide (s ≤ key))).length := by
  induction ks with
  | nil => rfl
  | cons s rest ih =>
    by_cases h : s ≤ key <;> simp [findChildIndex, List.takeWhile_cons, h, ih]

theorem findChildIndex_le_length (ks : List K) (key : K) :
    findChildIndex ks key ≤ ks.length := by
  induction ks with
  | nil => simp [findChildIndex]
  | cons s rest ih =>
    by_cases h : s ≤ key <;> simp [findChildIndex, h] <;> omega

theorem findChildIndex_cons_le {s : K} (rest : List K) {key : K} (h : s ≤ key) :
    findChildIndex (s :: rest) key = findChildIndex rest key + 1 := by
  simp [findChildIndex, h]

theorem findChildIndex_cons_gt {s : K} (rest : List K) {key : K} (h : key < s) :
    findChildIndex (s :: rest) key = 0 := by
  simp [findChildIndex, not_le.mpr h]

/-- The index returned by `findChildIndex` points past separators `≤ key`:
the preceding separator (if any) is `≤ key`. -/
theorem findChildIndex_pred_le (ks : List K) (key : K)
    (h : 0 < findChildIndex ks key) :
    ks.getD (findChildIndex ks key - 1) default ≤ key := by
  induction ks with
  | nil => simp [findChildIndex] at h
  | cons s rest ih =>
    by_cases hs : s ≤ key
    · rw [findChildIndex_cons_le rest hs] at *
      rcases Nat.eq_zero_or_pos (findChildIndex rest key) with h0 | hpos
      · simpa [h0] using hs
      · have := ih hpos
        have harith : findChildIndex rest key + 1 - 1 = (findChildIndex rest key - 1) + 1 := by
          omega
        simpa [harith] using this
    · rw [findChildIndex_cons_gt rest (not_le.mp hs)] at h
      omega

/-- The separator at the returned index (if in bounds) is `> key`. -/
theorem findChildIndex_at_gt (ks : List K) (key : K)
    (h : findChildIndex ks key < ks.length) :
    key < ks.getD (findChildIndex ks key) default := by
  induction ks with
  | nil => simp at h
  | cons s rest ih =>
    by_cases hs : s ≤ key
    · rw [findChildIndex_cons_le rest hs] at *
      simp only [List.length_cons] at h
      simpa using ih (by omega)
    · rw [findChildIndex_cons_gt rest (not_le.mp hs)]
      simpa using not_le.mp hs

theorem sorted_getD_lt {ks : List K} (hs : List.Chain' (· < ·) ks)
    {i j : Nat} (hij : i < j) (hj : j < ks.length) :
    ks.getD i default < ks.getD j default := by
  have hp := List.chain'_iff_pairwise.mp hs
  rw [List.getD_eq_getElem _ _ (by omega), List.getD_eq_getElem _ _ hj]
  exact List.pairwise_iff_getElem.mp hp i j (by omega) hj hij

theorem takeWhile_length_eq_iff (p : K → Bool) (ks : List K) (m : Nat)
    (hm : m ≤ ks.length)
    (h1 : ∀ j, j < m → p (ks.getD j default) = true)
    (h2 : m < ks.length → p (ks.getD m default) = false) :
    (ks.takeWhile p).length = m := by
  induction ks generalizing m with
  | nil =>
    simp only [List.length_nil, Nat.le_zero] at hm
    simp [hm]
  | cons x rest ih =>
    cases m with
    | zero =>
      have hx := h2 (by simp)
      simp only [List.getD_cons_zero] at hx
      rw [List.takeWhile_cons_of_neg (by simp [hx])]
      rfl
    | succ m =>
      have hx := h1 0 (by omega)
      simp only [List.getD_cons_zero] at hx
      rw [List.takeWhile_cons_of_pos hx]
      simp only [List.length_cons, Nat.add_left_inj]
      refine ih m (by simpa using hm) ?_ ?_
      · intro j hj
        have := h1 (j + 1) (by omega)
        simpa using this
      · intro hlt
        have := h2 (by simpa using hlt)
        simpa using this

theorem findKeyPositionGo_eq (ks : List K) (key : K)
    (hs : List.Chain' (· < ·) ks) :
    ∀ n left right result, right + 1 - left = n →
      right < ks.length →
      left ≤ right + 1 →
      result = right + 1 →
      (∀ j, j < left → ks.getD j default < key) →
      (∀ j, right < j → j < ks.length → key < ks.getD j default) →
      findKeyPositionGo ks key left right result =
        (ks.takeWhile (fun x => decide (x < key))).length := by
  intro n
  induction n using Nat.strong_induction_on with
  | _ n ih =>
    intro left right result hn hr hle hres hlow hhigh
    rw [findKeyPositionGo]
    by_cases hlr : left ≤ right
    · simp only [hlr, if_true]
      have hmidr : left + (right - left) / 2 ≤ right := by omega
      have hmidl : left ≤ left + (right - left) / 2 := by omega
      have hmidlen : left + (right - left) / 2 < ks.length := by omega
      set mid := left + (right - left) / 2 with hmid
      by_cases he : ks.getD mid default = key
      · simp only [he, if_true]
        refine (takeWhile_length_eq_iff _ _ mid (by omega) ?_ ?_).symm
        · intro j hj
          have hlt := sorted_getD_lt hs hj hmidlen
          simp only [decide_eq_true_eq]
          exact he ▸ hlt
        · intro _
          simp only [decide_eq_false_iff_not, not_lt, he, le_refl]
      · simp only [he, if_false]
        by_cases hlt : ks.getD mid default < key
        · simp only [hlt, if_true]
          refine ih (right + 1 - (mid + 1)) (by omega) (mid + 1) right result
            (by omega) hr (by omega) hres ?_ hhigh
          intro j hj
          rcases Nat.lt_or_ge j mid with hjm | hjm
          · exact lt_trans (sorted_getD_lt hs hjm hmidlen) hlt
          · have : j = mid := by omega
            simpa [this] using hlt
        · simp only [hlt, if_false]
          have hgt : key < ks.getD mid default :=
            lt_of_le_of_ne (not_lt.mp hlt) (fun hk => he hk.symm)
          by_cases hm0 : mid = 0
          · simp only [hm0, if_true]
            refine (takeWhile_length_eq_iff _ _ 0 (by omega) (by omega) ?_).symm
            intro _
            simp only [decide_eq_false_iff_not, not_lt]
            rw [← hm0]
            exact le_of_lt hgt
          · simp only [hm0, if_false]
            refine ih (mid - 1 + 1 - left) (by omega) left (mid - 1) mid
              (by omega) (by omega) (by omega) (by omega) hlow ?_
            intro j hj hjlen
            rcases Nat.lt_or_ge j (mid + 1) with hjm | hjm
            · have : j = mid := by omega
              simpa [this] using hgt
            · exact lt_trans hgt (sorted_getD_lt hs (by omega) hjlen)
    · simp only [hlr, if_false]
      have hleft : left = right + 1 := by omega
      refine (takeWhile_length_eq_iff _ _ result (by omega) ?_ ?_).symm
      · intro j hj
        have := hlow j (by omega)
        simpa using this
      · intro hltlen
        have := hhigh result (by omega) hltlen
        simp only [decide_eq_false_iff_not, not_lt]
        exact le_of_lt this

theorem findKeyPosition_eq (ks : List K) (key : K)
    (hs : List.Chain' (· < ·) ks) :
    findKeyPosition ks key = (ks.takeWhile (fun x => decide (x < key))).length := by
  unfold findKeyPosition
  by_cases h0 : ks.length = 0
  · have : ks = [] := List.length_eq_zero.mp h0
    simp [this, h0]
  · simp only [h0, if_false]
    exact findKeyPositionGo_eq ks key hs (ks.length - 1 + 1 - 0) 0 (ks.length - 1)
      ks.length rfl (by omega) (by omega) (by omega) (by omega)
      (by intro j hj hjlen; omega)

end Characterizations

section Invariant

variable [LinearOrder K] [Inhabited K] [Inhabited V]

/-- Inclusive optional lower bound on keys of a subtree. -/
def okLo : Option K → K → Prop
  | none, _ => True
  | some a, x => a ≤ x

/-- Exclusive optional upper bound on keys of a subtree. -/
def okHi : Option K → K → Prop
  | none, _ => True
  | some b, x => x < b

/-- Strict optional lower bound (used for promoted separators). -/
def okLoS : Option K → K → Prop
  | none, _ => True
  | some a, x => a < x

/-- The separator/child alternation of an internal node: child `0` lies
in `[lo, ks 0)`, child `j+1` in `[ks j, ks (j+1))`, the last child in
`[ks last, hi)`; `P lo hi c` is the property asked of a child over its
key range. -/
def chainSeq (P : Option K → Option K → α → Prop) :
    Option K → Option K → List K → List α → Prop
  | lo, hi, [], [c] => P lo hi c
  | lo, hi, s :: ss, c :: cs => P lo (some s) c ∧ chainSeq P (some s) hi ss cs
  | _, _, _, _ => False

/-- Well-formedness of a subtree of height `h` (leaves at `h = 0`) over
the optional key range `[lo, hi)`: key counts in `[lb, mx]` at the top
node and in `[mn, mx]` below it, leaf keys strictly ascending and within
range, and every internal node's children well-formed over the ranges cut
by its separators.  `lb` is `mn` except at the root, which only needs one
key.  Uniform leaf depth is the height indexing itself. -/
def WFN (mx mn : Nat) (lb : Nat) : Nat → Option K → Option K → BNode K V → Prop
  | 0, lo, hi, .leaf es =>
    lb ≤ es.length ∧ es.length ≤ mx ∧
    List.Chain' (· < ·) (es.map Prod.fst) ∧
    ∀ p ∈ es, okLo lo p.1 ∧ okHi hi p.1
  | 0, _, _, .internal _ _ => False
  | _ + 1, _, _, .leaf _ => False
  | h + 1, lo, hi, .internal ks cs =>
    lb ≤ ks.length ∧ ks.length ≤ mx ∧ chainSeq (WFN mx mn mn h) lo hi ks cs

/-- Well-formedness of a whole tree: a clamped order, and a root (if
any) well-formed at some height with the root exemption `lb = 1`. -/
def BPlusTree.WF (t : BPlusTree K V) : Prop :=
  MIN_ORDER ≤ t.order ∧
  match t.root with
  | none => True
  | some r => ∃ h, WFN t.maxKeys t.minKeys 1 h none none r

theorem WF_maxKeys_minKeys (t : BPlusTree K V) (h : t.WF) :
    2 ≤ t.maxKeys ∧ t.minKeys = t.maxKeys / 2 := by
  obtain ⟨ho, -⟩ := h
  unfold BPlusTree.maxKeys BPlusTree.minKeys MIN_ORDER at *
  omega

/-- The lower bound of the range of child `i`: the separator before it,
or the node's own lower bound for the leftmost child. -/
def lowAt (lo : Option K) (ks : List K) (i : Nat) : Option K :=
  if i = 0 then lo else some (ks.getD (i - 1) default)

/-- The upper bound of the range of child `i`: the separator after it,
or the node's own upper bound for the rightmost child. -/
def highAt (hi : Option K) (ks : List K) (i : Nat) : Option K :=
  if i < ks.length then some (ks.getD i default) else hi

theorem lowAt_zero (lo : Option K) (ks : List K) : lowAt lo ks 0 = lo := by
  simp [lowAt]

theorem lowAt_cons_succ (lo : Option K) (s : K) (ss : List K) (i : Nat) :
    lowAt lo (s :: ss) (i + 1) = lowAt (some s) ss i := by
  cases i <;> simp [lowAt]

theorem highAt_cons_succ (hi : Option K) (s : K) (ss : List K) (i : Nat) :
    highAt hi (s :: ss) (i + 1) = highAt hi ss i := by
  simp only [highAt, List.length_cons, Nat.add_lt_add_iff_right, List.getD_cons_succ]

theorem highAt_cons_zero (hi : Option K) (s : K) (ss : List K) :
    highAt hi (s :: ss) 0 = some s := by
  simp [highAt]

theorem highAt_nil (hi : Option K) (i : Nat) : highAt hi ([] : List K) i = hi := by
  simp [highAt]

section ChainSeqLemmas

variable {α : Type} {P Q : Option K → Option K → α → Prop}

theorem chainSeq_nil_iff (lo hi : Option K) (c : α) :
    chainSeq P lo hi [] [c] ↔ P lo hi c := Iff.rfl

theorem chainSeq_cons_iff (lo hi : Option K) (s : K) (ss : List K) (c : α)
    (cs : List α) :
    chainSeq P lo hi (s :: ss) (c :: cs) ↔
      P lo (some s) c ∧ chainSeq P (some s) hi ss cs := Iff.rfl

theorem chainSeq_not_nil_nil (lo hi : Option K) :
    ¬ chainSeq P lo hi [] [] := fun h => h

theorem chainSeq_not_nil_cons2 (lo hi : Option K) (c c2 : α) (cs : List α) :
    ¬ chainSeq P lo hi [] (c :: c2 :: cs) := fun h => h

theorem chainSeq_not_cons_nil (lo hi : Option K) (s : K) (ss : List K) :
    ¬ chainSeq P lo hi (s :: ss) [] := fun h => h

theorem chainSeq_not_any_nil {lo hi : Option K} {ks : List K} :
    ¬ chainSeq P lo hi ks ([] : List α) := by
  cases ks with
  | nil => exact chainSeq_not_nil_nil lo hi
  | cons s ss => exact chainSeq_not_cons_nil lo hi s ss

theorem chainSeq_length {lo hi : Option K} {ks : List K} {cs : List α}
    (h : chainSeq P lo hi ks cs) : cs.length = ks.length + 1 := by
  induction ks generalizing lo cs with
  | nil =>
    match cs with
    | [] => exact absurd h (chainSeq_not_nil_nil lo hi)
    | [c] => rfl
    | c :: c2 :: rest => exact absurd h (chainSeq_not_nil_cons2 lo hi c c2 rest)
  | cons s ss ih =>
    match cs with
    | [] => exact absurd h (chainSeq_not_cons_nil lo hi s ss)
    | c :: cs' =>
      obtain ⟨-, h2⟩ := (chainSeq_cons_iff lo hi s ss c cs').mp h
      simpa using ih h2

theorem chainSeq_mono (hPQ : ∀ lo hi c, P lo hi c → Q lo hi c)
    {lo hi : Option K} {ks : List K} {cs : List α}
    (h : chainSeq P lo hi ks cs) : chainSeq Q lo hi ks cs := by
  induction ks generalizing lo cs with
  | nil =>
    match cs with
    | [] => exact absurd h (chainSeq_not_nil_nil lo hi)
    | [c] => exact hPQ _ _ _ h
    | c :: c2 :: rest => exact absurd h (chainSeq_not_nil_cons2 lo hi c c2 rest)
  | cons s ss ih =>
    match cs with
    | [] => exact absurd h (chainSeq_not_cons_nil lo hi s ss)
    | c :: cs' =>
      obtain ⟨h1, h2⟩ := h
      exact ⟨hPQ _ _ _ h1, ih h2⟩

theorem chainSeq_nav [Inhabited α] {lo hi : Option K} {ks : List K}
    {cs : List α} (h : chainSeq P lo hi ks cs) :
    ∀ i, i ≤ ks.length →
      P (lowAt lo ks i) (highAt hi ks i) (cs.getD i default) := by
  induction ks generalizing lo cs with
  | nil =>
    intro i hile
    match cs with
    | [] => exact absurd h (chainSeq_not_nil_nil lo hi)
    | [c] =>
      have hi0 : i = 0 := by simpa using hile
      subst hi0
      simpa [lowAt_zero, highAt_nil] using h
    | c :: c2 :: rest => exact absurd h (chainSeq_not_nil_cons2 lo hi c c2 rest)
  | cons s ss ih =>
    intro i hile
    match cs with
    | [] => exact absurd h (chainSeq_not_cons_nil lo hi s ss)
    | c :: cs' =>
      obtain ⟨h1, h2⟩ := h
      cases i with
      | zero => simpa [lowAt_zero, highAt_cons_zero] using h1
      | succ i =>
        rw [lowAt_cons_succ, highAt_cons_succ, List.getD_cons_succ]
        exact ih h2 i (by simpa using hile)

theorem chainSeq_set [Inhabited α] {lo hi : Option K} {ks : List K}
    {cs : List α} (h : chainSeq P lo hi ks cs) :
    ∀ i, i ≤ ks.length →
      ∀ c2, P (lowAt lo ks i) (highAt hi ks i) c2 →
        chainSeq P lo hi ks (cs.set i c2) := by
  induction ks generalizing lo cs with
  | nil =>
    intro i hile c2 hc2
    match cs with
    | [] => exact absurd h (chainSeq_not_nil_nil lo hi)
    | [c] =>
      have hi0 : i = 0 := by simpa using hile
      subst hi0
      simpa [lowAt_zero, highAt_nil] using hc2
    | c :: c2' :: rest => exact absurd h (chainSeq_not_nil_cons2 lo hi c c2' rest)
  | cons s ss ih =>
    intro i hile c2 hc2
    match cs with
    | [] => exact absurd h (chainSeq_not_cons_nil lo hi s ss)
    | c :: cs' =>
      obtain ⟨h1, h2⟩ := h
      cases i with
      | zero =>
        rw [List.set_cons_zero]
        exact ⟨by simpa [lowAt_zero, highAt_cons_zero] using hc2, h2⟩
      | succ i =>
        rw [List.set_cons_succ]
        refine ⟨h1, ih h2 i (by simpa using hile) c2 ?_⟩
        rw [lowAt_cons_succ, highAt_cons_succ] at hc2
        exact hc2

theorem chainSeq_insert2 [Inhabited α] {lo hi : Option K} {ks : List K}
    {cs : List α} (h : chainSeq P lo hi ks cs) :
    ∀ i, i ≤ ks.length →
      ∀ pk (l r : α), P (lowAt lo ks i) (some pk) l →
        P (some pk) (highAt hi ks i) r →
        chainSeq P lo hi (ks.insertIdx i pk) ((cs.set i l).insertIdx (i + 1) r) := by
  induction ks generalizing lo cs with
  | nil =>
    intro i hile pk l r hl hr
    match cs with
    | [] => exact absurd h (chainSeq_not_nil_nil lo hi)
    | [c] =>
      have hi0 : i = 0 := by simpa using hile
      subst hi0
      simp only [List.insertIdx, List.set_cons_zero]
      refine ⟨by simpa [lowAt_zero] using hl, by simpa [highAt_nil] using hr⟩
    | c :: c2 :: rest => exact absurd h (chainSeq_not_nil_cons2 lo hi c c2 rest)
  | cons s ss ih =>
    intro i hile pk l r hl hr
    match cs with
    | [] => exact absurd h (chainSeq_not_cons_nil lo hi s ss)
    | c :: cs' =>
      obtain ⟨h1, h2⟩ := h
      cases i with
      | zero =>
        simp only [List.insertIdx, List.set_cons_zero]
        exact ⟨by simpa [lowAt_zero] using hl,
          by simpa [highAt_cons_zero] using hr, h2⟩
      | succ i =>
        simp only [List.insertIdx, List.set_cons_succ]
        refine ⟨h1, ih h2 i (by simpa using hile) pk l r ?_ ?_⟩
        · rw [lowAt_cons_succ] at hl
          exact hl
        · rw [highAt_cons_succ] at hr
          exact hr

theorem chainSeq_set_head_lo {lo hi : Option K} {ks : List K} {cs : List α}
    (h : chainSeq P lo hi ks cs) (c2 : α) (lo2 : Option K)
    (hc2 : P lo2 (highAt hi ks 0) c2) :
    chainSeq P lo2 hi ks (cs.set 0 c2) := by
  cases ks with
  | nil =>
    match cs with
    | [] => exact absurd h (chainSeq_not_nil_nil lo hi)
    | [c] => simpa [highAt_nil] using hc2
    | c :: c3 :: rest => exact absurd h (chainSeq_not_nil_cons2 lo hi c c3 rest)
  | cons s ss =>
    match cs with
    | [] => exact absurd h (chainSeq_not_cons_nil lo hi s ss)
    | c :: cs' =>
      rw [List.set_cons_zero]
      exact ⟨by simpa [highAt_cons_zero] using hc2, h.2⟩

theorem chainSeq_window2 [Inhabited α] {lo hi : Option K} {ks : List K}
    {cs : List α} (h : chainSeq P lo hi ks cs) :
    ∀ i, 1 ≤ i → i ≤ ks.length →
      ∀ s2 (cL cN : α), P (lowAt lo ks (i - 1)) (some s2) cL →
        P (some s2) (highAt hi ks i) cN →
        chainSeq P lo hi (ks.set (i - 1) s2) ((cs.set (i - 1) cL).set i cN) := by
  induction ks generalizing lo cs with
  | nil =>
    intro i h1i hile
    simp only [List.length_nil] at hile
    omega
  | cons s ss ih =>
    intro i h1i hile s2 cL cN hL hN
    match cs with
    | [] => exact absurd h (chainSeq_not_cons_nil lo hi s ss)
    | c :: cs' =>
      obtain ⟨hc1, hc2⟩ := h
      match i, h1i with
      | 1, _ =>
        simp only [Nat.sub_self, List.set_cons_zero, List.set_cons_succ]
        refine ⟨by simpa [lowAt_zero] using hL, ?_⟩
        refine chainSeq_set_head_lo hc2 cN (some s2) ?_
        rw [highAt_cons_succ] at hN
        exact hN
      | Nat.succ (Nat.succ i0), _ =>
        have harith : Nat.succ (Nat.succ i0) - 1 = Nat.succ i0 := by omega
        rw [harith, List.set_cons_succ, List.set_cons_succ, List.set_cons_succ]
        refine ⟨hc1, ih hc2 (i0 + 1) (by omega) (by simpa using hile) s2 cL cN ?_ ?_⟩
        · have heq : lowAt lo (s :: ss) (i0 + 2 - 1) = lowAt (some s) ss (i0 + 1 - 1) := by
            have h2 : i0 + 2 - 1 = (i0 + 1 - 1) + 1 := by omega
            rw [h2, lowAt_cons_succ]
          rw [heq] at hL
          exact hL
        · rw [highAt_cons_succ] at hN
          exact hN

theorem chainSeq_merge [Inhabited α] {lo hi : Option K} {ks : List K}
    {cs : List α} (h : chainSeq P lo hi ks cs) :
    ∀ i, 1 ≤ i → i ≤ ks.length →
      ∀ cM : α, P (lowAt lo ks (i - 1)) (highAt hi ks i) cM →
        chainSeq P lo hi (ks.eraseIdx (i - 1)) ((cs.set (i - 1) cM).eraseIdx i) := by
  induction ks generalizing lo cs with
  | nil =>
    intro i h1i hile
    simp only [List.length_nil] at hile
    omega
  | cons s ss ih =>
    intro i h1i hile cM hM
    match cs with
    | [] => exact absurd h (chainSeq_not_cons_nil lo hi s ss)
    | c :: cs' =>
      obtain ⟨hc1, hc2⟩ := h
      match i, h1i with
      | 1, _ =>
        simp only [Nat.sub_self, List.set_cons_zero, List.eraseIdx_cons_zero,
          List.eraseIdx_cons_succ]
        cases cs' with
        | nil => exact absurd hc2 chainSeq_not_any_nil
        | cons c2 rest =>
          rw [List.eraseIdx_cons_zero]
          refine chainSeq_set_head_lo hc2 cM lo ?_
          rw [highAt_cons_succ] at hM
          simpa [lowAt_zero] using hM
      | Nat.succ (Nat.succ i0), _ =>
        have harith : Nat.succ (Nat.succ i0) - 1 = Nat.succ i0 := by omega
        rw [harith, List.set_cons_succ, List.eraseIdx_cons_succ,
          List.eraseIdx_cons_succ]
        refine ⟨hc1, ih hc2 (i0 + 1) (by omega) (by simpa using hile) cM ?_⟩
        have hlow2 : lowAt lo (s :: ss) (i0 + 2 - 1) = lowAt (some s) ss (i0 + 1 - 1) := by
          have h2 : i0 + 2 - 1 = (i0 + 1 - 1) + 1 := by omega
          rw [h2, lowAt_cons_succ]
        rw [hlow2, highAt_cons_succ] at hM
        exact hM

theorem chainSeq_append {lo hi : Option K} {s : K} {ks1 ks2 : List K}
    {cs1 cs2 : List α} (h1 : chainSeq P lo (some s) ks1 cs1)
    (h2 : chainSeq P (some s) hi ks2 cs2) :
    chainSeq P lo hi (ks1 ++ s :: ks2) (cs1 ++ cs2) := by
  induction ks1 generalizing lo cs1 with
  | nil =>
    match cs1 with
    | [] => exact absurd h1 (chainSeq_not_nil_nil lo _)
    | [c] => exact ⟨h1, h2⟩
    | c :: c2 :: rest => exact absurd h1 (chainSeq_not_nil_cons2 lo _ c c2 rest)
  | cons s1 ss1 ih =>
    match cs1 with
    | [] => exact absurd h1 (chainSeq_not_cons_nil lo _ s1 ss1)
    | c :: cs1' =>
      obtain ⟨ha, hb⟩ := h1
      exact ⟨ha, ih hb⟩

theorem chainSeq_take_drop [Inhabited α] {lo hi : Option K} {ks : List K}
    {cs : List α} (h : chainSeq P lo hi ks cs) :
    ∀ m, m < ks.length →
      chainSeq P lo (some (ks.getD m default)) (ks.take m) (cs.take (m + 1)) ∧
      chainSeq P (some (ks.getD m default)) hi (ks.drop (m + 1)) (cs.drop (m + 1)) := by
  induction ks generalizing lo cs with
  | nil =>
    intro m hm
    simp at hm
  | cons s ss ih =>
    intro m hm
    match cs with
    | [] => exact absurd h (chainSeq_not_cons_nil lo hi s ss)
    | c :: cs' =>
      obtain ⟨h1, h2⟩ := h
      cases m with
      | zero =>
        simp only [List.getD_cons_zero, List.take_zero, List.take_succ_cons,
          List.take_zero, List.drop_succ_cons, List.drop_zero]
        exact ⟨h1, h2⟩
      | succ m =>
        have := ih h2 m (by simpa using hm)
        simp only [List.getD_cons_succ, List.take_succ_cons, List.drop_succ_cons]
        exact ⟨⟨h1, this.1⟩, this.2⟩

theorem chainSeq_snoc_iff {lo hi : Option K} {s : K} {ks : List K}
    {cs : List α} {c : α} :
    chainSeq P lo hi (ks ++ [s]) (cs ++ [c]) ↔
      chainSeq P lo (some s) ks cs ∧ P (some s) hi c := by
  induction ks generalizing lo cs with
  | nil =>
    match cs with
    | [] =>
      simp only [List.nil_append]
      constructor
      · intro h
        exact absurd h.2 (chainSeq_not_nil_nil _ hi)
      · intro h
        exact absurd h.1 (chainSeq_not_nil_nil lo _)
    | [c2] =>
      constructor
      · intro h
        exact ⟨h.1, h.2⟩
      · intro h
        exact ⟨h.1, h.2⟩
    | c2 :: c3 :: rest =>
      constructor
      · intro h
        have hlen := chainSeq_length h.2
        simp at hlen
      · intro h
        exact absurd h.1 (chainSeq_not_nil_cons2 lo _ c2 c3 rest)
  | cons s1 ss1 ih =>
    match cs with
    | [] =>
      constructor
      · intro h
        exact absurd h.2 chainSeq_not_any_nil
      · intro h
        exact absurd h.1 (chainSeq_not_cons_nil lo _ s1 ss1)
    | c2 :: cs' =>
      constructor
      · intro h
        obtain ⟨h1, h2⟩ := h
        obtain ⟨h3, h4⟩ := ih.mp h2
        exact ⟨⟨h1, h3⟩, h4⟩
      · intro h
        obtain ⟨⟨h1, h3⟩, h4⟩ := h
        exact ⟨h1, ih.mpr ⟨h3, h4⟩⟩

end ChainSeqLemmas

theorem foldr_append_eq_flatten {β : Type} (l : List (List β)) :
    l.foldr (· ++ ·) [] = l.flatten := by
  induction l with
  | nil => rfl
  | cons x xs ih => simp [List.flatten_cons, ih]

theorem BNode.toList_internal_flatten (ks : List K) (cs : List (BNode K V)) :
    BNode.toList (.internal ks cs) = (cs.map BNode.toList).flatten := by
  rw [BNode.toList_internal, foldr_append_eq_flatten]

theorem BNode.leafLists_internal_flatten (ks : List K) (cs : List (BNode K V)) :
    BNode.leafLists (.internal ks cs) = (cs.map BNode.leafLists).flatten := by
  rw [BNode.leafLists_internal, foldr_append_eq_flatten]

theorem BNode.toList_eq_leafLists_flatten (n : BNode K V) :
    n.toList = n.leafLists.flatten := by
  induction n using BNode.inductionOn with
  | hleaf es => simp [BNode.toList, BNode.leafLists]
  | hinternal ks cs ih =>
    rw [BNode.toList_internal_flatten, BNode.leafLists_internal_flatten]
    induction cs with
    | nil => simp
    | cons c cs ihc =>
      simp only [List.map_cons, List.flatten_cons, List.flatten_append]
      rw [ih c (by simp), ihc (fun c hc => ih c (by simp [hc]))]

theorem WFN_leaf_iff (mx mn lb : Nat) (lo hi : Option K) (es : List (K × V)) :
    WFN mx mn lb 0 lo hi (.leaf es) ↔
      lb ≤ es.length ∧ es.length ≤ mx ∧
      List.Chain' (· < ·) (es.map Prod.fst) ∧
      ∀ p ∈ es, okLo lo p.1 ∧ okHi hi p.1 := Iff.rfl

theorem WFN_internal_iff (mx mn lb h : Nat) (lo hi : Option K) (ks : List K)
    (cs : List (BNode K V)) :
    WFN mx mn lb (h + 1) lo hi (.internal ks cs) ↔
      lb ≤ ks.length ∧ ks.length ≤ mx ∧
      chainSeq (WFN mx mn mn h) lo hi ks cs := Iff.rfl

theorem WFN_not_leaf_succ (mx mn lb h : Nat) (lo hi : Option K)
    (es : List (K × V)) : ¬ WFN mx mn lb (h + 1) lo hi (.leaf es) := fun h => h

theorem WFN_not_internal_zero (mx mn lb : Nat) (lo hi : Option K) (ks : List K)
    (cs : List (BNode K V)) : ¬ WFN mx mn lb 0 lo hi (.internal ks cs) :=
  fun h => h

theorem WFN_numKeys {mx mn lb h : Nat} {lo hi : Option K} {n : BNode K V}
    (hw : WFN mx mn lb h lo hi n) : lb ≤ n.numKeys ∧ n.numKeys ≤ mx := by
  match h, n with
  | 0, .leaf es => exact ⟨hw.1, hw.2.1⟩
  | 0, .internal ks cs => exact hw.elim
  | h + 1, .leaf es => exact hw.elim
  | h + 1, .internal ks cs => exact ⟨hw.1, hw.2.1⟩

theorem WFN_mono_lb {mx mn lb lb2 h : Nat} {lo hi : Option K} {n : BNode K V}
    (hle : lb2 ≤ lb) (hw : WFN mx mn lb h lo hi n) :
    WFN mx mn lb2 h lo hi n := by
  match h, n with
  | 0, .leaf es => exact ⟨le_trans hle hw.1, hw.2⟩
  | 0, .internal ks cs => exact hw.elim
  | h + 1, .leaf es => exact hw.elim
  | h + 1, .internal ks cs => exact ⟨le_trans hle hw.1, hw.2⟩

theorem okLo_none (x : K) : okLo none x := trivial

theorem okHi_none (x : K) : okHi none x := trivial

theorem okLo_some_iff (a x : K) : okLo (some a) x ↔ a ≤ x := Iff.rfl

theorem okHi_some_iff (b x : K) : okHi (some b) x ↔ x < b := Iff.rfl

/-- Content facts for the child chain of an internal node, given the
corresponding facts one level down (`ih`). -/
theorem chainSeq_toList_facts {mx mn : Nat} (hmn : 1 ≤ mn) (h : Nat)
    (ih : ∀ {lb : Nat} {lo hi : Option K} {n : BNode K V},
      WFN mx mn lb h lo hi n →
      (1 ≤ lb → n.toList ≠ []) ∧
      (∀ p ∈ n.toList, okLo lo p.1 ∧ okHi hi p.1) ∧
      List.Chain' (· < ·) (n.toList.map Prod.fst)) :
    ∀ {lo hi : Option K} (ks : List K) (cs : List (BNode K V)),
      chainSeq (WFN mx mn mn h) lo hi ks cs →
      ((cs.map BNode.toList).flatten ≠ []) ∧
      (∀ p ∈ (cs.map BNode.toList).flatten, okLo lo p.1 ∧ okHi hi p.1) ∧
      List.Chain' (· < ·) ((cs.map BNode.toList).flatten.map Prod.fst) := by
  intro lo hi ks
  induction ks generalizing lo with
  | nil =>
    intro cs hcs
    match cs with
    | [] => exact absurd hcs (chainSeq_not_nil_nil lo hi)
    | [c] =>
      have hc := ih hcs
      simp only [List.map_cons, List.map_nil, List.flatten_cons,
        List.flatten_nil, List.append_nil]
      exact ⟨hc.1 hmn, hc.2.1, hc.2.2⟩
    | c :: c2 :: rest => exact absurd hcs (chainSeq_not_nil_cons2 lo hi c c2 rest)
  | cons s ss ihk =>
    intro cs hcs
    match cs with
    | [] => exact absurd hcs (chainSeq_not_cons_nil lo hi s ss)
    | c :: cs' =>
      obtain ⟨hc1, hc2⟩ := hcs
      have hhead := ih hc1
      have htail := ihk cs' hc2
      have hheadne : c.toList ≠ [] := hhead.1 hmn
      have htailne : (cs'.map BNode.toList).flatten ≠ [] := htail.1
      simp only [List.map_cons, List.flatten_cons]
      obtain ⟨q, hq⟩ := List.exists_mem_of_ne_nil _ hheadne
      obtain ⟨q2, hq2⟩ := List.exists_mem_of_ne_nil _ htailne
      have hqlo := (hhead.2.1 q hq).1
      have hqhi := (hhead.2.1 q hq).2
      have hq2lo := (htail.2.1 q2 hq2).1
      have hq2hi := (htail.2.1 q2 hq2).2
      rw [okHi_some_iff] at hqhi
      rw [okLo_some_iff] at hq2lo
      refine ⟨by simp [hheadne], ?_, ?_⟩
      · intro p hp
        rcases List.mem_append.mp hp with hpc | hpt
        · have hb := hhead.2.1 p hpc
          refine ⟨hb.1, ?_⟩
          rw [okHi_some_iff] at hb
          match hi with
          | none => exact okHi_none _
          | some b =>
            rw [okHi_some_iff]
            have hq2b : q2.1 < b := hq2hi
            exact lt_trans (lt_of_lt_of_le hb.2 hq2lo) hq2b
        · have hb := htail.2.1 p hpt
          refine ⟨?_, hb.2⟩
          rw [okLo_some_iff] at hb
          match lo with
          | none => exact okLo_none _
          | some a =>
            rw [okLo_some_iff]
            have haq : a ≤ q.1 := hqlo
            exact le_trans haq (le_trans (le_of_lt hqhi) hb.1)
      · rw [List.map_append]
        rw [List.chain'_append]
        refine ⟨hhead.2.2, htail.2.2, ?_⟩
        intro x hx y hy
        have hxmem : x ∈ c.toList.map Prod.fst := List.mem_of_mem_getLast? hx
        have hymem : y ∈ (cs'.map BNode.toList).flatten.map Prod.fst :=
          List.mem_of_mem_head? hy
        obtain ⟨px, hpx, rfl⟩ := List.mem_map.mp hxmem
        obtain ⟨py, hpy, rfl⟩ := List.mem_map.mp hymem
        have h1 := (hhead.2.1 px hpx).2
        have h2 := (htail.2.1 py hpy).1
        rw [okHi_some_iff] at h1
        rw [okLo_some_iff] at h2
        exact lt_of_lt_of_le h1 h2

/-- The combined content facts of a well-formed subtree: it is nonempty
(when its key count must be positive), all of its keys lie in its range,
and its stored keys are strictly ascending in leaf order. -/
theorem WFN_toList_facts {mx mn : Nat} (hmn : 1 ≤ mn) :
    ∀ (h : Nat) {lb : Nat} {lo hi : Option K} {n : BNode K V},
      WFN mx mn lb h lo hi n →
      (1 ≤ lb → n.toList ≠ []) ∧
      (∀ p ∈ n.toList, okLo lo p.1 ∧ okHi hi p.1) ∧
      List.Chain' (· < ·) (n.toList.map Prod.fst) := by
  intro h
  induction h with
  | zero =>
    intro lb lo hi n hw
    match n with
    | .leaf es =>
      rw [BNode.toList_leaf]
      refine ⟨fun h1 => ?_, fun p hp => hw.2.2.2 p hp, hw.2.2.1⟩
      have hlb := hw.1
      intro hnil
      subst hnil
      simp only [List.length_nil] at hlb
      omega
    | .internal ks cs => exact hw.elim
  | succ h ih =>
    intro lb lo hi n hw
    match n with
    | .leaf es => exact hw.elim
    | .internal ks cs =>
      have hfacts := chainSeq_toList_facts hmn h (fun hw2 => ih hw2) ks cs hw.2.2
      rw [BNode.toList_internal_flatten]
      exact ⟨fun _ => hfacts.1, hfacts.2.1, hfacts.2.2⟩

end Invariant

section ListUtil

variable {α β : Type}

theorem set_eq_take_cons_drop (cs : List α) (i : Nat) (hi : i < cs.length)
    (c : α) : cs.set i c = cs.take i ++ c :: cs.drop (i + 1) := by
  induction cs generalizing i with
  | nil => simp at hi
  | cons x xs ih =>
    cases i with
    | zero => simp
    | succ i =>
      simp only [List.set_cons_succ, List.take_succ_cons, List.drop_succ_cons,
        List.cons_append]
      rw [ih i (by simpa using hi)]

theorem getD_eq_take_drop (cs : List α) [Inhabited α] (i : Nat)
    (hi : i < cs.length) :
    cs = cs.take i ++ cs.getD i default :: cs.drop (i + 1) := by
  induction cs generalizing i with
  | nil => simp at hi
  | cons x xs ih =>
    cases i with
    | zero => simp
    | succ i =>
      simp only [List.take_succ_cons, List.drop_succ_cons, List.getD_cons_succ,
        List.cons_append, List.cons.injEq, true_and]
      exact ih i (by simpa using hi)

theorem set_insertIdx_decomp (cs : List α) (i : Nat) (hi : i < cs.length)
    (l r : α) :
    (cs.set i l).insertIdx (i + 1) r = cs.take i ++ l :: r :: cs.drop (i + 1) := by
  induction cs generalizing i with
  | nil => simp at hi
  | cons x xs ih =>
    cases i with
    | zero => simp
    | succ i =>
      rw [List.set_cons_succ]
      have hstep : (x :: xs.set i l).insertIdx (i + 1 + 1) r =
          x :: (xs.set i l).insertIdx (i + 1) r := by simp
      rw [hstep, ih i (by simpa using hi)]
      simp

theorem set_eraseIdx_decomp (cs : List α) (m : Nat) (hm : m + 1 < cs.length)
    (c : α) :
    (cs.set m c).eraseIdx (m + 1) = cs.take m ++ c :: cs.drop (m + 2) := by
  induction cs generalizing m with
  | nil => simp at hm
  | cons x xs ih =>
    cases m with
    | zero =>
      simp only [List.set_cons_zero, List.eraseIdx_cons_succ, List.take_zero,
        List.nil_append, List.eraseIdx_cons_zero]
      cases xs with
      | nil => simp at hm
      | cons y ys => simp
    | succ m =>
      simp only [List.set_cons_succ, List.eraseIdx_cons_succ,
        List.take_succ_cons, List.cons_append]
      rw [ih m (by simpa using hm)]
      rfl

end ListUtil

section SearchProof

variable [LinearOrder K] [Inhabited K] [Inhabited V]

theorem findChildIndex_lt_le (ks : List K) (key : K) :
    ∀ j, j < findChildIndex ks key → ks.getD j default ≤ key := by
  induction ks with
  | nil => simp [findChildIndex]
  | cons s rest ih =>
    intro j hj
    by_cases hs : s ≤ key
    · rw [findChildIndex_cons_le rest hs] at hj
      cases j with
      | zero => simpa using hs
      | succ j => simpa using ih j (by omega)
    · rw [findChildIndex_cons_gt rest (not_le.mp hs)] at hj
      omega

theorem findValue_append (A B : List (K × V)) (key : K) :
    findValue (A ++ B) key =
      match findValue A key with
      | some v => some v
      | none => findValue B key := by
  induction A with
  | nil => simp [findValue]
  | cons p rest ih =>
    by_cases hp : p.1 = key <;> simp [findValue, hp, ih]

theorem findValue_eq_none (A : List (K × V)) (key : K)
    (h : ∀ p ∈ A, p.1 ≠ key) : findValue A key = none := by
  induction A with
  | nil => rfl
  | cons p rest ih =>
    have hp := h p (by simp)
    simp only [findValue, hp, if_false]
    exact ih fun q hq => h q (by simp [hq])

theorem findValue_skip_left (A B : List (K × V)) (key : K)
    (h : ∀ p ∈ A, p.1 ≠ key) :
    findValue (A ++ B) key = findValue B key := by
  rw [findValue_append, findValue_eq_none A key h]

theorem findValue_skip_right (A B : List (K × V)) (key : K)
    (h : ∀ p ∈ B, p.1 ≠ key) :
    findValue (A ++ B) key = findValue A key := by
  rw [findValue_append, findValue_eq_none B key h]
  cases findValue A key <;> rfl

/-- Strict ordering facts about the separators of a well-formed child
chain: separators strictly ascend and lie strictly inside the node's
range. -/
theorem chainSeq_sep_facts {mx mn : Nat} (hmn : 1 ≤ mn) {h : Nat}
    {lo hi : Option K} {ks : List K} {cs : List (BNode K V)}
    (hcs : chainSeq (WFN mx mn mn h) lo hi ks cs) :
    List.Chain' (· < ·) ks ∧ ∀ s ∈ ks, okLoS lo s ∧ okHi hi s := by
  induction ks generalizing lo cs with
  | nil => simp
  | cons s ss ih =>
    match cs with
    | [] => exact absurd hcs (chainSeq_not_cons_nil lo hi s ss)
    | c :: cs' =>
      obtain ⟨hc1, hc2⟩ := hcs
      have hcfacts := WFN_toList_facts hmn h hc1
      obtain ⟨q, hq⟩ := List.exists_mem_of_ne_nil _ (hcfacts.1 hmn)
      have hqb := hcfacts.2.1 q hq
      have htailfacts := chainSeq_toList_facts hmn h
        (fun hw => WFN_toList_facts hmn h hw) ss cs' hc2
      obtain ⟨q2, hq2⟩ := List.exists_mem_of_ne_nil _ htailfacts.1
      have hq2b := htailfacts.2.1 q2 hq2
      have htail := ih hc2
      constructor
      · rw [List.chain'_cons']
        refine ⟨?_, htail.1⟩
        intro s2 hs2
        have hs2mem : s2 ∈ ss := List.mem_of_mem_head? hs2
        have := (htail.2 s2 hs2mem).1
        exact this
      · intro s2 hs2
        rcases List.mem_cons.mp hs2 with rfl | hmem
        · constructor
          · match lo with
            | none => exact trivial
            | some a =>
              have h1 : a ≤ q.1 := hqb.1
              have h2 : q.1 < s2 := hqb.2
              exact lt_of_le_of_lt h1 h2
          · match hi with
            | none => exact trivial
            | some b =>
              have h1 : s2 ≤ q2.1 := hq2b.1
              have h2 : q2.1 < b := hq2b.2
              exact lt_of_le_of_lt h1 h2
        · have hm := htail.2 s2 hmem
          refine ⟨?_, hm.2⟩
          match lo with
          | none => exact trivial
          | some a =>
            have h1 : a ≤ q.1 := hqb.1
            have h2 : q.1 < s := hqb.2
            have h3 : s < s2 := hm.1
            exact lt_trans (lt_of_le_of_lt h1 h2) h3

theorem descend_okLo {ks : List K} {lo : Option K} {key : K}
    (hlo : okLo lo key) :
    okLo (lowAt lo ks (findChildIndex ks key)) key := by
  by_cases h0 : findChildIndex ks key = 0
  · rw [h0, lowAt_zero]
    exact hlo
  · unfold lowAt
    rw [if_neg h0]
    rw [okLo_some_iff]
    exact findChildIndex_pred_le ks key (by omega)

theorem descend_okHi {ks : List K} {hi : Option K} {key : K}
    (hhi : okHi hi key) :
    okHi (highAt hi ks (findChildIndex ks key)) key := by
  by_cases h : findChildIndex ks key < ks.length
  · unfold highAt
    rw [if_pos h, okHi_some_iff]
    exact findChildIndex_at_gt ks key h
  · unfold highAt
    rw [if_neg h]
    exact hhi

theorem descend_prefix_lt {mx mn : Nat} (hmn : 1 ≤ mn) {h : Nat}
    {lo hi : Option K} {ks : List K} {cs : List (BNode K V)}
    (hcs : chainSeq (WFN mx mn mn h) lo hi ks cs) (key : K) :
    ∀ p ∈ ((cs.take (findChildIndex ks key)).map BNode.toList).flatten,
      p.1 < key := by
  intro p hp
  rw [List.mem_flatten] at hp
  obtain ⟨l, hl, hpl⟩ := hp
  rw [List.mem_map] at hl
  obtain ⟨c, hc, rfl⟩ := hl
  obtain ⟨j, hjlen, rfl⟩ := List.getElem_of_mem hc
  have hjlt : j < findChildIndex ks key := by
    have := List.length_take_le (findChildIndex ks key) cs
    simp only [List.length_take] at hjlen
    omega
  have hjks : j < ks.length :=
    lt_of_lt_of_le hjlt (findChildIndex_le_length ks key)
  have hget : (cs.take (findChildIndex ks key))[j] = cs.getD j default := by
    rw [List.getElem_take]
    exact (List.getD_eq_getElem cs default (by
      have := chainSeq_length hcs
      omega)).symm
  rw [hget] at hpl
  have hnav := chainSeq_nav hcs j (by omega)
  have hb := (WFN_toList_facts hmn h hnav).2.1 p hpl
  have hhj : highAt hi ks j = some (ks.getD j default) := by
    unfold highAt
    rw [if_pos hjks]
  rw [hhj] at hb
  have h1 : p.1 < ks.getD j default := hb.2
  exact lt_of_lt_of_le h1 (findChildIndex_lt_le ks key j hjlt)

theorem descend_suffix_gt {mx mn : Nat} (hmn : 1 ≤ mn) {h : Nat}
    {lo hi : Option K} {ks : List K} {cs : List (BNode K V)}
    (hcs : chainSeq (WFN mx mn mn h) lo hi ks cs) (key : K) :
    ∀ p ∈ ((cs.drop (findChildIndex ks key + 1)).map BNode.toList).flatten,
      key < p.1 := by
  intro p hp
  rw [List.mem_flatten] at hp
  obtain ⟨l, hl, hpl⟩ := hp
  rw [List.mem_map] at hl
  obtain ⟨c, hc, rfl⟩ := hl
  obtain ⟨j, hjlen, rfl⟩ := List.getElem_of_mem hc
  have hlen := chainSeq_length hcs
  simp only [List.length_drop] at hjlen
  set i := findChildIndex ks key with hidef
  have hiks : i < ks.length := by omega
  have hgetd : (cs.drop (i + 1))[j] = cs.getD (i + 1 + j) default := by
    rw [List.getElem_drop]
    exact (List.getD_eq_getElem cs default (by omega)).symm
  rw [hgetd] at hpl
  have hnav := chainSeq_nav hcs (i + 1 + j) (by omega)
  have hb := (WFN_toList_facts hmn h hnav).2.1 p hpl
  have hlj : lowAt lo ks (i + 1 + j) = some (ks.getD (i + j) default) := by
    unfold lowAt
    rw [if_neg (by omega)]
    congr 2
    omega
  rw [hlj] at hb
  have h1 : ks.getD (i + j) default ≤ p.1 := hb.1
  have h2 : key < ks.getD i default := findChildIndex_at_gt ks key hiks
  rcases Nat.eq_zero_or_pos j with rfl | hjpos
  · simpa using lt_of_lt_of_le h2 (by simpa using h1)
  · have hsorted := (chainSeq_sep_facts hmn hcs).1
    have h3 : ks.getD i default < ks.getD (i + j) default :=
      sorted_getD_lt hsorted (by omega) (by omega)
    exact lt_of_lt_of_le (lt_trans h2 h3) h1

theorem flatten_decomp_at {α : Type} [Inhabited α] (cs : List α) (i : Nat)
    (hi : i < cs.length) (f : α → List (K × V)) :
    (cs.map f).flatten =
      ((cs.take i).map f).flatten ++ f (cs.getD i default) ++
      ((cs.drop (i + 1)).map f).flatten := by
  conv_lhs => rw [getD_eq_take_drop cs i hi]
  simp [List.map_append, List.flatten_append]

/-- `search` below the root agrees with first-match lookup on the whole
stored content, on any well-formed subtree whose range admits the key. -/
theorem searchNode_eq_findValue {mx mn : Nat} (hmn : 1 ≤ mn) (key : K) :
    ∀ (h : Nat) {lb : Nat} {lo hi : Option K} {n : BNode K V},
      WFN mx mn lb h lo hi n → okLo lo key → okHi hi key →
      searchNode key n = findValue n.toList key := by
  intro h
  induction h with
  | zero =>
    intro lb lo hi n hw hlo hhi
    match n with
    | .leaf es => rw [searchNode, BNode.toList_leaf]
    | .internal ks cs => exact hw.elim
  | succ h ih =>
    intro lb lo hi n hw hlo hhi
    match n with
    | .leaf es => exact hw.elim
    | .internal ks cs =>
      have hcs := hw.2.2
      have hlen := chainSeq_length hcs
      set i := findChildIndex ks key with hidef
      have hile : i ≤ ks.length := findChildIndex_le_length ks key
      rw [searchNode, BNode.toList_internal_flatten]
      rw [flatten_decomp_at cs i (by omega) BNode.toList]
      rw [List.append_assoc]
      rw [findValue_skip_left _ _ key
        (fun p hp => ne_of_lt (descend_prefix_lt hmn hcs key p hp))]
      rw [findValue_skip_right _ _ key
        (fun p hp => (ne_of_lt (descend_suffix_gt hmn hcs key p hp)).symm)]
      have hnav := chainSeq_nav hcs i hile
      exact ih hnav (descend_okLo hlo) (descend_okHi hhi)

end SearchProof

section ListInsertLemmas

variable [LinearOrder K] [Inhabited K] [Inhabited V]

theorem listInsert_mem (key : K) (v : V) (es : List (K × V)) :
    ∀ p ∈ listInsert key v es, p = (key, v) ∨ p ∈ es := by
  induction es with
  | nil => simp [listInsert]
  | cons q rest ih =>
    obtain ⟨k, w⟩ := q
    intro p hp
    rw [listInsert] at hp
    split_ifs at hp with h1 h2
    · rcases List.mem_cons.mp hp with rfl | hp2
      · exact Or.inl rfl
      · exact Or.inr hp2
    · rcases List.mem_cons.mp hp with rfl | hp2
      · exact Or.inl rfl
      · exact Or.inr (List.mem_cons_of_mem _ hp2)
    · rcases List.mem_cons.mp hp with rfl | hp2
      · exact Or.inr (List.mem_cons_self _ _)
      · rcases ih p hp2 with h | h
        · exact Or.inl h
        · exact Or.inr (List.mem_cons_of_mem _ h)

theorem listInsert_sorted (key : K) (v : V) :
    ∀ es : List (K × V), List.Chain' (· < ·) (es.map Prod.fst) →
      List.Chain' (· < ·) ((listInsert key v es).map Prod.fst) := by
  intro es
  simp only [List.chain'_iff_pairwise]
  induction es with
  | nil =>
    intro _
    simp [listInsert]
  | cons q rest ih =>
    obtain ⟨k, w⟩ := q
    intro hs
    simp only [List.map_cons, List.pairwise_cons] at hs
    rw [listInsert]
    split_ifs with h1 h2
    · simp only [List.map_cons, List.pairwise_cons]
      refine ⟨?_, hs.1, hs.2⟩
      intro x hx
      rcases List.mem_cons.mp hx with rfl | hmem
      · exact h1
      · exact lt_trans h1 (hs.1 x hmem)
    · subst h2
      simp only [List.map_cons, List.pairwise_cons]
      exact hs
    · have hk : k < key := lt_of_le_of_ne (not_lt.mp h1) (Ne.symm h2)
      simp only [List.map_cons, List.pairwise_cons]
      refine ⟨?_, ih hs.2⟩
      intro x hx
      obtain ⟨p, hp, rfl⟩ := List.mem_map.mp hx
      rcases listInsert_mem key v rest p hp with rfl | hpm
      · exact hk
      · exact hs.1 p.1 (List.mem_map_of_mem Prod.fst hpm)

theorem listInsert_bounds (key : K) (v : V) (es : List (K × V))
    {lo hi : Option K}
    (hb : ∀ p ∈ es, okLo lo p.1 ∧ okHi hi p.1)
    (hlo : okLo lo key) (hhi : okHi hi key) :
    ∀ p ∈ listInsert key v es, okLo lo p.1 ∧ okHi hi p.1 := by
  intro p hp
  rcases listInsert_mem key v es p hp with rfl | hm
  · exact ⟨hlo, hhi⟩
  · exact hb p hm

theorem listInsert_length (key : K) (v : V) (es : List (K × V)) :
    (listInsert key v es).length = es.length + 1 ∨
    (listInsert key v es).length = es.length := by
  induction es with
  | nil => simp [listInsert]
  | cons q rest ih =>
    obtain ⟨k, w⟩ := q
    rw [listInsert]
    split_ifs with h1 h2
    · left
      simp
    · right
      simp
    · rcases ih with h | h
      · left
        simp only [List.length_cons, h]
      · right
        simp only [List.length_cons, h]

theorem listInsert_append_left (key : K) (v : V) (A B : List (K × V))
    (hA : ∀ p ∈ A, p.1 < key) :
    listInsert key v (A ++ B) = A ++ listInsert key v B := by
  induction A with
  | nil => simp
  | cons q rest ih =>
    obtain ⟨k, w⟩ := q
    have hq : k < key := hA (k, w) (by simp)
    rw [List.cons_append, listInsert]
    split_ifs with h1 h2
    · exact absurd h1 (not_lt.mpr (le_of_lt hq))
    · exact absurd h2 (ne_of_gt hq)
    · rw [ih fun p hp => hA p (by simp [hp])]
      rfl

theorem listInsert_append_right (key : K) (v : V) (B C : List (K × V))
    (hC : ∀ p ∈ C, key < p.1) :
    listInsert key v (B ++ C) = listInsert key v B ++ C := by
  induction B with
  | nil =>
    cases C with
    | nil => simp
    | cons c rest =>
      obtain ⟨k, w⟩ := c
      have hc : key < k := hC (k, w) (by simp)
      simp only [List.nil_append, listInsert]
      rw [if_pos hc]
      rfl
  | cons q rest ih =>
    obtain ⟨k, w⟩ := q
    rw [List.cons_append, listInsert, listInsert]
    split_ifs with h1 h2
    · simp
    · simp
    · simp only [List.cons_append, List.cons.injEq, true_and]
      exact ih

/-- The insertion position the binary search finds on a sorted key
array: the number of keys less than `key`. -/
def twPos (key : K) (ks : List K) : Nat :=
  (ks.takeWhile (fun x => decide (x < key))).length

theorem findKeyPosition_eq_twPos (ks : List K) (key : K)
    (hs : List.Chain' (· < ·) ks) : findKeyPosition ks key = twPos key ks :=
  findKeyPosition_eq ks key hs

/-- What the duplicate check and slot update/insertion of
`BPlusTree::insert` at the leaf do, in terms of the specification-side
`listInsert`: on a sorted leaf, the checked slot holds the key exactly
when the key is present, overwriting it is `listInsert`, and inserting at
the found position is `listInsert` for an absent key. -/
theorem leaf_insert_spec (key : K) (v : V) :
    ∀ es : List (K × V), List.Chain' (· < ·) (es.map Prod.fst) →
      twPos key (es.map Prod.fst) ≤ es.length ∧
      ((twPos key (es.map Prod.fst) < es.length ∧
          (es.map Prod.fst).getD (twPos key (es.map Prod.fst)) default = key) →
        es.set (twPos key (es.map Prod.fst)) (key, v) = listInsert key v es ∧
        findValue es key ≠ none) ∧
      (¬ (twPos key (es.map Prod.fst) < es.length ∧
          (es.map Prod.fst).getD (twPos key (es.map Prod.fst)) default = key) →
        es.insertIdx (twPos key (es.map Prod.fst)) (key, v) = listInsert key v es ∧
        findValue es key = none) := by
  intro es
  induction es with
  | nil =>
    intro _
    refine ⟨by simp [twPos], by simp, fun _ => ⟨?_, rfl⟩⟩
    simp [twPos, listInsert, List.insertIdx]
  | cons q rest ih =>
    obtain ⟨k, w⟩ := q
    intro hs
    have hs' : List.Chain' (· < ·) (rest.map Prod.fst) := by
      simp only [List.map_cons] at hs
      exact hs.tail
    have hpw := List.chain'_iff_pairwise.mp hs
    simp only [List.map_cons, List.pairwise_cons] at hpw
    rcases lt_trichotomy key k with hkk | hkk | hkk
    · have hdec : decide (k < key) = false := by
        simp [not_lt.mpr (le_of_lt hkk)]
      have hpos : twPos key (((k, w) :: rest).map Prod.fst) = 0 := by
        simp [twPos, List.takeWhile_cons_of_neg, hdec]
      rw [hpos]
      refine ⟨by omega, ?_, ?_⟩
      · intro hfound
        have hkey : k = key := by simpa using hfound.2
        exact absurd hkey (ne_of_gt hkk)
      · intro _
        constructor
        · have hins : List.insertIdx 0 (key, v) ((k, w) :: rest) =
              (key, v) :: (k, w) :: rest := by simp
          rw [hins, listInsert, if_pos hkk]
        · rw [findValue]
          rw [if_neg (ne_of_gt hkk)]
          refine findValue_eq_none rest key fun p hp => ?_
          have : k < p.1 := hpw.1 p.1 (List.mem_map_of_mem Prod.fst hp)
          exact ne_of_gt (lt_trans hkk this)
    · subst hkk
      have hdec : decide (key < key) = false := by simp
      have hpos : twPos key (((key, w) :: rest).map Prod.fst) = 0 := by
        simp [twPos, List.takeWhile_cons_of_neg, hdec]
      rw [hpos]
      have hcond : (0 < ((key, w) :: rest).length ∧
          (((key, w) :: rest).map Prod.fst).getD 0 default = key) := by
        simp
      refine ⟨by omega, fun _ => ?_, fun hnc => absurd hcond hnc⟩
      constructor
      · simp [listInsert]
      · simp [findValue]
    · have hdec : decide (k < key) = true := by simp [hkk]
      have hpos : twPos key (((k, w) :: rest).map Prod.fst) =
          twPos key (rest.map Prod.fst) + 1 := by
        simp [twPos, List.takeWhile_cons, hkk]
      rw [hpos]
      obtain ⟨ih1, ih2, ih3⟩ := ih hs'
      refine ⟨by simp only [List.length_cons]; omega, ?_, ?_⟩
      · intro hfound
        have hfound' : twPos key (rest.map Prod.fst) < rest.length ∧
            (rest.map Prod.fst).getD (twPos key (rest.map Prod.fst)) default = key := by
          constructor
          · have := hfound.1
            simp only [List.length_cons] at this
            omega
          · have := hfound.2
            simpa using this
        obtain ⟨hset, hfv⟩ := ih2 hfound'
        constructor
        · rw [List.set_cons_succ, hset, listInsert,
            if_neg (not_lt.mpr (le_of_lt hkk)), if_neg (Ne.symm (ne_of_lt hkk))]
        · rw [findValue, if_neg (ne_of_lt hkk)]
          exact hfv
      · intro hnc
        have hnc' : ¬ (twPos key (rest.map Prod.fst) < rest.length ∧
            (rest.map Prod.fst).getD (twPos key (rest.map Prod.fst)) default = key) := by
          intro hc
          exact hnc ⟨by simp only [List.length_cons]; omega, by simpa using hc.2⟩
        obtain ⟨hins, hfv⟩ := ih3 hnc'
        constructor
        · have hstep : ((k, w) :: rest).insertIdx (twPos key (rest.map Prod.fst) + 1)
              (key, v) = (k, w) :: rest.insertIdx (twPos key (rest.map Prod.fst)) (key, v) := by
            simp
          rw [hstep, hins, listInsert, if_neg (not_lt.mpr (le_of_lt hkk)),
            if_neg (Ne.symm (ne_of_lt hkk))]
        · rw [findValue, if_neg (ne_of_lt hkk)]
          exact hfv

theorem headD_eq_getD_zero {α : Type} [Inhabited α] (l : List α) :
    l.headD default = l.getD 0 default := by
  cases l <;> rfl

theorem headD_drop {α : Type} [Inhabited α] (l : List α) (n : Nat) :
    (l.drop n).headD default = l.getD n default := by
  induction l generalizing n with
  | nil => simp
  | cons x xs ih =>
    cases n with
    | zero => rfl
    | succ n => simpa using ih n

theorem sorted_take_lt (es : List (K × V))
    (hpw : List.Pairwise (· < ·) (es.map Prod.fst)) (sp : Nat)
    (hsp : sp < es.length) :
    ∀ p ∈ es.take sp, p.1 < (es.getD sp default).1 := by
  intro p hp
  obtain ⟨j, hjlen, rfl⟩ := List.getElem_of_mem hp
  have hjsp : j < sp := by
    simp only [List.length_take] at hjlen
    omega
  rw [List.getElem_take]
  rw [List.getD_eq_getElem _ _ hsp]
  have := List.pairwise_iff_getElem.mp hpw j sp
    (by simpa using lt_trans hjsp hsp) (by simpa using hsp) hjsp
  simpa using this

theorem sorted_drop_ge (es : List (K × V))
    (hpw : List.Pairwise (· < ·) (es.map Prod.fst)) (sp : Nat)
    (hsp : sp < es.length) :
    ∀ p ∈ es.drop sp, (es.getD sp default).1 ≤ p.1 := by
  intro p hp
  obtain ⟨j, hjlen, rfl⟩ := List.getElem_of_mem hp
  simp only [List.length_drop] at hjlen
  rw [List.getElem_drop]
  rw [List.getD_eq_getElem _ _ hsp]
  rcases Nat.eq_zero_or_pos j with rfl | hj
  · simp
  · have := List.pairwise_iff_getElem.mp hpw sp (sp + j)
      (by simpa using hsp) (by simpa using (by omega : sp + j < es.length))
      (by omega)
    simp only [List.getElem_map] at this
    exact le_of_lt this

/-- What `splitLeaf` produces on an overflowing sorted leaf: the first
`(maxKeys + 1) / 2` slots stay, the rest become the new right leaf, the
promoted key is the right leaf's first key (and stays in it); both halves
are well-formed over the ranges that the promoted key cuts. -/
theorem splitLeaf_spec {mx mn : Nat} (hmx : 2 ≤ mx) (hmn : mn = mx / 2)
    {lo hi : Option K} (es : List (K × V)) (hlen : es.length = mx + 1)
    (hsort : List.Chain' (· < ·) (es.map Prod.fst))
    (hb : ∀ p ∈ es, okLo lo p.1 ∧ okHi hi p.1) :
    splitLeaf mx es = InsertResult.split (.leaf (es.take ((mx + 1) / 2)))
      ((es.getD ((mx + 1) / 2) default).1) (.leaf (es.drop ((mx + 1) / 2))) ∧
    WFN mx mn mn 0 lo (some ((es.getD ((mx + 1) / 2) default).1))
      (.leaf (es.take ((mx + 1) / 2))) ∧
    WFN mx mn mn 0 (some ((es.getD ((mx + 1) / 2) default).1)) hi
      (.leaf (es.drop ((mx + 1) / 2))) ∧
    okLoS lo ((es.getD ((mx + 1) / 2) default).1) ∧
    okHi hi ((es.getD ((mx + 1) / 2) default).1) := by
  have hsp1 : 1 ≤ (mx + 1) / 2 := by omega
  have hspmx : (mx + 1) / 2 ≤ mx := by omega
  have hsplt : (mx + 1) / 2 < es.length := by omega
  have hpw := List.chain'_iff_pairwise.mp hsort
  have hpk : ((es.drop ((mx + 1) / 2)).headD default).1 =
      (es.getD ((mx + 1) / 2) default).1 := by
    rw [headD_drop]
  have hmem : es.getD ((mx + 1) / 2) default ∈ es := by
    rw [List.getD_eq_getElem _ _ hsplt]
    exact List.getElem_mem hsplt
  have hpkb := hb _ hmem
  refine ⟨?_, ?_, ?_, ?_, hpkb.2⟩
  · rw [splitLeaf]
    rw [hpk]
  · refine ⟨?_, ?_, ?_, ?_⟩
    · simp only [List.length_take]
      omega
    · simp only [List.length_take]
      omega
    · rw [List.chain'_iff_pairwise]
      exact List.Pairwise.sublist (List.Sublist.map Prod.fst (List.take_sublist _ _)) hpw
    · intro p hp
      exact ⟨(hb p (List.mem_of_mem_take hp)).1,
        sorted_take_lt es hpw _ hsplt p hp⟩
  · refine ⟨?_, ?_, ?_, ?_⟩
    · simp only [List.length_drop]
      omega
    · simp only [List.length_drop]
      omega
    · rw [List.chain'_iff_pairwise]
      exact List.Pairwise.sublist (List.Sublist.map Prod.fst (List.drop_sublist _ _)) hpw
    · intro p hp
      exact ⟨sorted_drop_ge es hpw _ hsplt p hp,
        (hb p (List.mem_of_mem_drop hp)).2⟩
  · match lo with
    | none => exact trivial
    | some a =>
      have h0 : es.getD 0 default ∈ es := by
        rw [List.getD_eq_getElem _ _ (by omega)]
        exact List.getElem_mem _
      have h0b := (hb _ h0).1
      have h0lt : (es.getD 0 default).1 < (es.getD ((mx + 1) / 2) default).1 := by
        rw [List.getD_eq_getElem _ _ (by omega : (0:Nat) < es.length),
          List.getD_eq_getElem _ _ hsplt]
        have := List.pairwise_iff_getElem.mp hpw 0 ((mx + 1) / 2)
          (by simpa using (by omega : (0:Nat) < es.length))
          (by simpa using hsplt) (by omega)
        simpa using this
      exact lt_of_le_of_lt h0b h0lt

/-- What `splitInternal` produces on an overflowing internal node whose
child chain is well-formed: `keys[splitPoint]` is promoted (moved), the
two halves are well-formed internal nodes over the ranges it cuts, and
no stored pair is lost. -/
theorem splitInternal_spec {mx mn : Nat} (hmx : 2 ≤ mx) (hmn : mn = mx / 2)
    {h : Nat} {lo hi : Option K} (ks : List K) (cs : List (BNode K V))
    (hcs : chainSeq (WFN mx mn mn h) lo hi ks cs)
    (hlen : ks.length = mx + 1) :
    splitInternal mx ks cs = InsertResult.split
      (.internal (ks.take ((mx + 1) / 2)) (cs.take ((mx + 1) / 2 + 1)))
      (ks.getD ((mx + 1) / 2) default)
      (.internal (ks.drop ((mx + 1) / 2 + 1)) (cs.drop ((mx + 1) / 2 + 1))) ∧
    WFN mx mn mn (h + 1) lo (some (ks.getD ((mx + 1) / 2) default))
      (.internal (ks.take ((mx + 1) / 2)) (cs.take ((mx + 1) / 2 + 1))) ∧
    WFN mx mn mn (h + 1) (some (ks.getD ((mx + 1) / 2) default)) hi
      (.internal (ks.drop ((mx + 1) / 2 + 1)) (cs.drop ((mx + 1) / 2 + 1))) ∧
    okLoS lo (ks.getD ((mx + 1) / 2) default) ∧
    okHi hi (ks.getD ((mx + 1) / 2) default) ∧
    BNode.toList (.internal (ks.take ((mx + 1) / 2)) (cs.take ((mx + 1) / 2 + 1)) : BNode K V) ++
      BNode.toList (.internal (ks.drop ((mx + 1) / 2 + 1)) (cs.drop ((mx + 1) / 2 + 1)) : BNode K V) =
      BNode.toList (.internal ks cs : BNode K V) := by
  have hmn1 : 1 ≤ mn := by omega
  have hsplt : (mx + 1) / 2 < ks.length := by omega
  have htd := chainSeq_take_drop hcs ((mx + 1) / 2) hsplt
  have hsep := chainSeq_sep_facts hmn1 hcs
  have hmemk : ks.getD ((mx + 1) / 2) default ∈ ks := by
    rw [List.getD_eq_getElem _ _ hsplt]
    exact List.getElem_mem _
  have hsepk := hsep.2 _ hmemk
  have hclen := chainSeq_length hcs
  refine ⟨rfl, ?_, ?_, hsepk.1, hsepk.2, ?_⟩
  · refine ⟨?_, ?_, htd.1⟩
    · simp only [List.length_take]
      omega
    · simp only [List.length_take]
      omega
  · refine ⟨?_, ?_, htd.2⟩
    · simp only [List.length_drop]
      omega
    · simp only [List.length_drop]
      omega
  · rw [BNode.toList_internal_flatten, BNode.toList_internal_flatten,
      BNode.toList_internal_flatten]
    rw [← List.flatten_append, ← List.map_append, List.take_append_drop]

/-- Splicing an updated child's contents back into the flattened whole:
inserting into the descent child is inserting into the whole content
list, because all pairs left of it are strictly below the key and all
pairs right of it strictly above. -/
theorem insert_flatten_glue {mx mn : Nat} (hmn1 : 1 ≤ mn) {h : Nat}
    {lo hi : Option K} {ks : List K} {cs : List (BNode K V)}
    (hcs : chainSeq (WFN mx mn mn h) lo hi ks cs) (key : K) (v : V) :
    ((cs.take (findChildIndex ks key)).map BNode.toList).flatten ++
      (listInsert key v (cs.getD (findChildIndex ks key) default).toList ++
        ((cs.drop (findChildIndex ks key + 1)).map BNode.toList).flatten) =
    listInsert key v ((cs.map BNode.toList).flatten) := by
  have hclen := chainSeq_length hcs
  have hile := findChildIndex_le_length ks key
  rw [flatten_decomp_at cs (findChildIndex ks key) (by omega) BNode.toList]
  rw [List.append_assoc]
  rw [listInsert_append_left key v _ _
    (fun p hp => descend_prefix_lt hmn1 hcs key p hp)]
  rw [listInsert_append_right key v _ _
    (fun p hp => descend_suffix_gt hmn1 hcs key p hp)]

/-- The split/overwrite/insert behaviour of `BPlusTree::insert` below
the root, together with preservation of well-formedness: the result is
either a rebuilt subtree at the same height whose contents are
`listInsert key v` of the old contents, or a split into two well-formed
subtrees with a promoted key strictly inside the node's range. -/
theorem insertRec_spec {mx mn : Nat} (hmx : 2 ≤ mx) (hmn : mn = mx / 2)
    (key : K) (v : V) :
    ∀ (h : Nat) {lb : Nat} {lo hi : Option K} {n : BNode K V},
      WFN mx mn lb h lo hi n → okLo lo key → okHi hi key →
      match insertRec mx key v n with
      | .one n2 => WFN mx mn lb h lo hi n2 ∧
          n2.toList = listInsert key v n.toList
      | .split l pk r =>
          WFN mx mn mn h lo (some pk) l ∧ WFN mx mn mn h (some pk) hi r ∧
          okLoS lo pk ∧ okHi hi pk ∧
          l.toList ++ r.toList = listInsert key v n.toList := by
  have hmn1 : 1 ≤ mn := by omega
  intro h
  induction h with
  | zero =>
    intro lb lo hi n hw hlo hhi
    match n with
    | .leaf es =>
      have hsort := hw.2.2.1
      have lspec := leaf_insert_spec key v es hsort
      rw [insertRec]
      rw [findKeyPosition_eq_twPos _ _ hsort]
      by_cases hfound : twPos key (es.map Prod.fst) < es.length ∧
          (es.map Prod.fst).getD (twPos key (es.map Prod.fst)) default = key
      · rw [if_pos hfound]
        have hEq := (lspec.2.1 hfound).1
        constructor
        · refine ⟨?_, ?_, ?_, ?_⟩
          · rw [List.length_set]
            exact hw.1
          · rw [List.length_set]
            exact hw.2.1
          · rw [hEq]
            exact listInsert_sorted key v es hsort
          · rw [hEq]
            exact listInsert_bounds key v es hw.2.2.2 hlo hhi
        · rw [BNode.toList_leaf, BNode.toList_leaf, hEq]
      · rw [if_neg hfound]
        obtain ⟨hEq, hfvnone⟩ := lspec.2.2 hfound
        have hposle := lspec.1
        have hlen2 : (es.insertIdx (twPos key (es.map Prod.fst)) (key, v)).length =
            es.length + 1 := by
          simp [List.length_insertIdx, hposle]
        by_cases hover : (es.insertIdx (twPos key (es.map Prod.fst)) (key, v)).length > mx
        · rw [if_pos hover]
          have hexact : (listInsert key v es).length = mx + 1 := by
            rw [← hEq, hlen2]
            have := hw.2.1
            omega
          rw [hEq]
          have sspec := splitLeaf_spec hmx hmn (listInsert key v es) hexact
            (listInsert_sorted key v es hsort)
            (listInsert_bounds key v es hw.2.2.2 hlo hhi)
          rw [sspec.1]
          refine ⟨sspec.2.1, sspec.2.2.1, sspec.2.2.2.1, sspec.2.2.2.2, ?_⟩
          rw [BNode.toList_leaf, BNode.toList_leaf, BNode.toList_leaf,
            List.take_append_drop]
        · rw [if_neg hover]
          refine ⟨⟨?_, ?_, ?_, ?_⟩, ?_⟩
          · rw [hlen2]
            exact le_trans hw.1 (by omega)
          · omega
          · rw [hEq]
            exact listInsert_sorted key v es hsort
          · rw [hEq]
            exact listInsert_bounds key v es hw.2.2.2 hlo hhi
          · rw [BNode.toList_leaf, BNode.toList_leaf, hEq]
    | .internal ks cs => exact hw.elim
  | succ h ih =>
    intro lb lo hi n hw hlo hhi
    match n with
    | .leaf es => exact hw.elim
    | .internal ks cs =>
      have hcs := hw.2.2
      have hclen := chainSeq_length hcs
      have hile : findChildIndex ks key ≤ ks.length :=
        findChildIndex_le_length ks key
      have hnav := chainSeq_nav hcs (findChildIndex ks key) hile
      have hsep := chainSeq_sep_facts hmn1 hcs
      have hrec := ih hnav (descend_okLo hlo) (descend_okHi hhi)
      rw [insertRec]
      rcases hres : insertRec mx key v (cs.getD (findChildIndex ks key) default)
        with n2 | ⟨l, pk, r⟩
      · rw [hres] at hrec
        dsimp only
        refine ⟨⟨hw.1, hw.2.1, chainSeq_set hcs (findChildIndex ks key) hile n2 hrec.1⟩, ?_⟩
        rw [BNode.toList_internal_flatten, BNode.toList_internal_flatten]
        rw [set_eq_take_cons_drop cs (findChildIndex ks key) (by omega) n2]
        rw [List.map_append, List.flatten_append, List.map_cons, List.flatten_cons]
        rw [hrec.2]
        exact insert_flatten_glue hmn1 hcs key v
      · rw [hres] at hrec
        dsimp only
        obtain ⟨hwl, hwr, hpklo, hpkhi, hcont⟩ := hrec
        have hpos : findKeyPosition ks pk = findChildIndex ks key := by
          rw [findKeyPosition_eq_twPos ks pk hsep.1]
          refine takeWhile_length_eq_iff _ _ (findChildIndex ks key) hile ?_ ?_
          · intro j hj
            simp only [decide_eq_true_eq]
            have hi1 : 1 ≤ findChildIndex ks key := by omega
            have hlast : ks.getD (findChildIndex ks key - 1) default < pk := by
              have hx := hpklo
              unfold lowAt at hx
              rw [if_neg (by omega)] at hx
              exact hx
            rcases Nat.lt_or_ge j (findChildIndex ks key - 1) with hlt | hge
            · exact lt_trans (sorted_getD_lt hsep.1 hlt (by omega)) hlast
            · have hj2 : j = findChildIndex ks key - 1 := by omega
              rw [hj2]
              exact hlast
          · intro hilt
            simp only [decide_eq_false_iff_not, not_lt]
            have hx := hpkhi
            unfold highAt at hx
            rw [if_pos hilt] at hx
            exact le_of_lt hx
        rw [hpos]
        have hchain2 := chainSeq_insert2 hcs (findChildIndex ks key) hile pk l r hwl hwr
        have hkslen2 : (ks.insertIdx (findChildIndex ks key) pk).length = ks.length + 1 := by
          simp [List.length_insertIdx, hile]
        have hdecomp : ((cs.set (findChildIndex ks key) l).insertIdx
            (findChildIndex ks key + 1) r) =
            cs.take (findChildIndex ks key) ++ l :: r :: cs.drop (findChildIndex ks key + 1) :=
          set_insertIdx_decomp cs (findChildIndex ks key) (by omega) l r
        have hflat : ((((cs.set (findChildIndex ks key) l).insertIdx
            (findChildIndex ks key + 1) r)).map BNode.toList).flatten =
            listInsert key v ((cs.map BNode.toList).flatten) := by
          rw [hdecomp]
          rw [List.map_append, List.flatten_append, List.map_cons, List.flatten_cons,
            List.map_cons, List.flatten_cons]
          rw [← List.append_assoc l.toList r.toList, hcont]
          exact insert_flatten_glue hmn1 hcs key v
        by_cases hover : (ks.insertIdx (findChildIndex ks key) pk).length > mx
        · rw [if_pos hover]
          have hlenex : (ks.insertIdx (findChildIndex ks key) pk).length = mx + 1 := by
            have := hw.2.1
            omega
          have sspec := splitInternal_spec hmx hmn _ _ hchain2 hlenex
          rw [sspec.1]
          refine ⟨sspec.2.1, sspec.2.2.1, sspec.2.2.2.1, sspec.2.2.2.2.1, ?_⟩
          rw [sspec.2.2.2.2.2]
          rw [BNode.toList_internal_flatten, BNode.toList_internal_flatten, hflat]
        · rw [if_neg hover]
          refine ⟨⟨?_, ?_, hchain2⟩, ?_⟩
          · rw [hkslen2]
            exact le_trans hw.1 (by omega)
          · omega
          · rw [BNode.toList_internal_flatten, BNode.toList_internal_flatten, hflat]

/-- `BPlusTree::insert` preserves well-formedness and its effect on the
stored contents is the sorted-association-list insert-or-replace. -/
theorem insert_spec (t : BPlusTree K V) (hWF : t.WF) (key : K) (v : V) :
    (t.insert key v).WF ∧
    (t.insert key v).toList = listInsert key v t.toList := by
  obtain ⟨hmx, hmn⟩ := WF_maxKeys_minKeys t hWF
  obtain ⟨hord, hroot⟩ := hWF
  unfold BPlusTree.insert
  match hr : t.root with
  | none =>
    dsimp only
    constructor
    · refine ⟨hord, ?_⟩
      show ∃ h, WFN t.maxKeys t.minKeys 1 h none none (BNode.leaf [(key, v)])
      refine ⟨0, by simp, ?_, by simp, fun p hp => ⟨trivial, trivial⟩⟩
      simp only [List.length_cons, List.length_nil]
      omega
    · simp only [BPlusTree.toList, hr]
      rw [BNode.toList_leaf]
      simp [listInsert]
  | some r =>
    dsimp only
    rw [hr] at hroot
    obtain ⟨h, hwr⟩ := hroot
    have hrec := insertRec_spec hmx hmn key v h hwr trivial trivial
    rcases hres : insertRec t.maxKeys key v r with n2 | ⟨l, pk, rr⟩ <;>
      rw [hres] at hrec <;> dsimp only
    · constructor
      · refine ⟨hord, ?_⟩
        show ∃ hh, WFN t.maxKeys t.minKeys 1 hh none none n2
        exact ⟨h, hrec.1⟩
      · show n2.toList = listInsert key v t.toList
        simp only [BPlusTree.toList, hr]
        exact hrec.2
    · obtain ⟨hwl, hwrr, hpklo, hpkhi, hcont⟩ := hrec
      constructor
      · refine ⟨hord, ?_⟩
        show ∃ hh, WFN t.maxKeys t.minKeys 1 hh none none
          (BNode.internal [pk] [l, rr])
        refine ⟨h + 1, by simp, ?_, ?_⟩
        · simp only [List.length_cons, List.length_nil]
          omega
        · exact ⟨WFN_mono_lb (by omega) hwl, WFN_mono_lb (by omega) hwrr⟩
      · show BNode.toList (BNode.internal [pk] [l, rr]) = listInsert key v t.toList
        simp only [BPlusTree.toList, hr]
        rw [BNode.toList_internal_flatten]
        simp only [List.map_cons, List.map_nil, List.flatten_cons,
          List.flatten_nil, List.append_nil]
        exact hcont

end ListInsertLemmas

section RemoveLemmas

variable [LinearOrder K] [Inhabited K] [Inhabited V]

theorem leafRemove_eq_none (es : List (K × V)) (key : K) :
    leafRemove es key = none ↔ findValue es key = none := by
  induction es with
  | nil => simp [leafRemove, findValue]
  | cons p rest ih =>
    by_cases hp : p.1 = key
    · simp [leafRemove, findValue, hp]
    · simp only [leafRemove, findValue, hp, if_false, if_neg hp]
      cases hlr : leafRemove rest key <;> cases hfv : findValue rest key <;>
        simp_all

theorem leafRemove_eq_some (es : List (K × V)) (key : K) :
    ∀ es2, leafRemove es key = some es2 → es2 = eraseKey key es := by
  induction es with
  | nil => simp [leafRemove]
  | cons p rest ih =>
    intro es2 h
    by_cases hp : p.1 = key
    · rw [leafRemove, if_pos hp] at h
      rw [eraseKey]
      obtain ⟨k, w⟩ := p
      simp only at hp
      rw [if_pos hp]
      simpa using h.symm
    · rw [leafRemove, if_neg hp] at h
      rw [eraseKey]
      obtain ⟨k, w⟩ := p
      simp only at hp
      rw [if_neg hp]
      cases hlr : leafRemove rest key with
      | none => rw [hlr] at h ; simp at h
      | some es3 =>
        rw [hlr] at h
        have h2 : (k, w) :: es3 = es2 := by simpa using h
        rw [← h2, ih es3 hlr]

theorem eraseKey_sublist (key : K) (es : List (K × V)) :
    (eraseKey key es).Sublist es := by
  induction es with
  | nil => simp [eraseKey]
  | cons p rest ih =>
    obtain ⟨k, w⟩ := p
    rw [eraseKey]
    split_ifs with h
    · exact List.sublist_cons_self _ _
    · exact List.Sublist.cons₂ _ ih

theorem eraseKey_mem (key : K) (es : List (K × V)) :
    ∀ p ∈ eraseKey key es, p ∈ es :=
  fun p hp => (eraseKey_sublist key es).mem hp

theorem eraseKey_sorted (key : K) (es : List (K × V))
    (hs : List.Chain' (· < ·) (es.map Prod.fst)) :
    List.Chain' (· < ·) ((eraseKey key es).map Prod.fst) := by
  rw [List.chain'_iff_pairwise] at hs ⊢
  exact List.Pairwise.sublist (List.Sublist.map Prod.fst (eraseKey_sublist key es)) hs

theorem eraseKey_not_found (key : K) (es : List (K × V))
    (h : findValue es key = none) : eraseKey key es = es := by
  induction es with
  | nil => rfl
  | cons p rest ih =>
    obtain ⟨k, w⟩ := p
    rw [findValue] at h
    rw [eraseKey]
    split_ifs with hk
    · rw [if_pos hk] at h
      simp at h
    · rw [if_neg hk] at h
      rw [ih h]

theorem eraseKey_length_found (key : K) (es : List (K × V))
    (h : findValue es key ≠ none) :
    (eraseKey key es).length + 1 = es.length := by
  induction es with
  | nil => simp [findValue] at h
  | cons p rest ih =>
    obtain ⟨k, w⟩ := p
    rw [findValue] at h
    rw [eraseKey]
    split_ifs with hk
    · simp
    · rw [if_neg hk] at h
      simp only [List.length_cons]
      rw [← ih h]

theorem eraseKey_append_left (key : K) (A B : List (K × V))
    (hA : ∀ p ∈ A, p.1 ≠ key) :
    eraseKey key (A ++ B) = A ++ eraseKey key B := by
  induction A with
  | nil => simp
  | cons p rest ih =>
    obtain ⟨k, w⟩ := p
    have hk := hA (k, w) (by simp)
    simp only at hk
    rw [List.cons_append, eraseKey, if_neg hk]
    rw [ih fun q hq => hA q (by simp [hq])]
    rfl

theorem eraseKey_append_right (key : K) (B C : List (K × V))
    (hC : ∀ p ∈ C, p.1 ≠ key) :
    eraseKey key (B ++ C) = eraseKey key B ++ C := by
  induction B with
  | nil =>
    simp only [List.nil_append, eraseKey]
    rw [eraseKey_not_found key C (findValue_eq_none C key hC)]
  | cons p rest ih =>
    obtain ⟨k, w⟩ := p
    rw [List.cons_append, eraseKey, eraseKey]
    split_ifs with hk
    · rfl
    · rw [List.cons_append, ih]

theorem eraseKey_findValue_self (key : K) (es : List (K × V))
    (hs : List.Chain' (· < ·) (es.map Prod.fst)) :
    findValue (eraseKey key es) key = none := by
  induction es with
  | nil => rfl
  | cons p rest ih =>
    obtain ⟨k, w⟩ := p
    have hpw := List.chain'_iff_pairwise.mp hs
    simp only [List.map_cons, List.pairwise_cons] at hpw
    have hs' : List.Chain' (· < ·) (rest.map Prod.fst) := by
      rw [List.chain'_iff_pairwise]
      exact hpw.2
    rw [eraseKey]
    split_ifs with hk
    · refine findValue_eq_none rest key fun q hq => ?_
      have := hpw.1 q.1 (List.mem_map_of_mem Prod.fst hq)
      rw [← hk]
      exact ne_of_gt this
    · rw [findValue, if_neg hk]
      exact ih hs'

theorem eraseKey_bounds (key : K) (es : List (K × V)) {lo hi : Option K}
    (hb : ∀ p ∈ es, okLo lo p.1 ∧ okHi hi p.1) :
    ∀ p ∈ eraseKey key es, okLo lo p.1 ∧ okHi hi p.1 :=
  fun p hp => hb p (eraseKey_mem key es p hp)

theorem drop_eq_getD_cons {α : Type} [Inhabited α] (cs : List α) (n : Nat)
    (hn : n < cs.length) :
    cs.drop n = cs.getD n default :: cs.drop (n + 1) := by
  induction cs generalizing n with
  | nil => simp at hn
  | cons x xs ih =>
    cases n with
    | zero => simp
    | succ n =>
      simp only [List.drop_succ_cons, List.getD_cons_succ]
      exact ih n (by simpa using hn)

theorem set2_decomp {α : Type} (cs : List α) (i : Nat) (h1 : 1 ≤ i)
    (h2 : i < cs.length) (a b : α) :
    (cs.set (i - 1) a).set i b = cs.take (i - 1) ++ a :: b :: cs.drop (i + 1) := by
  induction cs generalizing i with
  | nil => simp at h2
  | cons x xs ih =>
    match i, h1 with
    | 1, _ =>
      simp only [Nat.sub_self, List.set_cons_zero, List.set_cons_succ,
        List.take_zero, List.nil_append]
      cases xs with
      | nil => simp at h2
      | cons y ys => simp
    | Nat.succ (Nat.succ i0), _ =>
      have harith : Nat.succ (Nat.succ i0) - 1 = Nat.succ i0 := by omega
      rw [harith]
      simp only [List.set_cons_succ, List.take_succ_cons, List.drop_succ_cons,
        List.cons_append, List.cons.injEq, true_and]
      have hih := ih (i0 + 1) (by omega) (by simpa using h2)
      have harith2 : i0 + 1 - 1 = i0 := by omega
      rw [harith2] at hih
      simpa using hih

theorem getD_set_ne {α : Type} [Inhabited α] (l : List α) (i j : Nat)
    (hne : i ≠ j) (a : α) : (l.set i a).getD j default = l.getD j default := by
  induction l generalizing i j with
  | nil => simp
  | cons x xs ih =>
    cases i with
    | zero =>
      cases j with
      | zero => exact absurd rfl hne
      | succ j0 => simp
    | succ i0 =>
      cases j with
      | zero => simp
      | succ j0 => simpa using ih i0 j0 (by omega)

theorem getD_set_eq {α : Type} [Inhabited α] (l : List α) (i : Nat)
    (hi : i < l.length) (a : α) : (l.set i a).getD i default = a := by
  induction l generalizing i with
  | nil => simp at hi
  | cons x xs ih =>
    cases i with
    | zero => simp
    | succ i0 => simpa using ih i0 (by simpa using hi)

theorem eraseIdx_set_same {α : Type} (l : List α) (i : Nat) (a : α) :
    (l.set i a).eraseIdx i = l.eraseIdx i := by
  induction l generalizing i with
  | nil => simp
  | cons x xs ih =>
    cases i with
    | zero => simp
    | succ i0 => simpa using ih i0

theorem getD_mem {α : Type} [Inhabited α] (l : List α) (i : Nat)
    (h : i < l.length) : l.getD i default ∈ l := by
  rw [List.getD_eq_getElem _ _ h]
  exact List.getElem_mem _

theorem okHi_lt_trans {hi : Option K} {x y : K} (hxy : x < y) (hy : okHi hi y) :
    okHi hi x := by
  cases hi with
  | none => trivial
  | some b => exact lt_trans hxy hy

theorem okLo_le_trans {lo : Option K} {x y : K} (hx : okLo lo x) (hxy : x ≤ y) :
    okLo lo y := by
  cases lo with
  | none => trivial
  | some a => exact le_trans hx hxy

theorem WFN_raise_lb {mx mn lb h : Nat} (lb2 : Nat) {lo hi : Option K}
    {n : BNode K V} (hw : WFN mx mn lb h lo hi n) (hnum : lb2 ≤ n.numKeys) :
    WFN mx mn lb2 h lo hi n := by
  match h, n with
  | 0, .leaf es => exact ⟨hnum, hw.2⟩
  | 0, .internal ks cs => exact hw.elim
  | h + 1, .leaf es => exact hw.elim
  | h + 1, .internal ks cs => exact ⟨hnum, hw.2⟩

/-- If `x` lies below the separator left of child `i`, it lies below the
upper bound of child `i`'s range. -/
theorem sep_lt_highAt {lo hi : Option K} {ks : List K}
    (hsort : List.Chain' (· < ·) ks)
    (hbnd : ∀ t ∈ ks, okLoS lo t ∧ okHi hi t) {i : Nat} (h1 : 1 ≤ i)
    (h2 : i ≤ ks.length) {x : K} (hx : x < ks.getD (i - 1) default) :
    okHi (highAt hi ks i) x := by
  by_cases hilen : i < ks.length
  · unfold highAt
    rw [if_pos hilen, okHi_some_iff]
    exact lt_trans hx (sorted_getD_lt hsort (by omega) hilen)
  · unfold highAt
    rw [if_neg hilen]
    exact okHi_lt_trans hx (hbnd _ (getD_mem ks (i - 1) (by omega))).2

/-- If `x` lies at or above the separator right of child `j`, it lies at
or above the lower bound of child `j`'s range. -/
theorem sep_le_lowAt {lo hi : Option K} {ks : List K}
    (hsort : List.Chain' (· < ·) ks)
    (hbnd : ∀ t ∈ ks, okLoS lo t ∧ okHi hi t) {j : Nat} (hj : j < ks.length)
    {x : K} (hx : ks.getD j default ≤ x) : okLo (lowAt lo ks j) x := by
  unfold lowAt
  split_ifs with hj0
  · subst hj0
    have := (hbnd _ (getD_mem ks 0 hj)).1
    cases lo with
    | none => trivial
    | some a => exact le_trans (le_of_lt this) hx
  · rw [okLo_some_iff]
    exact le_trans (le_of_lt (sorted_getD_lt hsort (by omega) hj)) hx

/-- Borrowing into an underflowing leaf from its left sibling: the
sibling's last entry moves over and becomes the new separator. -/
theorem borrow_left_leaf_spec {mx mn : Nat} (hmn1 : 1 ≤ mn) (hmnmx : mn ≤ mx)
    {A B : Option K} {s : K} {sinit : List (K × V)} {q : K × V}
    {es : List (K × V)}
    (hsib : WFN mx mn mn 0 A (some s) (.leaf (sinit ++ [q]) : BNode K V))
    (hc' : WFN mx mn (mn - 1) 0 (some s) B (.leaf es : BNode K V))
    (hmore : mn < sinit.length + 1) (hless : es.length < mn)
    (hBs : ∀ x : K, x < s → okHi B x) :
    WFN mx mn mn 0 A (some q.1) (.leaf sinit : BNode K V) ∧
    WFN mx mn mn 0 (some q.1) B (.leaf (q :: es) : BNode K V) := by
  obtain ⟨hsl, hsu, hss, hsb⟩ := hsib
  obtain ⟨hnl, hnu, hns, hnb⟩ := hc'
  have hq_lt_s : q.1 < s := (hsb q (by simp)).2
  have hp := List.chain'_iff_pairwise.mp hss
  simp only [List.map_append, List.map_cons, List.map_nil] at hp
  obtain ⟨hp1, hp2, hcross⟩ := List.pairwise_append.mp hp
  simp only [List.length_append, List.length_cons, List.length_nil] at hsl hsu
  refine ⟨⟨by omega, by omega, ?_, ?_⟩, ⟨by simp; omega, by simp; omega, ?_, ?_⟩⟩
  · exact List.chain'_iff_pairwise.mpr hp1
  · intro p hpmem
    refine ⟨(hsb p (List.mem_append_left _ hpmem)).1, ?_⟩
    rw [okHi_some_iff]
    exact hcross p.1 (List.mem_map_of_mem Prod.fst hpmem) q.1 (by simp)
  · rw [List.map_cons, List.chain'_iff_pairwise, List.pairwise_cons]
    refine ⟨?_, List.chain'_iff_pairwise.mp hns⟩
    intro y hy
    obtain ⟨p, hpmem, rfl⟩ := List.mem_map.mp hy
    exact lt_of_lt_of_le hq_lt_s (hnb p hpmem).1
  · intro p hpmem
    rcases List.mem_cons.mp hpmem with rfl | hpmem
    · exact ⟨le_refl _, hBs p.1 hq_lt_s⟩
    · refine ⟨?_, (hnb p hpmem).2⟩
      rw [okLo_some_iff]
      exact le_trans (le_of_lt hq_lt_s) (hnb p hpmem).1

/-- Borrowing into an underflowing internal node from its left sibling:
the sibling's last child moves over, the parent separator rotates down
and the sibling's last key rotates up. -/
theorem borrow_left_internal_spec {mx mn h : Nat} (hmnmx : mn ≤ mx)
    {A B : Option K} {s : K} {sinit : List K} {q : K}
    {scinit : List (BNode K V)} {clast : BNode K V} {nks : List K}
    {ncs : List (BNode K V)}
    (hsib : WFN mx mn mn (h + 1) A (some s)
      (.internal (sinit ++ [q]) (scinit ++ [clast])))
    (hc' : WFN mx mn (mn - 1) (h + 1) (some s) B (.internal nks ncs))
    (hmore : mn < sinit.length + 1) (hless : nks.length < mn) :
    WFN mx mn mn (h + 1) A (some q) (.internal sinit scinit) ∧
    WFN mx mn mn (h + 1) (some q) B
      (.internal (s :: nks) (clast :: ncs)) := by
  obtain ⟨hsl, hsu, hchain⟩ := hsib
  obtain ⟨hnl, hnu, hnchain⟩ := hc'
  obtain ⟨hchain1, hlastw⟩ := chainSeq_snoc_iff.mp hchain
  simp only [List.length_append, List.length_cons, List.length_nil] at hsl hsu
  exact ⟨⟨by omega, by omega, hchain1⟩,
    ⟨by simp; omega, by simp; omega,
      (chainSeq_cons_iff _ _ _ _ _ _).mpr ⟨hlastw, hnchain⟩⟩⟩

/-- Borrowing into an underflowing leaf from its right sibling: the
sibling's first entry moves over; the sibling's new first key becomes the
separator. -/
theorem borrow_right_leaf_spec {mx mn : Nat} (hmn1 : 1 ≤ mn) (hmnmx : mn ≤ mx)
    {A B : Option K} {s : K} {es : List (K × V)} {q0 q1 : K × V}
    {rest : List (K × V)}
    (hc' : WFN mx mn (mn - 1) 0 A (some s) (.leaf es : BNode K V))
    (hsib : WFN mx mn mn 0 (some s) B (.leaf (q0 :: q1 :: rest) : BNode K V))
    (hless : es.length < mn) (hmore : mn < rest.length + 2)
    (hAs : ∀ x : K, s ≤ x → okLo A x) :
    WFN mx mn mn 0 A (some q1.1) (.leaf (es ++ [q0]) : BNode K V) ∧
    WFN mx mn mn 0 (some q1.1) B (.leaf (q1 :: rest) : BNode K V) := by
  obtain ⟨hnl, hnu, hns, hnb⟩ := hc'
  obtain ⟨hsl, hsu, hss, hsb⟩ := hsib
  have hs_le_q0 : s ≤ q0.1 := (hsb q0 (by simp)).1
  have hp := List.chain'_iff_pairwise.mp hss
  rw [List.map_cons, List.map_cons] at hp
  obtain ⟨h0, hp'⟩ := List.pairwise_cons.mp hp
  obtain ⟨h1, hp''⟩ := List.pairwise_cons.mp hp'
  have hq01 : q0.1 < q1.1 := h0 q1.1 (by simp)
  simp only [List.length_cons] at hsl hsu
  refine ⟨⟨by simp; omega, by simp; omega, ?_, ?_⟩,
    ⟨by simp; omega, by simp; omega, ?_, ?_⟩⟩
  · rw [List.map_append, List.chain'_iff_pairwise, List.pairwise_append]
    refine ⟨List.chain'_iff_pairwise.mp hns, by simp, ?_⟩
    intro x hx y hy
    obtain ⟨p, hpmem, rfl⟩ := List.mem_map.mp hx
    simp only [List.map_cons, List.map_nil, List.mem_singleton] at hy
    subst hy
    exact lt_of_lt_of_le (hnb p hpmem).2 hs_le_q0
  · intro p hpmem
    rcases List.mem_append.mp hpmem with hpmem | hpmem
    · refine ⟨(hnb p hpmem).1, ?_⟩
      rw [okHi_some_iff]
      exact lt_trans (lt_of_lt_of_le (hnb p hpmem).2 hs_le_q0) hq01
    · simp only [List.mem_singleton] at hpmem
      subst hpmem
      exact ⟨hAs p.1 hs_le_q0, by rw [okHi_some_iff]; exact hq01⟩
  · rw [List.map_cons, List.chain'_iff_pairwise]
    exact List.pairwise_cons.mpr ⟨h1, hp''⟩
  · intro p hpmem
    rcases List.mem_cons.mp hpmem with rfl | hpmem
    · exact ⟨le_refl _, (hsb p (by simp)).2⟩
    · refine ⟨?_, (hsb p (by simp [hpmem])).2⟩
      rw [okLo_some_iff]
      exact le_of_lt (h1 p.1 (List.mem_map_of_mem Prod.fst hpmem))

/-- Borrowing into an underflowing internal node from its right sibling:
the sibling's first child moves over, the parent separator rotates down
and the sibling's first key rotates up. -/
theorem borrow_right_internal_spec {mx mn h : Nat} (hmnmx : mn ≤ mx)
    {A B : Option K} {s : K} {nks : List K} {ncs : List (BNode K V)}
    {q : K} {stail : List K} {c0 : BNode K V} {sctail : List (BNode K V)}
    (hc' : WFN mx mn (mn - 1) (h + 1) A (some s) (.internal nks ncs))
    (hsib : WFN mx mn mn (h + 1) (some s) B
      (.internal (q :: stail) (c0 :: sctail)))
    (hless : nks.length < mn) (hmore : mn < stail.length + 1) :
    WFN mx mn mn (h + 1) A (some q) (.internal (nks ++ [s]) (ncs ++ [c0])) ∧
    WFN mx mn mn (h + 1) (some q) B (.internal stail sctail) := by
  obtain ⟨hnl, hnu, hnchain⟩ := hc'
  obtain ⟨hsl, hsu, hchain⟩ := hsib
  obtain ⟨hc0, hstail⟩ := (chainSeq_cons_iff _ _ _ _ _ _).mp hchain
  simp only [List.length_cons] at hsl hsu
  exact ⟨⟨by simp; omega, by simp; omega,
      chainSeq_snoc_iff.mpr ⟨hnchain, hc0⟩⟩,
    ⟨by omega, by omega, hstail⟩⟩

/-- Merging two adjacent leaves: the slots concatenate. -/
theorem merge_leaf_spec {mx mn : Nat} {A B : Option K} {s : K}
    {les res : List (K × V)} {lb1 lb2 : Nat}
    (hl : WFN mx mn lb1 0 A (some s) (.leaf les : BNode K V))
    (hr : WFN mx mn lb2 0 (some s) B (.leaf res : BNode K V))
    (hlen_ge : mn ≤ les.length + res.length)
    (hlen_le : les.length + res.length ≤ mx)
    (hAs : ∀ x : K, s ≤ x → okLo A x) (hBs : ∀ x : K, x < s → okHi B x) :
    WFN mx mn mn 0 A B (.leaf (les ++ res) : BNode K V) := by
  obtain ⟨hll, hlu, hls, hlb⟩ := hl
  obtain ⟨hrl, hru, hrs, hrb⟩ := hr
  refine ⟨by simp; omega, by simp; omega, ?_, ?_⟩
  · rw [List.map_append, List.chain'_iff_pairwise, List.pairwise_append]
    refine ⟨List.chain'_iff_pairwise.mp hls, List.chain'_iff_pairwise.mp hrs, ?_⟩
    intro x hx y hy
    obtain ⟨p, hpmem, rfl⟩ := List.mem_map.mp hx
    obtain ⟨p2, hp2mem, rfl⟩ := List.mem_map.mp hy
    exact lt_of_lt_of_le (hlb p hpmem).2 (hrb p2 hp2mem).1
  · intro p hpmem
    rcases List.mem_append.mp hpmem with hpmem | hpmem
    · exact ⟨(hlb p hpmem).1, hBs p.1 (hlb p hpmem).2⟩
    · exact ⟨hAs p.1 (hrb p hpmem).1, (hrb p hpmem).2⟩

/-- Merging two adjacent internal nodes: the parent separator is pulled
down between the key lists, and the child lists concatenate. -/
theorem merge_internal_spec {mx mn h : Nat} {A B : Option K} {s : K}
    {lks rks : List K} {lcs rcs : List (BNode K V)} {lb1 lb2 : Nat}
    (hl : WFN mx mn lb1 (h + 1) A (some s) (.internal lks lcs))
    (hr : WFN mx mn lb2 (h + 1) (some s) B (.internal rks rcs))
    (hlen_ge : mn ≤ lks.length + rks.length + 1)
    (hlen_le : lks.length + rks.length + 1 ≤ mx) :
    WFN mx mn mn (h + 1) A B (.internal (lks ++ s :: rks) (lcs ++ rcs)) := by
  obtain ⟨hll, hlu, hlchain⟩ := hl
  obtain ⟨hrl, hru, hrchain⟩ := hr
  exact ⟨by simp; omega, by simp; omega, chainSeq_append hlchain hrchain⟩

theorem eq_nil_or_snoc {α : Type} (l : List α) : l = [] ∨ ∃ L b, l = L ++ [b] := by
  rcases List.eq_nil_or_concat l with h | ⟨L, b, h⟩
  · exact Or.inl h
  · exact Or.inr ⟨L, b, by simpa [List.concat_eq_append] using h⟩

/-- `deleteEntry`'s borrow-from-left-sibling branch seen from the parent:
given the parent's well-formed child chain, an updated child at `m + 1`
one key short, and a left sibling that can spare a key, redistribution
restores a well-formed chain with the same key count and the same
contents. -/
theorem borrowLeft_list_spec {mx mn h : Nat} (hmn1 : 1 ≤ mn) (hmnmx : mn ≤ mx)
    {lo hi : Option K} {ks : List K} {cs : List (BNode K V)}
    (hcs : chainSeq (WFN mx mn mn h) lo hi ks cs)
    {m : Nat} (hile : m + 1 ≤ ks.length) {c' : BNode K V}
    (hc' : WFN mx mn (mn - 1) h (lowAt lo ks (m + 1)) (highAt hi ks (m + 1)) c')
    (hless : c'.numKeys < mn)
    (hmore : mn < (cs.getD m default).numKeys) :
    chainSeq (WFN mx mn mn h) lo hi
      (redistributeFromLeft ks (cs.set (m + 1) c') (m + 1)).1
      (redistributeFromLeft ks (cs.set (m + 1) c') (m + 1)).2 ∧
    (redistributeFromLeft ks (cs.set (m + 1) c') (m + 1)).1.length = ks.length ∧
    ((redistributeFromLeft ks (cs.set (m + 1) c') (m + 1)).2.map
      BNode.toList).flatten =
      ((cs.set (m + 1) c').map BNode.toList).flatten := by
  have hclen := chainSeq_length hcs
  have hsep := chainSeq_sep_facts hmn1 hcs
  have hm1cs : m + 1 < cs.length := by omega
  have hgi : (cs.set (m + 1) c').getD (m + 1) default = c' :=
    getD_set_eq cs (m + 1) hm1cs c'
  have hgm : (cs.set (m + 1) c').getD m default = cs.getD m default :=
    getD_set_ne cs (m + 1) m (by omega) c'
  have hsibW := chainSeq_nav hcs m (by omega)
  have hhA : highAt hi ks m = some (ks.getD m default) := by
    unfold highAt
    rw [if_pos (by omega)]
  have hlA : lowAt lo ks (m + 1) = some (ks.getD m default) := by
    unfold lowAt
    rw [if_neg (by omega)]
    simp
  rw [hhA] at hsibW
  rw [hlA] at hc'
  have hBs : ∀ x : K, x < ks.getD m default → okHi (highAt hi ks (m + 1)) x :=
    fun x hx => sep_lt_highAt hsep.1 hsep.2 (by omega) hile (by simpa using hx)
  cases h with
  | zero =>
    rcases hsibsh : cs.getD m default with ses | ⟨sks, scs⟩
    case internal =>
      rw [hsibsh] at hsibW
      exact hsibW.elim
    rw [hsibsh] at hsibW hmore
    rcases c' with es | ⟨nks, ncs⟩
    case internal => exact hc'.elim
    rcases eq_nil_or_snoc ses with rfl | ⟨sinit, q, rfl⟩
    · simp only [BNode.numKeys, List.length_nil] at hmore
      omega
    obtain ⟨W1, W2⟩ := borrow_left_leaf_spec hmn1 hmnmx hsibW hc'
      (by simpa [BNode.numKeys] using hmore)
      (by simpa [BNode.numKeys] using hless) hBs
    have hred : redistributeFromLeft ks (cs.set (m + 1) (BNode.leaf es)) (m + 1) =
        (ks.set m q.1,
          ((cs.set (m + 1) (BNode.leaf es)).set m (BNode.leaf sinit)).set (m + 1)
            (BNode.leaf (q :: es))) := by
      unfold redistributeFromLeft
      simp only [Nat.add_sub_cancel]
      rw [hgm, hsibsh, hgi]
      simp [List.getLastD_concat, List.dropLast_concat]
    rw [hred]
    refine ⟨?_, by simp, ?_⟩
    · have hset3 : ((cs.set (m + 1) (BNode.leaf es)).set m
          (BNode.leaf sinit)).set (m + 1) (BNode.leaf (q :: es)) =
          (cs.set m (BNode.leaf sinit)).set (m + 1) (BNode.leaf (q :: es)) := by
        rw [List.set_comm _ _ _ (by omega : m + 1 ≠ m), List.set_set]
      rw [hset3]
      have hw := chainSeq_window2 hcs (m + 1) (by omega) hile q.1
        (BNode.leaf sinit) (BNode.leaf (q :: es)) (by simpa using W1) W2
      simpa using hw
    · have hdec1 := set2_decomp (cs.set (m + 1) (BNode.leaf es)) (m + 1)
        (by omega) (by simpa using hm1cs) (BNode.leaf sinit)
        (BNode.leaf (q :: es))
      simp only [Nat.add_sub_cancel] at hdec1
      rw [hdec1]
      conv_rhs => rw [getD_eq_take_drop (cs.set (m + 1) (BNode.leaf es)) m
          (by simp ; omega),
        drop_eq_getD_cons (cs.set (m + 1) (BNode.leaf es)) (m + 1)
          (by simpa using hm1cs)]
      rw [hgm, hsibsh, hgi]
      simp [BNode.toList_leaf]
  | succ hh =>
    rcases hsibsh : cs.getD m default with ses | ⟨sks, scs⟩
    case leaf =>
      rw [hsibsh] at hsibW
      exact hsibW.elim
    rw [hsibsh] at hsibW hmore
    rcases c' with es | ⟨nks, ncs⟩
    case leaf => exact hc'.elim
    rcases eq_nil_or_snoc sks with rfl | ⟨sinit, q, rfl⟩
    · simp only [BNode.numKeys, List.length_nil] at hmore
      omega
    rcases eq_nil_or_snoc scs with rfl | ⟨scinit, clast, rfl⟩
    · have := chainSeq_length hsibW.2.2
      simp at this
    obtain ⟨W1, W2⟩ := borrow_left_internal_spec hmnmx hsibW hc'
      (by simpa [BNode.numKeys] using hmore)
      (by simpa [BNode.numKeys] using hless)
    have hred : redistributeFromLeft ks
        (cs.set (m + 1) (BNode.internal nks ncs)) (m + 1) =
        (ks.set m q,
          ((cs.set (m + 1) (BNode.internal nks ncs)).set m
            (BNode.internal sinit scinit)).set (m + 1)
            (BNode.internal (ks.getD m default :: nks) (clast :: ncs))) := by
      unfold redistributeFromLeft
      simp only [Nat.add_sub_cancel]
      rw [hgm, hsibsh, hgi]
      simp [List.getLastD_concat, List.dropLast_concat]
    rw [hred]
    refine ⟨?_, by simp, ?_⟩
    · have hset3 : ((cs.set (m + 1) (BNode.internal nks ncs)).set m
          (BNode.internal sinit scinit)).set (m + 1)
            (BNode.internal (ks.getD m default :: nks) (clast :: ncs)) =
          (cs.set m (BNode.internal sinit scinit)).set (m + 1)
            (BNode.internal (ks.getD m default :: nks) (clast :: ncs)) := by
        rw [List.set_comm _ _ _ (by omega : m + 1 ≠ m), List.set_set]
      rw [hset3]
      have hw := chainSeq_window2 hcs (m + 1) (by omega) hile q
        (BNode.internal sinit scinit)
        (BNode.internal (ks.getD m default :: nks) (clast :: ncs))
        (by simpa using W1) W2
      simpa using hw
    · have hdec1 := set2_decomp (cs.set (m + 1) (BNode.internal nks ncs)) (m + 1)
        (by omega) (by simpa using hm1cs) (BNode.internal sinit scinit)
        (BNode.internal (ks.getD m default :: nks) (clast :: ncs))
      simp only [Nat.add_sub_cancel] at hdec1
      rw [hdec1]
      conv_rhs => rw [getD_eq_take_drop
          (cs.set (m + 1) (BNode.internal nks ncs)) m (by simp ; omega),
        drop_eq_getD_cons (cs.set (m + 1) (BNode.internal nks ncs)) (m + 1)
          (by simpa using hm1cs)]
      rw [hgm, hsibsh, hgi]
      simp [BNode.toList_internal_flatten]

/-- `deleteEntry`'s borrow-from-right-sibling branch seen from the
parent: the updated child at `i` is one key short and the right sibling
can spare a key. -/
theorem borrowRight_list_spec {mx mn h : Nat} (hmn1 : 1 ≤ mn) (hmnmx : mn ≤ mx)
    {lo hi : Option K} {ks : List K} {cs : List (BNode K V)}
    (hcs : chainSeq (WFN mx mn mn h) lo hi ks cs)
    {i : Nat} (hilt : i < ks.length) {c' : BNode K V}
    (hc' : WFN mx mn (mn - 1) h (lowAt lo ks i) (highAt hi ks i) c')
    (hless : c'.numKeys < mn)
    (hmore : mn < (cs.getD (i + 1) default).numKeys) :
    chainSeq (WFN mx mn mn h) lo hi
      (redistributeFromRight ks (cs.set i c') i).1
      (redistributeFromRight ks (cs.set i c') i).2 ∧
    (redistributeFromRight ks (cs.set i c') i).1.length = ks.length ∧
    ((redistributeFromRight ks (cs.set i c') i).2.map BNode.toList).flatten =
      ((cs.set i c').map BNode.toList).flatten := by
  have hclen := chainSeq_length hcs
  have hsep := chainSeq_sep_facts hmn1 hcs
  have hi1cs : i + 1 < cs.length := by omega
  have hgi : (cs.set i c').getD i default = c' :=
    getD_set_eq cs i (by omega) c'
  have hgs : (cs.set i c').getD (i + 1) default = cs.getD (i + 1) default :=
    getD_set_ne cs i (i + 1) (by omega) c'
  have hsibW := chainSeq_nav hcs (i + 1) (by omega)
  have hlA : lowAt lo ks (i + 1) = some (ks.getD i default) := by
    unfold lowAt
    rw [if_neg (by omega)]
    simp
  have hhA : highAt hi ks i = some (ks.getD i default) := by
    unfold highAt
    rw [if_pos hilt]
  rw [hlA] at hsibW
  rw [hhA] at hc'
  have hAs : ∀ x : K, ks.getD i default ≤ x → okLo (lowAt lo ks i) x :=
    fun x hx => sep_le_lowAt hsep.1 hsep.2 hilt hx
  cases h with
  | zero =>
    rcases hsibsh : cs.getD (i + 1) default with ses | ⟨sks, scs⟩
    case internal =>
      rw [hsibsh] at hsibW
      exact hsibW.elim
    rw [hsibsh] at hsibW hmore
    rcases c' with es | ⟨nks, ncs⟩
    case internal => exact hc'.elim
    match ses, hsibW, hmore with
    | [], hsibW, hmore =>
      simp only [BNode.numKeys, List.length_nil] at hmore
      omega
    | [q0], hsibW, hmore =>
      simp only [BNode.numKeys, List.length_cons, List.length_nil] at hmore
      omega
    | q0 :: q1 :: rest, hsibW, hmore =>
    obtain ⟨W1, W2⟩ := borrow_right_leaf_spec hmn1 hmnmx hc' hsibW
      (by simpa [BNode.numKeys] using hless)
      (by simpa [BNode.numKeys] using hmore) hAs
    have hred : redistributeFromRight ks (cs.set i (BNode.leaf es)) i =
        (ks.set i q1.1,
          ((cs.set i (BNode.leaf es)).set i (BNode.leaf (es ++ [q0]))).set (i + 1)
            (BNode.leaf (q1 :: rest))) := by
      unfold redistributeFromRight
      rw [hgi, hgs, hsibsh]
      simp
    rw [hred]
    refine ⟨?_, by simp, ?_⟩
    · rw [List.set_set]
      have hw := chainSeq_window2 hcs (i + 1) (by omega) (by omega) q1.1
        (BNode.leaf (es ++ [q0])) (BNode.leaf (q1 :: rest))
        (by simpa using W1) W2
      simpa using hw
    · have hdec1 := set2_decomp (cs.set i (BNode.leaf es)) (i + 1)
        (by omega) (by simpa using hi1cs) (BNode.leaf (es ++ [q0]))
        (BNode.leaf (q1 :: rest))
      simp only [Nat.add_sub_cancel] at hdec1
      rw [hdec1]
      conv_rhs => rw [getD_eq_take_drop (cs.set i (BNode.leaf es)) i
          (by simp ; omega),
        drop_eq_getD_cons (cs.set i (BNode.leaf es)) (i + 1)
          (by simpa using hi1cs)]
      rw [hgi, hgs, hsibsh]
      simp [BNode.toList_leaf]
  | succ hh =>
    rcases hsibsh : cs.getD (i + 1) default with ses | ⟨sks, scs⟩
    case leaf =>
      rw [hsibsh] at hsibW
      exact hsibW.elim
    rw [hsibsh] at hsibW hmore
    rcases c' with es | ⟨nks, ncs⟩
    case leaf => exact hc'.elim
    match sks, scs, hsibW, hmore with
    | [], scs, hsibW, hmore =>
      simp only [BNode.numKeys, List.length_nil] at hmore
      omega
    | q :: stail, [], hsibW, hmore =>
      exact absurd hsibW.2.2 (chainSeq_not_cons_nil _ _ _ _)
    | q :: stail, c0 :: sctail, hsibW, hmore =>
    obtain ⟨W1, W2⟩ := borrow_right_internal_spec hmnmx hc' hsibW
      (by simpa [BNode.numKeys] using hless)
      (by simpa [BNode.numKeys] using hmore)
    have hred : redistributeFromRight ks
        (cs.set i (BNode.internal nks ncs)) i =
        (ks.set i q,
          ((cs.set i (BNode.internal nks ncs)).set i
            (BNode.internal (nks ++ [ks.getD i default]) (ncs ++ [c0]))).set
            (i + 1) (BNode.internal stail sctail)) := by
      unfold redistributeFromRight
      rw [hgi, hgs, hsibsh]
      simp
    rw [hred]
    refine ⟨?_, by simp, ?_⟩
    · rw [List.set_set]
      have hw := chainSeq_window2 hcs (i + 1) (by omega) (by omega) q
        (BNode.internal (nks ++ [ks.getD i default]) (ncs ++ [c0]))
        (BNode.internal stail sctail) (by simpa using W1) W2
      simpa using hw
    · have hdec1 := set2_decomp (cs.set i (BNode.internal nks ncs)) (i + 1)
        (by omega) (by simpa using hi1cs)
        (BNode.internal (nks ++ [ks.getD i default]) (ncs ++ [c0]))
        (BNode.internal stail sctail)
      simp only [Nat.add_sub_cancel] at hdec1
      rw [hdec1]
      conv_rhs => rw [getD_eq_take_drop (cs.set i (BNode.internal nks ncs)) i
          (by simp ; omega),
        drop_eq_getD_cons (cs.set i (BNode.internal nks ncs)) (i + 1)
          (by simpa using hi1cs)]
      rw [hgi, hgs, hsibsh]
      simp [BNode.toList_internal_flatten]

/-- `deleteEntry`'s merge-with-left-sibling branch seen from the parent:
the updated child at `m + 1` is one key short and its left sibling cannot
spare a key (so it holds exactly `minKeys`). -/
theorem mergeLeft_list_spec {mx mn h : Nat} (hmn1 : 1 ≤ mn) (hmnmx : mn ≤ mx)
    (h2mn : 2 * mn ≤ mx) {lo hi : Option K} {ks : List K}
    {cs : List (BNode K V)} (hcs : chainSeq (WFN mx mn mn h) lo hi ks cs)
    {m : Nat} (hile : m + 1 ≤ ks.length) {c' : BNode K V}
    (hc' : WFN mx mn (mn - 1) h (lowAt lo ks (m + 1)) (highAt hi ks (m + 1)) c')
    (hless : c'.numKeys < mn)
    (hsible : (cs.getD m default).numKeys ≤ mn) :
    chainSeq (WFN mx mn mn h) lo hi
      (mergeAt ks (cs.set (m + 1) c') m).1
      (mergeAt ks (cs.set (m + 1) c') m).2 ∧
    (mergeAt ks (cs.set (m + 1) c') m).1.length + 1 = ks.length ∧
    ((mergeAt ks (cs.set (m + 1) c') m).2.map BNode.toList).flatten =
      ((cs.set (m + 1) c').map BNode.toList).flatten := by
  have hclen := chainSeq_length hcs
  have hsep := chainSeq_sep_facts hmn1 hcs
  have hm1cs : m + 1 < cs.length := by omega
  have hgi : (cs.set (m + 1) c').getD (m + 1) default = c' :=
    getD_set_eq cs (m + 1) hm1cs c'
  have hgm : (cs.set (m + 1) c').getD m default = cs.getD m default :=
    getD_set_ne cs (m + 1) m (by omega) c'
  have hsibW := chainSeq_nav hcs m (by omega)
  have hsibnum := WFN_numKeys hsibW
  have hhA : highAt hi ks m = some (ks.getD m default) := by
    unfold highAt
    rw [if_pos (by omega)]
  have hlA : lowAt lo ks (m + 1) = some (ks.getD m default) := by
    unfold lowAt
    rw [if_neg (by omega)]
    simp
  rw [hhA] at hsibW
  rw [hlA] at hc'
  have hBs : ∀ x : K, x < ks.getD m default → okHi (highAt hi ks (m + 1)) x :=
    fun x hx => sep_lt_highAt hsep.1 hsep.2 (by omega) hile (by simpa using hx)
  have hAs : ∀ x : K, ks.getD m default ≤ x → okLo (lowAt lo ks m) x :=
    fun x hx => sep_le_lowAt hsep.1 hsep.2 (by omega) hx
  have hcnum := WFN_numKeys hc'
  cases h with
  | zero =>
    rcases hsibsh : cs.getD m default with les | ⟨sks, scs⟩
    case internal =>
      rw [hsibsh] at hsibW
      exact hsibW.elim
    rw [hsibsh] at hsibW hsible hsibnum
    rcases c' with es | ⟨nks, ncs⟩
    case internal => exact hc'.elim
    simp only [BNode.numKeys] at hsible hsibnum hless hcnum
    have hWm := merge_leaf_spec hsibW hc' (by omega) (by omega) hAs hBs
    have hmerge : mergeAt ks (cs.set (m + 1) (BNode.leaf es)) m =
        (ks.eraseIdx m,
          ((cs.set (m + 1) (BNode.leaf es)).set m
            (BNode.leaf (les ++ es))).eraseIdx (m + 1)) := by
      simp only [mergeAt, hgm, hsibsh, hgi]
    rw [hmerge]
    refine ⟨?_, by rw [List.length_eraseIdx, if_pos (by omega)]; omega, ?_⟩
    · have hconv : ((cs.set (m + 1) (BNode.leaf es)).set m
          (BNode.leaf (les ++ es))).eraseIdx (m + 1) =
          ((cs.set m (BNode.leaf (les ++ es))).eraseIdx (m + 1)) := by
        rw [List.set_comm _ _ _ (by omega : m + 1 ≠ m)]
        exact eraseIdx_set_same _ (m + 1) _
      rw [hconv]
      have hw := chainSeq_merge hcs (m + 1) (by omega) hile
        (BNode.leaf (les ++ es)) (by simpa using hWm)
      simpa using hw
    · have hdec := set_eraseIdx_decomp (cs.set (m + 1) (BNode.leaf es)) m
        (by simpa using hm1cs) (BNode.leaf (les ++ es))
      rw [hdec]
      conv_rhs => rw [getD_eq_take_drop (cs.set (m + 1) (BNode.leaf es)) m
          (by simp ; omega),
        drop_eq_getD_cons (cs.set (m + 1) (BNode.leaf es)) (m + 1)
          (by simpa using hm1cs)]
      rw [hgm, hsibsh, hgi]
      simp [BNode.toList_leaf]
  | succ hh =>
    rcases hsibsh : cs.getD m default with les | ⟨lks, lcs⟩
    case leaf =>
      rw [hsibsh] at hsibW
      exact hsibW.elim
    rw [hsibsh] at hsibW hsible hsibnum
    rcases c' with es | ⟨rks, rcs⟩
    case leaf => exact hc'.elim
    simp only [BNode.numKeys] at hsible hsibnum hless hcnum
    have hWm := merge_internal_spec hsibW hc' (by omega) (by omega)
    have hmerge : mergeAt ks (cs.set (m + 1) (BNode.internal rks rcs)) m =
        (ks.eraseIdx m,
          ((cs.set (m + 1) (BNode.internal rks rcs)).set m
            (BNode.internal (lks ++ ks.getD m default :: rks)
              (lcs ++ rcs))).eraseIdx (m + 1)) := by
      simp only [mergeAt, hgm, hsibsh, hgi]
    rw [hmerge]
    refine ⟨?_, by rw [List.length_eraseIdx, if_pos (by omega)]; omega, ?_⟩
    · have hconv : ((cs.set (m + 1) (BNode.internal rks rcs)).set m
          (BNode.internal (lks ++ ks.getD m default :: rks)
            (lcs ++ rcs))).eraseIdx (m + 1) =
          ((cs.set m (BNode.internal (lks ++ ks.getD m default :: rks)
            (lcs ++ rcs))).eraseIdx (m + 1)) := by
        rw [List.set_comm _ _ _ (by omega : m + 1 ≠ m)]
        exact eraseIdx_set_same _ (m + 1) _
      rw [hconv]
      have hw := chainSeq_merge hcs (m + 1) (by omega) hile
        (BNode.internal (lks ++ ks.getD m default :: rks) (lcs ++ rcs))
        (by simpa using hWm)
      simpa using hw
    · have hdec := set_eraseIdx_decomp (cs.set (m + 1) (BNode.internal rks rcs))
        m (by simpa using hm1cs)
        (BNode.internal (lks ++ ks.getD m default :: rks) (lcs ++ rcs))
      rw [hdec]
      conv_rhs => rw [getD_eq_take_drop
          (cs.set (m + 1) (BNode.internal rks rcs)) m (by simp ; omega),
        drop_eq_getD_cons (cs.set (m + 1) (BNode.internal rks rcs)) (m + 1)
          (by simpa using hm1cs)]
      rw [hgm, hsibsh, hgi]
      simp [BNode.toList_internal_flatten]

/-- `deleteEntry`'s merge-with-right-sibling branch seen from the parent:
the leftmost child is one key short and its right sibling cannot spare a
key. -/
theorem mergeRight_list_spec {mx mn h : Nat} (hmn1 : 1 ≤ mn) (hmnmx : mn ≤ mx)
    (h2mn : 2 * mn ≤ mx) {lo hi : Option K} {ks : List K}
    {cs : List (BNode K V)} (hcs : chainSeq (WFN mx mn mn h) lo hi ks cs)
    (hks1 : 1 ≤ ks.length) {c' : BNode K V}
    (hc' : WFN mx mn (mn - 1) h (lowAt lo ks 0) (highAt hi ks 0) c')
    (hless : c'.numKeys < mn)
    (hsible : (cs.getD 1 default).numKeys ≤ mn) :
    chainSeq (WFN mx mn mn h) lo hi
      (mergeAt ks (cs.set 0 c') 0).1 (mergeAt ks (cs.set 0 c') 0).2 ∧
    (mergeAt ks (cs.set 0 c') 0).1.length + 1 = ks.length ∧
    ((mergeAt ks (cs.set 0 c') 0).2.map BNode.toList).flatten =
      ((cs.set 0 c').map BNode.toList).flatten := by
  have hclen := chainSeq_length hcs
  have hsep := chainSeq_sep_facts hmn1 hcs
  have h1cs : 1 < cs.length := by omega
  have hgi : (cs.set 0 c').getD 0 default = c' :=
    getD_set_eq cs 0 (by omega) c'
  have hgs : (cs.set 0 c').getD 1 default = cs.getD 1 default :=
    getD_set_ne cs 0 1 (by omega) c'
  have hsibW := chainSeq_nav hcs 1 (by omega)
  have hsibnum := WFN_numKeys hsibW
  have hlA : lowAt lo ks 1 = some (ks.getD 0 default) := by
    unfold lowAt
    rw [if_neg (by omega)]
  have hhA : highAt hi ks 0 = some (ks.getD 0 default) := by
    unfold highAt
    rw [if_pos (by omega)]
  rw [hlA] at hsibW
  rw [hhA] at hc'
  have hAs : ∀ x : K, ks.getD 0 default ≤ x → okLo (lowAt lo ks 0) x :=
    fun x hx => sep_le_lowAt hsep.1 hsep.2 (by omega) hx
  have hBs : ∀ x : K, x < ks.getD 0 default → okHi (highAt hi ks 1) x :=
    fun x hx => sep_lt_highAt hsep.1 hsep.2 (by omega) (by omega) (by simpa using hx)
  have hcnum := WFN_numKeys hc'
  cases h with
  | zero =>
    rcases hsibsh : cs.getD 1 default with res | ⟨sks, scs⟩
    case internal =>
      rw [hsibsh] at hsibW
      exact hsibW.elim
    rw [hsibsh] at hsibW hsible hsibnum
    rcases c' with es | ⟨nks, ncs⟩
    case internal => exact hc'.elim
    simp only [BNode.numKeys] at hsible hsibnum hless hcnum
    have hWm := merge_leaf_spec hc' hsibW (by omega) (by omega) hAs hBs
    have hmerge : mergeAt ks (cs.set 0 (BNode.leaf es)) 0 =
        (ks.eraseIdx 0,
          ((cs.set 0 (BNode.leaf es)).set 0
            (BNode.leaf (es ++ res))).eraseIdx 1) := by
      simp only [mergeAt, hgi, hgs, hsibsh]
    rw [hmerge]
    refine ⟨?_, by rw [List.length_eraseIdx, if_pos (by omega)]; omega, ?_⟩
    · rw [List.set_set]
      have hw := chainSeq_merge hcs 1 (by omega) (by omega)
        (BNode.leaf (es ++ res)) (by simpa using hWm)
      simpa using hw
    · have hdec := set_eraseIdx_decomp (cs.set 0 (BNode.leaf es)) 0
        (by simpa using h1cs) (BNode.leaf (es ++ res))
      rw [hdec]
      conv_rhs => rw [getD_eq_take_drop (cs.set 0 (BNode.leaf es)) 0
          (by simp ; omega),
        drop_eq_getD_cons (cs.set 0 (BNode.leaf es)) 1 (by simpa using h1cs)]
      rw [hgi, hgs, hsibsh]
      simp [BNode.toList_leaf]
  | succ hh =>
    rcases hsibsh : cs.getD 1 default with res | ⟨rks, rcs⟩
    case leaf =>
      rw [hsibsh] at hsibW
      exact hsibW.elim
    rw [hsibsh] at hsibW hsible hsibnum
    rcases c' with es | ⟨lks, lcs⟩
    case leaf => exact hc'.elim
    simp only [BNode.numKeys] at hsible hsibnum hless hcnum
    have hWm := merge_internal_spec hc' hsibW (by omega) (by omega)
    have hmerge : mergeAt ks (cs.set 0 (BNode.internal lks lcs)) 0 =
        (ks.eraseIdx 0,
          ((cs.set 0 (BNode.internal lks lcs)).set 0
            (BNode.internal (lks ++ ks.getD 0 default :: rks)
              (lcs ++ rcs))).eraseIdx 1) := by
      simp only [mergeAt, hgi, hgs, hsibsh]
    rw [hmerge]
    refine ⟨?_, by rw [List.length_eraseIdx, if_pos (by omega)]; omega, ?_⟩
    · rw [List.set_set]
      have hw := chainSeq_merge hcs 1 (by omega) (by omega)
        (BNode.internal (lks ++ ks.getD 0 default :: rks) (lcs ++ rcs))
        (by simpa using hWm)
      simpa using hw
    · have hdec := set_eraseIdx_decomp (cs.set 0 (BNode.internal lks lcs)) 0
        (by simpa using h1cs)
        (BNode.internal (lks ++ ks.getD 0 default :: rks) (lcs ++ rcs))
      rw [hdec]
      conv_rhs => rw [getD_eq_take_drop (cs.set 0 (BNode.internal lks lcs)) 0
          (by simp ; omega),
        drop_eq_getD_cons (cs.set 0 (BNode.internal lks lcs)) 1
          (by simpa using h1cs)]
      rw [hgi, hgs, hsibsh]
      simp [BNode.toList_internal_flatten]

/-- The full `deleteEntry` decision procedure seen from the parent:
whatever branch is taken, the parent's child chain is well-formed again,
the parent loses at most one key, and the contents are preserved. -/
theorem deleteEntryAt_spec {mx mn h : Nat} (hmn1 : 1 ≤ mn) (hmnmx : mn ≤ mx)
    (h2mn : 2 * mn ≤ mx) {lo hi : Option K} {ks : List K}
    {cs : List (BNode K V)} (hcs : chainSeq (WFN mx mn mn h) lo hi ks cs)
    {i : Nat} (hile : i ≤ ks.length) {c' : BNode K V}
    (hc' : WFN mx mn (mn - 1) h (lowAt lo ks i) (highAt hi ks i) c')
    (hless : c'.numKeys < mn) (hks1 : 1 ≤ ks.length) :
    chainSeq (WFN mx mn mn h) lo hi
      (deleteEntryAt mn ks (cs.set i c') i).1
      (deleteEntryAt mn ks (cs.set i c') i).2 ∧
    ((deleteEntryAt mn ks (cs.set i c') i).1.length = ks.length ∨
      (deleteEntryAt mn ks (cs.set i c') i).1.length + 1 = ks.length) ∧
    ((deleteEntryAt mn ks (cs.set i c') i).2.map BNode.toList).flatten =
      ((cs.set i c').map BNode.toList).flatten := by
  have hclen := chainSeq_length hcs
  unfold deleteEntryAt
  split_ifs with hcond1 hcond2 hcond3
  · obtain ⟨hi0, hmore⟩ := hcond1
    obtain ⟨m, rfl⟩ : ∃ m, i = m + 1 := ⟨i - 1, by omega⟩
    simp only [Nat.add_sub_cancel] at hmore
    rw [getD_set_ne cs (m + 1) m (by omega) c'] at hmore
    obtain ⟨hA, hB, hC⟩ := borrowLeft_list_spec hmn1 hmnmx hcs hile hc' hless hmore
    exact ⟨hA, Or.inl hB, hC⟩
  · obtain ⟨hilt, hmore⟩ := hcond2
    rw [getD_set_ne cs i (i + 1) (by omega) c'] at hmore
    obtain ⟨hA, hB, hC⟩ := borrowRight_list_spec hmn1 hmnmx hcs hilt hc' hless hmore
    exact ⟨hA, Or.inl hB, hC⟩
  · obtain ⟨m, rfl⟩ : ∃ m, i = m + 1 := ⟨i - 1, by omega⟩
    simp only [Nat.add_sub_cancel]
    have hsible : (cs.getD m default).numKeys ≤ mn := by
      by_contra hcon
      push_neg at hcon
      refine hcond1 ⟨by omega, ?_⟩
      simp only [Nat.add_sub_cancel]
      rw [getD_set_ne cs (m + 1) m (by omega) c']
      omega
    obtain ⟨hA, hB, hC⟩ := mergeLeft_list_spec hmn1 hmnmx h2mn hcs hile hc'
      hless hsible
    exact ⟨hA, Or.inr hB, hC⟩
  · have hi0 : i = 0 := by omega
    subst hi0
    have hsible : (cs.getD 1 default).numKeys ≤ mn := by
      by_contra hcon
      push_neg at hcon
      refine hcond2 ⟨by omega, ?_⟩
      rw [getD_set_ne cs 0 1 (by omega) c']
      omega
    obtain ⟨hA, hB, hC⟩ := mergeRight_list_spec hmn1 hmnmx h2mn hcs hks1 hc'
      hless hsible
    exact ⟨hA, Or.inr hB, hC⟩

/-- `remove` below the root: `none` exactly when the key is absent (and
then the tree is untouched); otherwise the subtree is rebuilt well-formed
— with the top node possibly one key short of its lower bound — and its
contents are the old contents with the key erased. -/
theorem removeRec_spec {mx mn : Nat} (hmn1 : 1 ≤ mn) (hmnmx : mn ≤ mx)
    (h2mn : 2 * mn ≤ mx) (key : K) :
    ∀ (h : Nat) {lb : Nat} {lo hi : Option K} {n : BNode K V},
      WFN mx mn lb h lo hi n → 1 ≤ lb → okLo lo key → okHi hi key →
      (removeRec mn key n = none → findValue n.toList key = none) ∧
      (∀ n2, removeRec mn key n = some n2 →
        WFN mx mn (lb - 1) h lo hi n2 ∧
        n2.toList = eraseKey key n.toList ∧
        n2.toList.length + 1 = n.toList.length ∧
        (n2.numKeys = n.numKeys ∨ n2.numKeys + 1 = n.numKeys)) := by
  intro h
  induction h with
  | zero =>
    intro lb lo hi n hw h1lb hlo hhi
    match n with
    | .internal ks cs => exact hw.elim
    | .leaf es =>
      obtain ⟨hel, heu, hes, heb⟩ := hw
      constructor
      · intro hnone
        rw [removeRec] at hnone
        rw [BNode.toList_leaf]
        cases hlr : leafRemove es key with
        | none => exact (leafRemove_eq_none es key).mp hlr
        | some es2 => rw [hlr] at hnone ; simp at hnone
      · intro n2 hn2
        rw [removeRec] at hn2
        cases hlr : leafRemove es key with
        | none => rw [hlr] at hn2 ; simp at hn2
        | some es2 =>
          rw [hlr] at hn2
          have hn2' : BNode.leaf es2 = n2 := by simpa using hn2
          subst hn2'
          have hfound : findValue es key ≠ none := by
            intro hfv
            rw [(leafRemove_eq_none es key).mpr hfv] at hlr
            simp at hlr
          have hes2 : es2 = eraseKey key es := leafRemove_eq_some es key es2 hlr
          subst hes2
          have hlen := eraseKey_length_found key es hfound
          refine ⟨⟨by omega, by omega, eraseKey_sorted key es hes,
            eraseKey_bounds key es heb⟩, ?_, ?_, ?_⟩
          · rw [BNode.toList_leaf, BNode.toList_leaf]
          · rw [BNode.toList_leaf, BNode.toList_leaf]
            exact hlen
          · exact Or.inr (by simpa [BNode.numKeys] using hlen)
  | succ h ih =>
    intro lb lo hi n hw h1lb hlo hhi
    match n with
    | .leaf es => exact hw.elim
    | .internal ks cs =>
      obtain ⟨hkl, hku, hchain⟩ := hw
      set i := findChildIndex ks key with hidef
      have hile : i ≤ ks.length := findChildIndex_le_length ks key
      have hclen := chainSeq_length hchain
      have hcw := chainSeq_nav hchain i hile
      have hlo' : okLo (lowAt lo ks (findChildIndex ks key)) key :=
        descend_okLo hlo
      have hhi' : okHi (highAt hi ks (findChildIndex ks key)) key :=
        descend_okHi hhi
      rw [← hidef] at hlo' hhi'
      have hrec := ih hcw hmn1 hlo' hhi'
      have hpre : ∀ p ∈ ((cs.take i).map BNode.toList).flatten, p.1 ≠ key :=
        fun p hp => ne_of_lt (descend_prefix_lt hmn1 hchain key p hp)
      have hsuf : ∀ p ∈ ((cs.drop (i + 1)).map BNode.toList).flatten, p.1 ≠ key :=
        fun p hp => ne_of_gt (descend_suffix_gt hmn1 hchain key p hp)
      have hflat : (cs.map BNode.toList).flatten =
          ((cs.take i).map BNode.toList).flatten ++
            ((cs.getD i default).toList ++
              ((cs.drop (i + 1)).map BNode.toList).flatten) := by
        rw [flatten_decomp_at cs i (by omega) BNode.toList, List.append_assoc]
      have hfv : findValue ((cs.map BNode.toList).flatten) key =
          findValue (cs.getD i default).toList key := by
        rw [hflat, findValue_skip_left _ _ key hpre,
          findValue_skip_right _ _ key hsuf]
      rcases hr : removeRec mn key (cs.getD i default) with _ | c'
      · have hmain : removeRec mn key (BNode.internal ks cs) = none := by
          rw [removeRec, ← hidef, hr]
        constructor
        · intro _
          rw [BNode.toList_internal_flatten, hfv]
          exact hrec.1 hr
        · intro n2 hn2
          rw [hmain] at hn2
          exact absurd hn2 (by simp)
      · obtain ⟨hcW, hctl, hclen2, hcnum⟩ := hrec.2 c' hr
        have hflat2 : ((cs.set i c').map BNode.toList).flatten =
            ((cs.take i).map BNode.toList).flatten ++
              (c'.toList ++ ((cs.drop (i + 1)).map BNode.toList).flatten) := by
          rw [set_eq_take_cons_drop cs i (by omega) c']
          simp [List.map_append, List.flatten_append]
        have herase : eraseKey key ((cs.map BNode.toList).flatten) =
            ((cs.take i).map BNode.toList).flatten ++
              (eraseKey key (cs.getD i default).toList ++
                ((cs.drop (i + 1)).map BNode.toList).flatten) := by
          rw [hflat, eraseKey_append_left key _ _ hpre,
            eraseKey_append_right key _ _ hsuf]
        by_cases hunder : c'.numKeys < mn
        · have hmain : removeRec mn key (BNode.internal ks cs) =
              some (.internal (deleteEntryAt mn ks (cs.set i c') i).1
                (deleteEntryAt mn ks (cs.set i c') i).2) := by
            rw [removeRec, ← hidef, hr]
            dsimp only
            rw [if_pos hunder]
          obtain ⟨hA, hB, hC⟩ := deleteEntryAt_spec hmn1 hmnmx h2mn hchain hile
            hcW hunder (by omega)
          constructor
          · intro hcontra
            rw [hmain] at hcontra
            simp at hcontra
          · intro n2 hn2
            rw [hmain] at hn2
            have hn2' : BNode.internal (deleteEntryAt mn ks (cs.set i c') i).1
                (deleteEntryAt mn ks (cs.set i c') i).2 = n2 := by
              simpa using hn2
            subst hn2'
            refine ⟨⟨?_, ?_, hA⟩, ?_, ?_, ?_⟩
            · rcases hB with hB | hB <;> omega
            · rcases hB with hB | hB <;> omega
            · rw [BNode.toList_internal_flatten, hC, hflat2,
                BNode.toList_internal_flatten, herase, hctl]
            · rw [BNode.toList_internal_flatten, hC, hflat2,
                BNode.toList_internal_flatten, hflat]
              simp only [List.length_append]
              omega
            · simpa [BNode.numKeys] using hB
        · have hmain : removeRec mn key (BNode.internal ks cs) =
              some (.internal ks (cs.set i c')) := by
            rw [removeRec, ← hidef, hr]
            dsimp only
            rw [if_neg hunder]
          constructor
          · intro hcontra
            rw [hmain] at hcontra
            simp at hcontra
          · intro n2 hn2
            rw [hmain] at hn2
            have hn2' : BNode.internal ks (cs.set i c') = n2 := by
              simpa using hn2
            subst hn2'
            have hcW' := WFN_raise_lb mn hcW (by omega)
            refine ⟨⟨by omega, hku, chainSeq_set hchain i hile c' hcW'⟩,
              ?_, ?_, Or.inl rfl⟩
            · rw [BNode.toList_internal_flatten, hflat2,
                BNode.toList_internal_flatten, herase, hctl]
            · rw [BNode.toList_internal_flatten, hflat2,
                BNode.toList_internal_flatten, hflat]
              simp only [List.length_append]
              omega

/-- `BPlusTree::remove` at the tree level: the result is well-formed, the
boolean reports exactly whether the key was present, the contents are the
old contents with the key erased, and a `false` result leaves the tree
untouched. -/
theorem remove_spec (t : BPlusTree K V) (hWF : t.WF) (key : K) :
    (t.remove key).2.WF ∧
    ((t.remove key).1 = true ↔ findValue t.toList key ≠ none) ∧
    (t.remove key).2.toList = eraseKey key t.toList ∧
    ((t.remove key).1 = false → (t.remove key).2 = t) := by
  obtain ⟨hmx2, hmneq⟩ := WF_maxKeys_minKeys t hWF
  have hmn1 : 1 ≤ t.minKeys := order_clamped_minKeys t hWF.1
  have hmnmx : t.minKeys ≤ t.maxKeys := by omega
  have h2mn : 2 * t.minKeys ≤ t.maxKeys := by omega
  unfold BPlusTree.remove
  match hr : t.root with
  | none =>
    dsimp only
    have htl : t.toList = [] := by
      unfold BPlusTree.toList
      rw [hr]
    refine ⟨hWF, ?_, ?_, fun _ => rfl⟩
    · rw [htl]
      simp [findValue]
    · rw [htl]
      rfl
  | some r =>
    have hroot : ∃ hh, WFN t.maxKeys t.minKeys 1 hh none none r := by
      have := hWF.2
      rw [hr] at this
      exact this
    obtain ⟨h, hWFr⟩ := hroot
    have htl : t.toList = r.toList := by
      unfold BPlusTree.toList
      rw [hr]
    have hspec := removeRec_spec hmn1 hmnmx h2mn key h hWFr (le_refl 1)
      trivial trivial
    dsimp only
    rcases hrr : removeRec t.minKeys key r with _ | r'
    · have hfv := hspec.1 hrr
      refine ⟨hWF, ?_, ?_, fun _ => rfl⟩
      · rw [htl]
        simp [hfv]
      · rw [htl, eraseKey_not_found key _ hfv]
    · obtain ⟨hW', htl', hlen, hnum⟩ := hspec.2 r' hrr
      have hfound : findValue r.toList key ≠ none := by
        intro hnone
        rw [eraseKey_not_found key _ hnone] at htl'
        have := congrArg List.length htl'
        omega
      rcases r' with es | ⟨ks2, cs2⟩
      · dsimp only
        split_ifs with hlen0
        · refine ⟨⟨hWF.1, trivial⟩, ?_, ?_, ?_⟩
          · rw [htl]
            simp [hfound]
          · show ([] : List (K × V)) = eraseKey key t.toList
            rw [htl, ← htl']
            rw [BNode.toList_leaf]
            exact (List.length_eq_zero.mp hlen0).symm
          · intro hco
            simp at hco
        · refine ⟨⟨hWF.1, ?_⟩, ?_, ?_, ?_⟩
          · exact ⟨h, WFN_raise_lb 1 hW' (by simp [BNode.numKeys]; omega)⟩
          · rw [htl]
            simp [hfound]
          · show (BNode.leaf es : BNode K V).toList = eraseKey key t.toList
            rw [htl, ← htl']
          · intro hco
            simp at hco
      · dsimp only
        split_ifs with hks0
        · obtain rfl : ks2 = [] := List.length_eq_zero.mp hks0
          refine ⟨⟨hWF.1, ?_⟩, ?_, ?_, ?_⟩
          · cases h with
            | zero => exact hW'.elim
            | succ h2 =>
              have hchain := hW'.2.2
              match cs2, hchain with
              | [], hchain => exact absurd hchain (chainSeq_not_nil_nil _ _)
              | [c], hchain =>
                exact ⟨h2, WFN_mono_lb hmn1 (by simpa using hchain)⟩
              | c :: c2 :: rest, hchain =>
                exact absurd hchain (chainSeq_not_nil_cons2 _ _ _ _ _)
          · rw [htl]
            simp [hfound]
          · cases h with
            | zero => exact hW'.elim
            | succ h2 =>
              have hchain := hW'.2.2
              match cs2, hchain with
              | [], hchain => exact absurd hchain (chainSeq_not_nil_nil _ _)
              | [c], hchain =>
                show (List.getD [c] 0 default).toList = eraseKey key t.toList
                rw [htl, ← htl']
                rw [BNode.toList_internal_flatten]
                simp
              | c :: c2 :: rest, hchain =>
                exact absurd hchain (chainSeq_not_nil_cons2 _ _ _ _ _)
          · intro hco
            simp at hco
        · refine ⟨⟨hWF.1, ?_⟩, ?_, ?_, ?_⟩
          · exact ⟨h, WFN_raise_lb 1 hW' (by simp [BNode.numKeys]; omega)⟩
          · rw [htl]
            simp [hfound]
          · show (BNode.internal ks2 cs2 : BNode K V).toList = eraseKey key t.toList
            rw [htl, ← htl']
          · intro hco
            simp at hco

end RemoveLemmas

section ValidateSound

variable [LinearOrder K] [Inhabited K] [Inhabited V]

theorem keysSortedCheck_of_chain (l : List K) (hs : List.Chain' (· < ·) l) :
    keysSortedCheck l = true := by
  induction l with
  | nil => rfl
  | cons a rest ih =>
    cases rest with
    | nil => rfl
    | cons b rest2 =>
      obtain ⟨hab, hs2⟩ := List.chain'_cons.mp hs
      rw [keysSortedCheck, if_neg (not_le.mpr hab)]
      exact ih hs2

/-- `validateNode` accepts every well-formed node (with the node count
check discharged by the caller for non-roots), and threads the leaf level
as the node's level plus its height. -/
theorem validateNode_sound {mx mn : Nat} (hmn1 : 1 ≤ mn) :
    ∀ (h : Nat) {lb : Nat} {lo hi : Option K} {n : BNode K V}
      (isRoot : Bool) (level : Nat),
      WFN mx mn lb h lo hi n →
      (isRoot = false → mn ≤ n.numKeys) →
      validateNode mx mn isRoot level n none = (true, some (level + h)) ∧
      validateNode mx mn isRoot level n (some (level + h)) =
        (true, some (level + h)) := by
  intro h
  induction h with
  | zero =>
    intro lb lo hi n isRoot level hw hcnt
    match n with
    | .internal ks cs => exact hw.elim
    | .leaf es =>
      obtain ⟨hel, heu, hes, heb⟩ := hw
      have hcond1 : ¬(¬(isRoot = true) ∧
          ((BNode.leaf es : BNode K V).numKeys < mn ∨
            (BNode.leaf es : BNode K V).numKeys > mx)) := by
        cases isRoot with
        | true => simp
        | false =>
          have hc := hcnt rfl
          simp only [BNode.numKeys] at hc ⊢
          simp only [Bool.false_eq_true, not_false_eq_true, true_and]
          push_neg
          omega
      have hsorted : keysSortedCheck (BNode.leaf es : BNode K V).keyList = true := by
        rw [BNode.keyList]
        exact keysSortedCheck_of_chain _ hes
      constructor
      · rw [validateNode, if_neg hcond1, if_neg (by rw [hsorted]; simp)]
        simp
      · rw [validateNode, if_neg hcond1, if_neg (by rw [hsorted]; simp)]
        simp
  | succ h ihh =>
    intro lb lo hi n isRoot level hw hcnt
    match n with
    | .leaf es => exact hw.elim
    | .internal ks cs =>
      obtain ⟨hkl, hku, hchain⟩ := hw
      have hsep := chainSeq_sep_facts hmn1 hchain
      have hcond1 : ¬(¬(isRoot = true) ∧
          ((BNode.internal ks cs : BNode K V).numKeys < mn ∨
            (BNode.internal ks cs : BNode K V).numKeys > mx)) := by
        cases isRoot with
        | true => simp
        | false =>
          have hc := hcnt rfl
          simp only [BNode.numKeys] at hc ⊢
          simp only [Bool.false_eq_true, not_false_eq_true, true_and]
          push_neg
          omega
      have hsorted : keysSortedCheck
          (BNode.internal ks cs : BNode K V).keyList = true := by
        rw [BNode.keyList]
        exact keysSortedCheck_of_chain _ hsep.1
      have hchildren : ∀ (ks' : List K) (cs' : List (BNode K V)) (lo' : Option K),
          chainSeq (WFN mx mn mn h) lo' hi ks' cs' →
          validateChildren mx mn (level + 1) cs' none =
            (true, some (level + 1 + h)) ∧
          validateChildren mx mn (level + 1) cs' (some (level + 1 + h)) =
            (true, some (level + 1 + h)) := by
        intro ks'
        induction ks' with
        | nil =>
          intro cs' lo' hcs
          match cs' with
          | [] => exact absurd hcs (chainSeq_not_nil_nil _ _)
          | [c] =>
            have hnum := WFN_numKeys hcs
            obtain ⟨hv1, hv2⟩ := ihh false (level + 1) hcs (fun _ => hnum.1)
            constructor
            · rw [validateChildren, hv1]
              simp only [if_pos]
              rw [validateChildren]
            · rw [validateChildren, hv2]
              simp only [if_pos]
              rw [validateChildren]
          | c :: c2 :: rest =>
            exact absurd hcs (chainSeq_not_nil_cons2 _ _ _ _ _)
        | cons s ss ih2 =>
          intro cs' lo' hcs
          match cs' with
          | [] => exact absurd hcs (chainSeq_not_cons_nil _ _ _ _)
          | c :: cs'' =>
            obtain ⟨hc, hrest⟩ := (chainSeq_cons_iff _ _ _ _ _ _).mp hcs
            obtain ⟨hv1, hv2⟩ := ihh false (level + 1) hc
              (fun _ => (WFN_numKeys hc).1)
            obtain ⟨hr1, hr2⟩ := ih2 cs'' (some s) hrest
            constructor
            · rw [validateChildren, hv1]
              simpa using hr2
            · rw [validateChildren, hv2]
              simpa using hr2
      have harith : level + 1 + h = level + (h + 1) := by omega
      obtain ⟨hch1, hch2⟩ := hchildren ks cs lo hchain
      rw [harith] at hch1 hch2
      constructor
      · rw [validateNode, if_neg hcond1, if_neg (by rw [hsorted]; simp)]
        exact hch1
      · rw [validateNode, if_neg hcond1, if_neg (by rw [hsorted]; simp)]
        exact hch2

/-- `BPlusTree::validate` accepts every well-formed tree. -/
theorem validate_WF (t : BPlusTree K V) (hWF : t.WF) : t.validate = true := by
  unfold BPlusTree.validate
  match hr : t.root with
  | none => rfl
  | some r =>
    have hroot : ∃ hh, WFN t.maxKeys t.minKeys 1 hh none none r := by
      have := hWF.2
      rw [hr] at this
      exact this
    obtain ⟨h, hWFr⟩ := hroot
    have hmn1 : 1 ≤ t.minKeys := order_clamped_minKeys t hWF.1
    have hv := (validateNode_sound hmn1 h true 0 hWFr (by simp)).1
    dsimp only
    rw [hv]

end ValidateSound

section OpSequences

variable [LinearOrder K] [Inhabited K] [Inhabited V]

/-- A fresh tree is well-formed (its order is clamped to at least
`MIN_ORDER` and it has no root). -/
theorem new_WF (order : Nat) : (BPlusTree.new order : BPlusTree K V).WF := by
  refine ⟨?_, trivial⟩
  unfold BPlusTree.new MIN_ORDER
  dsimp only
  split_ifs with hcl <;> omega

theorem new_toList (order : Nat) :
    (BPlusTree.new order : BPlusTree K V).toList = [] := rfl

/-- Running any operation sequence on a well-formed tree keeps it
well-formed, and its contents refine the specification-side fold. -/
theorem applyOps_spec (ops : List (Op K V)) :
    ∀ (t : BPlusTree K V), t.WF →
      (applyOps t ops).WF ∧
      (applyOps t ops).toList =
        ops.foldl (fun l op =>
          match op with
          | .ins k v => listInsert k v l
          | .del k => eraseKey k l) t.toList := by
  induction ops with
  | nil =>
    intro t hWF
    exact ⟨hWF, rfl⟩
  | cons op rest ih =>
    intro t hWF
    cases op with
    | ins k v =>
      obtain ⟨hW, hL⟩ := insert_spec t hWF k v
      obtain ⟨hW2, hL2⟩ := ih (t.insert k v) hW
      refine ⟨hW2, ?_⟩
      rw [show applyOps t (.ins k v :: rest) = applyOps (t.insert k v) rest
        from rfl]
      rw [List.foldl_cons]
      dsimp only
      rw [hL2, hL]
    | del k =>
      obtain ⟨hW, -, hL, -⟩ := remove_spec t hWF k
      obtain ⟨hW2, hL2⟩ := ih (t.remove k).2 hW
      refine ⟨hW2, ?_⟩
      rw [show applyOps t (.del k :: rest) = applyOps (t.remove k).2 rest
        from rfl]
      rw [List.foldl_cons]
      dsimp only
      rw [hL2, hL]

/-- The contents of a fresh tree after an operation sequence are exactly
the specification-side model list. -/
theorem applyOps_new_spec (order : Nat) (ops : List (Op K V)) :
    (applyOps (BPlusTree.new order) ops).WF ∧
    (applyOps (BPlusTree.new order) ops).toList = modelList ops := by
  obtain ⟨hW, hL⟩ := applyOps_spec ops (BPlusTree.new order) (new_WF order)
  exact ⟨hW, by rw [hL, new_toList]; rfl⟩

end OpSequences

section TreeLevelHelpers

variable [LinearOrder K] [Inhabited K] [Inhabited V]

/-- `search` at the tree level agrees with first-match lookup on the
stored pairs. -/
theorem BPlusTree.search_eq (t : BPlusTree K V) (hWF : t.WF) (key : K) :
    t.search key = findValue t.toList key := by
  unfold BPlusTree.search BPlusTree.toList
  match hr : t.root with
  | none => rfl
  | some r =>
    have hroot : ∃ hh, WFN t.maxKeys t.minKeys 1 hh none none r := by
      have := hWF.2
      rw [hr] at this
      exact this
    obtain ⟨h, hWFr⟩ := hroot
    exact searchNode_eq_findValue (order_clamped_minKeys t hWF.1) key h hWFr
      trivial trivial

/-- The stored pairs of a well-formed tree are strictly ascending by
key. -/
theorem WF_toList_sorted (t : BPlusTree K V) (hWF : t.WF) :
    List.Chain' (· < ·) (t.toList.map Prod.fst) := by
  unfold BPlusTree.toList
  match hr : t.root with
  | none => simp
  | some r =>
    have hroot : ∃ hh, WFN t.maxKeys t.minKeys 1 hh none none r := by
      have := hWF.2
      rw [hr] at this
      exact this
    obtain ⟨h, hWFr⟩ := hroot
    exact (WFN_toList_facts (order_clamped_minKeys t hWF.1) h hWFr).2.2

theorem findValue_listInsert_self (key : K) (v : V) (l : List (K × V)) :
    findValue (listInsert key v l) key = some v := by
  induction l with
  | nil => simp [listInsert, findValue]
  | cons q rest ih =>
    obtain ⟨k, w⟩ := q
    rw [listInsert]
    split_ifs with h1 h2
    · rw [findValue, if_pos rfl]
    · rw [findValue, if_pos rfl]
    · rw [findValue]
      have hne : k ≠ key := by
        intro hk
        exact h2 hk.symm
      rw [if_neg hne]
      exact ih

theorem findValue_listInsert_other (key k2 : K) (v : V) (l : List (K × V))
    (hne : k2 ≠ key) :
    findValue (listInsert key v l) k2 = findValue l k2 := by
  induction l with
  | nil => simp [listInsert, findValue, hne.symm]
  | cons q rest ih =>
    obtain ⟨k, w⟩ := q
    rw [listInsert]
    split_ifs with h1 h2
    · rw [findValue, if_neg hne.symm]
    · subst h2
      rw [findValue, if_neg hne.symm, findValue, if_neg hne.symm]
    · rw [findValue, findValue]
      split_ifs with hk
      · rfl
      · exact ih

/-- The shape of a tree with the stored values erased: node structure and
all keys, used to state that overwriting an existing key changes no
structure. -/
def BNode.skeleton : BNode K V → BNode K Unit
  | .leaf es => .leaf (es.map fun p => (p.1, ()))
  | .internal ks cs => .internal ks (cs.attach.map fun c => BNode.skeleton c.1)
decreasing_by
  have := List.sizeOf_lt_of_mem c.2
  simp only [BNode.internal.sizeOf_spec]
  omega

theorem BNode.skeleton_leaf (es : List (K × V)) :
    BNode.skeleton (.leaf es : BNode K V) = .leaf (es.map fun p => (p.1, ())) := by
  rw [BNode.skeleton]

theorem BNode.skeleton_internal (ks : List K) (cs : List (BNode K V)) :
    BNode.skeleton (.internal ks cs) = .internal ks (cs.map BNode.skeleton) := by
  rw [BNode.skeleton]
  congr 1
  induction cs with
  | nil => simp
  | cons c cs ih => simp [List.attach_cons, ih]

theorem map_set {α β : Type} (l : List α) (i : Nat) (a : α) (f : α → β) :
    (l.set i a).map f = (l.map f).set i (f a) := by
  induction l generalizing i with
  | nil => simp
  | cons x xs ih =>
    cases i with
    | zero => simp
    | succ i0 => simpa using ih i0

theorem set_eq_of_getD {α : Type} [Inhabited α] (l : List α) (i : Nat)
    (hi : i < l.length) (a : α) (ha : l.getD i default = a) : l.set i a = l := by
  induction l generalizing i with
  | nil => simp at hi
  | cons x xs ih =>
    cases i with
    | zero =>
      simp only [List.getD_cons_zero] at ha
      rw [ha.symm]
      simp
    | succ i0 =>
      simp only [List.getD_cons_succ] at ha
      simpa using ih i0 (by simpa using hi) ha

theorem getD_map_of_lt {α β : Type} [Inhabited α] [Inhabited β] (l : List α)
    (f : α → β) (i : Nat) (hi : i < l.length) :
    (l.map f).getD i default = f (l.getD i default) := by
  rw [List.getD_eq_getElem _ _ (by simpa using hi), List.getD_eq_getElem _ _ hi]
  simp

/-- Inserting a key that is already present never restructures the
subtree: `insert` finds the duplicate slot at the leaf and overwrites the
value in place, so the rebuilt subtree has the same skeleton (same nodes,
same keys) — no node is created, split or removed. -/
theorem insertRec_dup_skeleton {mx mn : Nat} (hmn1 : 1 ≤ mn) (key : K) (v : V) :
    ∀ (h : Nat) {lb : Nat} {lo hi : Option K} {n : BNode K V},
      WFN mx mn lb h lo hi n → okLo lo key → okHi hi key →
      findValue n.toList key ≠ none →
      ∃ r', insertRec mx key v n = .one r' ∧ r'.skeleton = n.skeleton := by
  intro h
  induction h with
  | zero =>
    intro lb lo hi n hw hlo hhi hfv
    match n with
    | .internal ks cs => exact hw.elim
    | .leaf es =>
      obtain ⟨hel, heu, hes, heb⟩ := hw
      rw [BNode.toList_leaf] at hfv
      obtain ⟨hle, hfound, hnotfound⟩ := leaf_insert_spec key v es hes
      have hcond : twPos key (es.map Prod.fst) < es.length ∧
          (es.map Prod.fst).getD (twPos key (es.map Prod.fst)) default = key := by
        by_contra hco
        exact hfv (hnotfound hco).2
      refine ⟨.leaf (es.set (findKeyPosition (es.map Prod.fst) key) (key, v)),
        ?_, ?_⟩
      · rw [insertRec]
        rw [findKeyPosition_eq_twPos _ _ (by simpa using hes)]
        rw [if_pos (by simpa using hcond)]
      · rw [findKeyPosition_eq_twPos _ _ (by simpa using hes)]
        rw [BNode.skeleton_leaf, BNode.skeleton_leaf]
        rw [map_set]
        congr 1
        refine set_eq_of_getD _ _ (by simpa using hcond.1) _ ?_
        rw [getD_map_of_lt _ _ _ hcond.1]
        simp only []
        congr 1
        have := hcond.2
        rw [getD_map_of_lt _ _ _ hcond.1] at this
        exact this
  | succ h ih =>
    intro lb lo hi n hw hlo hhi hfv
    match n with
    | .leaf es => exact hw.elim
    | .internal ks cs =>
      obtain ⟨hkl, hku, hchain⟩ := hw
      set i := findChildIndex ks key with hidef
      have hile : i ≤ ks.length := findChildIndex_le_length ks key
      have hclen := chainSeq_length hchain
      have hcw := chainSeq_nav hchain i hile
      have hlo' : okLo (lowAt lo ks (findChildIndex ks key)) key :=
        descend_okLo hlo
      have hhi' : okHi (highAt hi ks (findChildIndex ks key)) key :=
        descend_okHi hhi
      rw [← hidef] at hlo' hhi'
      have hpre : ∀ p ∈ ((cs.take i).map BNode.toList).flatten, p.1 ≠ key :=
        fun p hp => ne_of_lt (descend_prefix_lt hmn1 hchain key p hp)
      have hsuf : ∀ p ∈ ((cs.drop (i + 1)).map BNode.toList).flatten, p.1 ≠ key :=
        fun p hp => ne_of_gt (descend_suffix_gt hmn1 hchain key p hp)
      have hfvc : findValue (cs.getD i default).toList key ≠ none := by
        intro hco
        refine hfv ?_
        rw [BNode.toList_internal_flatten,
          flatten_decomp_at cs i (by omega) BNode.toList, List.append_assoc,
          findValue_skip_left _ _ key hpre,
          findValue_skip_right _ _ key hsuf]
        exact hco
      obtain ⟨c', hone, hskel⟩ := ih hcw hlo' hhi' hfvc
      refine ⟨.internal ks (cs.set i c'), ?_, ?_⟩
      · rw [insertRec, ← hidef, hone]
      · rw [BNode.skeleton_internal, BNode.skeleton_internal, map_set, hskel]
        congr 1
        refine set_eq_of_getD _ _ (by simpa using (by omega : i < cs.length)) _ ?_
        rw [getD_map_of_lt _ _ _ (by omega)]

end TreeLevelHelpers

section RangeDegenerate

variable [LinearOrder K] [Inhabited K] [Inhabited V]

theorem rangeScanLeaf_rev {lo hi : K} (hlohi : hi < lo) :
    ∀ es : List (K × V), (rangeScanLeaf lo hi es).1 = [] := by
  intro es
  induction es with
  | nil => rfl
  | cons p rest ih =>
    obtain ⟨k, v⟩ := p
    rw [rangeScanLeaf]
    split_ifs with h1 h2
    · exact absurd (lt_of_le_of_lt (le_trans h1.1 h1.2) hlohi) (lt_irrefl lo)
    · rfl
    · exact ih

theorem rangeScan_rev {lo hi : K} (hlohi : hi < lo) :
    ∀ ls : List (List (K × V)), rangeScan lo hi ls = [] := by
  intro ls
  induction ls with
  | nil => rfl
  | cons es rest ih =>
    rw [rangeScan]
    have h1 := rangeScanLeaf_rev hlohi es
    split_ifs with h2
    · exact h1
    · rw [h1, ih]
      rfl

theorem flatten_decomp_at2 {α β : Type} [Inhabited α] (cs : List α) (i : Nat)
    (hi : i < cs.length) (f : α → List β) :
    (cs.map f).flatten =
      ((cs.take i).map f).flatten ++ f (cs.getD i default) ++
      ((cs.drop (i + 1)).map f).flatten := by
  conv_lhs => rw [getD_eq_take_drop cs i hi]
  simp [List.map_append, List.flatten_append]

/-- The leaf lists reached by `findLeaf key` and the following leaf links
are a suffix of the node's whole leaf list, and every entry of the
skipped prefix has a key strictly below `key`. -/
theorem leavesFrom_decomp {mx mn : Nat} (hmn1 : 1 ≤ mn) (key : K) :
    ∀ (h : Nat) {lb : Nat} {lo hi : Option K} {n : BNode K V},
      WFN mx mn lb h lo hi n →
      ∃ pre, n.leafLists = pre ++ leavesFrom key n ∧
        ∀ p ∈ pre.flatten, p.1 < key := by
  intro h
  induction h with
  | zero =>
    intro lb lo hi n hw
    match n with
    | .internal ks cs => exact hw.elim
    | .leaf es =>
      refine ⟨[], ?_, by simp⟩
      rw [BNode.leafLists_leaf, leavesFrom]
      simp
  | succ h ih =>
    intro lb lo hi n hw
    match n with
    | .leaf es => exact hw.elim
    | .internal ks cs =>
      obtain ⟨hkl, hku, hchain⟩ := hw
      set i := findChildIndex ks key with hidef
      have hile : i ≤ ks.length := findChildIndex_le_length ks key
      have hclen := chainSeq_length hchain
      have hcw := chainSeq_nav hchain i hile
      obtain ⟨preC, hpreC, hpreCk⟩ := ih hcw
      have hA : ∀ p ∈ (((cs.take i).map BNode.leafLists).flatten).flatten,
          p.1 < key := by
        intro p hp
        refine descend_prefix_lt hmn1 hchain key p ?_
        rw [← hidef]
        have hconv : ((cs.take i).map BNode.toList).flatten =
            (((cs.take i).map BNode.leafLists).flatten).flatten :=
          calc ((cs.take i).map BNode.toList).flatten
              = ((cs.take i).map (fun c => c.leafLists.flatten)).flatten := by
                congr 1
                exact List.map_congr_left
                  fun c _ => BNode.toList_eq_leafLists_flatten c
            _ = (((cs.take i).map BNode.leafLists).map List.flatten).flatten := by
                rw [List.map_map]
                rfl
            _ = (((cs.take i).map BNode.leafLists).flatten).flatten :=
                List.flatten_flatten.symm
        rw [hconv]
        exact hp
      refine ⟨((cs.take i).map BNode.leafLists).flatten ++ preC, ?_, ?_⟩
      · rw [BNode.leafLists_internal, foldr_append_eq_flatten,
          flatten_decomp_at2 cs i (by omega) BNode.leafLists]
        rw [leavesFrom, ← hidef, foldr_append_eq_flatten]
        rw [hpreC]
        simp [List.append_assoc]
      · intro p hp
        rw [List.flatten_append, List.mem_append] at hp
        rcases hp with hp | hp
        · exact hA p hp
        · exact hpreCk p hp

/-- The inner loop of `rangeQuery` on a sorted leaf equals a filter, and
its early-stop flag reports whether a key above `endKey` was seen. -/
theorem rangeScanLeaf_eq (lo hi : K) :
    ∀ es : List (K × V), List.Chain' (· < ·) (es.map Prod.fst) →
      (rangeScanLeaf lo hi es).1 =
        es.filter (fun p => decide (lo ≤ p.1) && decide (p.1 ≤ hi)) ∧
      ((rangeScanLeaf lo hi es).2 = true ↔ ∃ p ∈ es, hi < p.1) := by
  intro es
  induction es with
  | nil =>
    intro _
    exact ⟨rfl, by simp [rangeScanLeaf]⟩
  | cons q rest ih =>
    obtain ⟨k, v⟩ := q
    intro hs
    have hs' : List.Chain' (· < ·) (rest.map Prod.fst) := by
      simp only [List.map_cons] at hs
      exact hs.tail
    have hrest := ih hs'
    have hp := List.chain'_iff_pairwise.mp hs
    simp only [List.map_cons, List.pairwise_cons] at hp
    rw [rangeScanLeaf]
    split_ifs with h1 h2
    · refine ⟨?_, ?_⟩
      · simp only [List.filter_cons]
        rw [if_pos (by simp [h1.1, h1.2])]
        rw [← hrest.1]
      · rw [hrest.2]
        constructor
        · intro ⟨p, hpm, hpk⟩
          exact ⟨p, by simp [hpm], hpk⟩
        · intro ⟨p, hpm, hpk⟩
          rcases List.mem_cons.mp hpm with rfl | hpm
          · exact absurd h1.2 (not_le.mpr hpk)
          · exact ⟨p, hpm, hpk⟩
    · refine ⟨?_, ?_⟩
      · simp only [List.filter_cons]
        rw [if_neg (by
          simp only [Bool.and_eq_true, decide_eq_true_eq, not_and]
          intro _
          exact not_le.mpr h2)]
        rw [List.filter_eq_nil_iff.mpr]
        intro p hpm
        have hk : k < p.1 := hp.1 p.1 (List.mem_map_of_mem Prod.fst hpm)
        simp only [Bool.and_eq_true, decide_eq_true_eq, not_and]
        intro _
        exact not_le.mpr (lt_trans h2 hk)
      · simp only [true_iff]
        exact ⟨(k, v), by simp, h2⟩
    · have hk_le : k ≤ hi := not_lt.mp h2
      refine ⟨?_, ?_⟩
      · simp only [List.filter_cons]
        rw [if_neg (by simp; intro hlo; exact absurd ⟨hlo, hk_le⟩ h1)]
        exact hrest.1
      · rw [hrest.2]
        constructor
        · intro ⟨p, hpm, hpk⟩
          exact ⟨p, by simp [hpm], hpk⟩
        · intro ⟨p, hpm, hpk⟩
          rcases List.mem_cons.mp hpm with rfl | hpm
          · exact absurd hk_le (not_le.mpr hpk)
          · exact ⟨p, hpm, hpk⟩

/-- The outer loop of `rangeQuery` over a sorted leaf chain equals a
filter of the flattened contents. -/
theorem rangeScan_eq (lo hi : K) :
    ∀ ls : List (List (K × V)),
      List.Chain' (· < ·) (ls.flatten.map Prod.fst) →
      rangeScan lo hi ls =
        ls.flatten.filter (fun p => decide (lo ≤ p.1) && decide (p.1 ≤ hi)) := by
  intro ls
  induction ls with
  | nil => intro _ ; rfl
  | cons es rest ih =>
    intro hs
    have hsf : List.Chain' (· < ·) ((es ++ rest.flatten).map Prod.fst) := by
      simpa using hs
    have hpair := List.chain'_iff_pairwise.mp hsf
    rw [List.map_append, List.pairwise_append] at hpair
    have hses : List.Chain' (· < ·) (es.map Prod.fst) :=
      List.chain'_iff_pairwise.mpr hpair.1
    have hsrest : List.Chain' (· < ·) (rest.flatten.map Prod.fst) :=
      List.chain'_iff_pairwise.mpr hpair.2.1
    obtain ⟨hfil, hflag⟩ := rangeScanLeaf_eq lo hi es hses
    rw [rangeScan]
    split_ifs with h2
    · rw [hfil]
      have hstop : ∃ p ∈ es, hi < p.1 := hflag.mp h2
      obtain ⟨p0, hp0m, hp0k⟩ := hstop
      have hrest_nil : rest.flatten.filter
          (fun p => decide (lo ≤ p.1) && decide (p.1 ≤ hi)) = [] := by
        rw [List.filter_eq_nil_iff]
        intro p hpm
        have := hpair.2.2 p0.1 (List.mem_map_of_mem Prod.fst hp0m)
          p.1 (List.mem_map_of_mem Prod.fst hpm)
        simp only [Bool.and_eq_true, decide_eq_true_eq, not_and]
        intro _
        exact not_le.mpr (lt_trans hp0k this)
      rw [show (es :: rest).flatten = es ++ rest.flatten from rfl,
        List.filter_append, hrest_nil, List.append_nil]
    · rw [hfil, ih hsrest]
      rw [show (es :: rest).flatten = es ++ rest.flatten from rfl,
        List.filter_append]

end RangeDegenerate

section Iterators

variable [LinearOrder K] [Inhabited K] [Inhabited V]

theorem chainSeq_forall_mem {α : Type} {P : Option K → Option K → α → Prop} :
    ∀ {lo hi : Option K} {ks : List K} {cs : List α},
      chainSeq P lo hi ks cs → ∀ c ∈ cs, ∃ lo' hi', P lo' hi' c := by
  intro lo hi ks
  induction ks generalizing lo with
  | nil =>
    intro cs hcs c hc
    match cs with
    | [] => exact absurd hcs (chainSeq_not_nil_nil _ _)
    | [c0] =>
      obtain rfl : c = c0 := by simpa using hc
      exact ⟨lo, hi, hcs⟩
    | c0 :: c1 :: rest => exact absurd hcs (chainSeq_not_nil_cons2 _ _ _ _ _)
  | cons s ss ih =>
    intro cs hcs c hc
    match cs with
    | [] => exact absurd hcs (chainSeq_not_cons_nil _ _ _ _)
    | c0 :: cs' =>
      obtain ⟨h0, hrest⟩ := (chainSeq_cons_iff _ _ _ _ _ _).mp hcs
      rcases List.mem_cons.mp hc with rfl | hc
      · exact ⟨lo, some s, h0⟩
      · exact ih hrest c hc

/-- In a well-formed subtree every leaf holds at least one slot. -/
theorem WFN_leafLists_nonempty {mx mn : Nat} (hmn1 : 1 ≤ mn) :
    ∀ (h : Nat) {lb : Nat} {lo hi : Option K} {n : BNode K V},
      WFN mx mn lb h lo hi n → 1 ≤ lb →
      ∀ l ∈ n.leafLists, l ≠ [] := by
  intro h
  induction h with
  | zero =>
    intro lb lo hi n hw h1lb l hl
    match n with
    | .internal ks cs => exact hw.elim
    | .leaf es =>
      rw [BNode.leafLists_leaf] at hl
      obtain rfl : l = es := by simpa using hl
      intro hcon
      subst hcon
      have := hw.1
      simp at this
      omega
  | succ h ih =>
    intro lb lo hi n hw h1lb l hl
    match n with
    | .leaf es => exact hw.elim
    | .internal ks cs =>
      rw [BNode.leafLists_internal, foldr_append_eq_flatten] at hl
      rw [List.mem_flatten] at hl
      obtain ⟨ll, hll, hlmem⟩ := hl
      rw [List.mem_map] at hll
      obtain ⟨c, hcmem, rfl⟩ := hll
      obtain ⟨lo', hi', hc⟩ := chainSeq_forall_mem hw.2.2 c hcmem
      exact ih hc hmn1 l hlmem

/-- A well-formed subtree has at least one leaf. -/
theorem WFN_leafLists_len {mx mn : Nat} :
    ∀ (h : Nat) {lb : Nat} {lo hi : Option K} {n : BNode K V},
      WFN mx mn lb h lo hi n → 1 ≤ n.leafLists.length := by
  intro h
  induction h with
  | zero =>
    intro lb lo hi n hw
    match n with
    | .internal ks cs => exact hw.elim
    | .leaf es => rw [BNode.leafLists_leaf]; simp
  | succ h ih =>
    intro lb lo hi n hw
    match n with
    | .leaf es => exact hw.elim
    | .internal ks cs =>
      rw [BNode.leafLists_internal, foldr_append_eq_flatten]
      have hlen := chainSeq_length hw.2.2
      match cs, hw.2.2 with
      | [], hch => exact absurd hch chainSeq_not_any_nil
      | c :: cs', hch =>
        obtain ⟨lo', hi', hc⟩ := chainSeq_forall_mem hch c (by simp)
        have := ih hc
        simp only [List.map_cons, List.flatten_cons, List.length_append]
        omega

theorem getLastD_eq_getD {α : Type} (l : List α) (d : α) (hl : l ≠ []) :
    l.getLastD d = l.getD (l.length - 1) d := by
  rcases eq_nil_or_snoc l with rfl | ⟨init, b, rfl⟩
  · exact absurd rfl hl
  · rw [List.getLastD_concat]
    have hlen : (init ++ [b]).length - 1 = init.length := by simp
    rw [hlen, List.getD_eq_getElem _ _ (by simp)]
    simp

/-- The forward iterator loop: from a valid position it yields the rest
of the current leaf and then all later leaves, given exactly enough fuel
(one unit per remaining element). -/
theorem fwdCollect_eq (ls : List (List (K × V)))
    (hne : ∀ l ∈ ls, l ≠ []) :
    ∀ (N li si : Nat), li < ls.length → si < (ls.getD li []).length →
      N = ((ls.getD li []).length - si) + ((ls.drop (li + 1)).flatten).length →
      fwdCollect ls N (li, si) =
        (ls.getD li []).drop si ++ ((ls.drop (li + 1)).flatten) := by
  intro N
  induction N using Nat.strong_induction_on with
  | _ N ihN =>
    intro li si hli hsi hN
    have hN1 : 1 ≤ N := by omega
    obtain ⟨N', rfl⟩ : ∃ N', N = N' + 1 := ⟨N - 1, by omega⟩
    rw [fwdCollect]
    have hnotend : isEndPos ls (li, si) = false := by
      unfold isEndPos
      simp only [decide_eq_false_iff_not, not_and]
      intro hli_last
      rw [getLastD_eq_getD ls [] (by intro hcon; subst hcon; simp at hli),
        ← hli_last]
      omega
    rw [hnotend]
    simp only [Bool.false_eq_true, if_false]
    unfold fwdStep
    dsimp only
    by_cases hstep : si + 1 ≥ (ls.getD li []).length
    · have hsi1 : si + 1 = (ls.getD li []).length := by omega
      rw [if_pos hstep]
      by_cases hlast : li + 1 < ls.length
      · rw [if_pos hlast]
        have hnext_ne : ls.getD (li + 1) [] ≠ [] :=
          hne _ (getD_mem ls (li + 1) hlast)
        have hdrop : ls.drop (li + 1) =
            ls.getD (li + 1) [] :: ls.drop (li + 2) :=
          drop_eq_getD_cons ls (li + 1) hlast
        have hrec := ihN N' (by omega) (li + 1) 0 hlast
          (List.length_pos.mpr hnext_ne)
          (by
            rw [hdrop] at hN
            simp only [List.flatten_cons, List.length_append] at hN
            rw [show li + 1 + 1 = li + 2 from by omega]
            omega)
        rw [hrec]
        have hcur : (ls.getD li []).drop si = [(ls.getD li []).getD si default] := by
          rw [drop_eq_getD_cons _ _ hsi, hsi1]
          simp
        rw [hcur, hdrop]
        simp
      · rw [if_neg hlast]
        have hdropnil : ls.drop (li + 1) = [] := by
          rw [List.drop_eq_nil_iff]
          omega
        have hend : isEndPos ls (li, si + 1) = true := by
          unfold isEndPos
          simp only [decide_eq_true_eq]
          constructor
          · omega
          · rw [getLastD_eq_getD ls [] (by intro hcon; subst hcon; simp at hli)]
            rw [show ls.length - 1 = li from by omega]
            omega
        have hN'0 : N' = 0 := by
          rw [hdropnil] at hN
          simp only [List.flatten_nil, List.length_nil, Nat.add_zero] at hN
          omega
        subst hN'0
        rw [fwdCollect]
        have hcur : (ls.getD li []).drop si = [(ls.getD li []).getD si default] := by
          rw [drop_eq_getD_cons _ _ hsi, hsi1]
          simp
        rw [hcur, hdropnil]
        simp
    · rw [if_neg hstep]
      have hrec := ihN N' (by omega) li (si + 1) hli (by omega) (by omega)
      rw [hrec]
      rw [drop_eq_getD_cons (ls.getD li []) si hsi]
      simp

theorem take_succ_getD {α : Type} [Inhabited α] (l : List α) (i : Nat)
    (hi : i < l.length) :
    l.take (i + 1) = l.take i ++ [l.getD i default] := by
  induction l generalizing i with
  | nil => simp at hi
  | cons x xs ih =>
    cases i with
    | zero => simp
    | succ i0 =>
      simp only [List.take_succ_cons, List.getD_cons_succ, List.cons_append,
        List.cons.injEq, true_and]
      exact ih i0 (by simpa using hi)

/-- The reverse iterator loop: from a valid position it yields, in
reverse, everything up to and including that position. -/
theorem revCollect_eq (ls : List (List (K × V)))
    (hne : ∀ l ∈ ls, l ≠ []) :
    ∀ (N li si : Nat), li < ls.length → si < (ls.getD li []).length →
      N = ((ls.take li).flatten).length + (si + 1) →
      revCollect ls N (some (li, si)) =
        (((ls.take li).flatten) ++ (ls.getD li []).take (si + 1)).reverse := by
  intro N
  induction N using Nat.strong_induction_on with
  | _ N ihN =>
    intro li si hli hsi hN
    obtain ⟨N', rfl⟩ : ∃ N', N = N' + 1 := ⟨N - 1, by omega⟩
    rw [revCollect]
    unfold revStep
    dsimp only
    by_cases hsi0 : si > 0
    · rw [if_pos hsi0]
      have hrec := ihN N' (by omega) li (si - 1) hli (by omega) (by omega)
      rw [show si - 1 + 1 = si from by omega] at hrec
      rw [hrec]
      rw [take_succ_getD (ls.getD li []) si hsi]
      simp
    · rw [if_neg hsi0]
      have hsieq : si = 0 := by omega
      subst hsieq
      by_cases hli0 : li > 0
      · rw [if_pos hli0]
        have hprev_lt : li - 1 < ls.length := by omega
        have hprev_ne : ls.getD (li - 1) [] ≠ [] :=
          hne _ (getD_mem ls (li - 1) hprev_lt)
        have hprev_len : 0 < (ls.getD (li - 1) []).length :=
          List.length_pos.mpr hprev_ne
        rw [if_pos hprev_len]
        have htake : ls.take li =
            ls.take (li - 1) ++ [ls.getD (li - 1) []] := by
          rw [show li = li - 1 + 1 from by omega]
          exact take_succ_getD ls (li - 1) hprev_lt
        have hrec := ihN N' (by omega) (li - 1)
          ((ls.getD (li - 1) []).length - 1) hprev_lt (by omega)
          (by
            rw [htake] at hN
            simp only [List.flatten_append, List.length_append,
              List.flatten_cons, List.flatten_nil, List.append_nil] at hN
            omega)
        rw [show (ls.getD (li - 1) []).length - 1 + 1 =
          (ls.getD (li - 1) []).length from by omega] at hrec
        rw [List.take_length] at hrec
        rw [hrec, htake]
        rw [take_succ_getD (ls.getD li []) 0 (by omega), List.take_zero,
          List.nil_append]
        simp
      · rw [if_neg hli0]
        have hlieq : li = 0 := by omega
        subst hlieq
        have hnone : revCollect ls N' none = [] := by
          cases N' <;> rfl
        rw [hnone]
        rw [take_succ_getD (ls.getD 0 []) 0 (by omega)]
        simp

/-- Forward iteration from `begin()` to `end()` yields exactly the
stored pairs in leaf order. -/
theorem forwardTraversal_eq (t : BPlusTree K V) (hWF : t.WF) :
    t.forwardTraversal = t.toList := by
  unfold BPlusTree.forwardTraversal BPlusTree.toList
  match hr : t.root with
  | none => rfl
  | some r =>
    have hroot : ∃ hh, WFN t.maxKeys t.minKeys 1 hh none none r := by
      have := hWF.2
      rw [hr] at this
      exact this
    obtain ⟨h, hWFr⟩ := hroot
    have hmn1 : 1 ≤ t.minKeys := order_clamped_minKeys t hWF.1
    have hne := WFN_leafLists_nonempty hmn1 h hWFr (le_refl 1)
    have hlen : 1 ≤ r.leafLists.length := WFN_leafLists_len h hWFr
    have h0lt : 0 < r.leafLists.length := hlen
    have h0ne : r.leafLists.getD 0 [] ≠ [] := hne _ (getD_mem _ 0 h0lt)
    have hdecomp : r.leafLists = r.leafLists.getD 0 [] :: r.leafLists.drop 1 := by
      have hd := drop_eq_getD_cons r.leafLists 0 h0lt
      simpa using hd
    have hN : r.leafLists.flatten.length =
        ((r.leafLists.getD 0 []).length - 0) +
          ((r.leafLists.drop 1).flatten).length := by
      conv_lhs => rw [hdecomp]
      simp
    dsimp only
    rw [fwdCollect_eq r.leafLists hne _ 0 0 h0lt (List.length_pos.mpr h0ne) hN]
    rw [BNode.toList_eq_leafLists_flatten]
    conv_rhs => rw [hdecomp]
    simp

/-- Reverse iteration from `rbegin()` to `rend()` yields exactly the
stored pairs in reversed leaf order. -/
theorem reverseTraversal_eq (t : BPlusTree K V) (hWF : t.WF) :
    t.reverseTraversal = t.toList.reverse := by
  unfold BPlusTree.reverseTraversal BPlusTree.toList
  match hr : t.root with
  | none => rfl
  | some r =>
    have hroot : ∃ hh, WFN t.maxKeys t.minKeys 1 hh none none r := by
      have := hWF.2
      rw [hr] at this
      exact this
    obtain ⟨h, hWFr⟩ := hroot
    have hmn1 : 1 ≤ t.minKeys := order_clamped_minKeys t hWF.1
    have hne := WFN_leafLists_nonempty hmn1 h hWFr (le_refl 1)
    have hlen : 1 ≤ r.leafLists.length := WFN_leafLists_len h hWFr
    have hlast_lt : r.leafLists.length - 1 < r.leafLists.length := by omega
    have hlast_eq : r.leafLists.getLastD [] =
        r.leafLists.getD (r.leafLists.length - 1) [] :=
      getLastD_eq_getD r.leafLists []
        (by intro hcon; rw [hcon] at hlen; simp at hlen)
    have hlast_ne : r.leafLists.getD (r.leafLists.length - 1) [] ≠ [] :=
      hne _ (getD_mem _ _ hlast_lt)
    have hlast_pos : 0 < (r.leafLists.getD (r.leafLists.length - 1) []).length :=
      List.length_pos.mpr hlast_ne
    have hdecomp : r.leafLists = r.leafLists.take (r.leafLists.length - 1) ++
        [r.leafLists.getD (r.leafLists.length - 1) []] := by
      have h1 := take_succ_getD r.leafLists (r.leafLists.length - 1) hlast_lt
      rw [show r.leafLists.length - 1 + 1 = r.leafLists.length from by omega]
        at h1
      rw [List.take_length] at h1
      exact h1
    have hN : r.leafLists.flatten.length =
        ((r.leafLists.take (r.leafLists.length - 1)).flatten).length +
          (((r.leafLists.getD (r.leafLists.length - 1) []).length - 1) + 1) := by
      conv_lhs => rw [hdecomp]
      simp only [List.flatten_append, List.length_append, List.flatten_cons,
        List.flatten_nil, List.append_nil]
      omega
    dsimp only
    rw [hlast_eq, if_pos hlast_pos]
    rw [revCollect_eq r.leafLists hne _ (r.leafLists.length - 1)
      ((r.leafLists.getD (r.leafLists.length - 1) []).length - 1)
      hlast_lt (by omega) hN]
    rw [show (r.leafLists.getD (r.leafLists.length - 1) []).length - 1 + 1 =
      (r.leafLists.getD (r.leafLists.length - 1) []).length from by omega]
    rw [List.take_length]
    rw [BNode.toList_eq_leafLists_flatten]
    conv_rhs => rw [hdecomp]
    simp

end Iterators

section SizeSupport

variable [LinearOrder K] [Inhabited K] [Inhabited V]

theorem BPlusTree.size_eq_toList_length (t : BPlusTree K V) :
    t.size = t.toList.length := by
  unfold BPlusTree.size BPlusTree.toList
  match t.root with
  | none => rfl
  | some r =>
    dsimp only
    rw [BNode.toList_eq_leafLists_flatten, List.length_flatten]

theorem listInsert_mem_keys (key k : K) (v : V) (l : List (K × V)) :
    k ∈ (listInsert key v l).map Prod.fst ↔ k = key ∨ k ∈ l.map Prod.fst := by
  induction l with
  | nil => simp [listInsert]
  | cons q rest ih =>
    obtain ⟨k0, w⟩ := q
    rw [listInsert]
    split_ifs with h1 h2
    · simp
    · subst h2
      simp
    · simp only [List.map_cons, List.mem_cons]
      rw [ih]
      tauto

theorem eraseKey_mem_keys (key k : K) (l : List (K × V))
    (hs : List.Chain' (· < ·) (l.map Prod.fst)) :
    k ∈ (eraseKey key l).map Prod.fst ↔
      k ∈ l.map Prod.fst ∧ k ≠ key := by
  induction l with
  | nil => simp [eraseKey]
  | cons q rest ih =>
    obtain ⟨k0, w⟩ := q
    have hp := List.chain'_iff_pairwise.mp hs
    simp only [List.map_cons, List.pairwise_cons] at hp
    have hs' : List.Chain' (· < ·) (rest.map Prod.fst) :=
      List.chain'_iff_pairwise.mpr hp.2
    rw [eraseKey]
    split_ifs with h0
    · subst h0
      simp only [List.map_cons, List.mem_cons]
      constructor
      · intro hmem
        have hgt := hp.1 k (by simpa using hmem)
        exact ⟨Or.inr (by simpa using hmem), ne_of_gt hgt⟩
      · intro ⟨hmem, hne⟩
        rcases hmem with rfl | hmem
        · exact absurd rfl hne
        · exact hmem
    · simp only [List.map_cons, List.mem_cons]
      rw [ih hs']
      by_cases hk : k = k0
      · subst hk
        constructor
        · intro _
          exact ⟨Or.inl rfl, h0⟩
        · intro _
          exact Or.inl rfl
      · constructor
        · intro hmem
          rcases hmem with rfl | ⟨hm, hne⟩
          · exact absurd rfl hk
          · exact ⟨Or.inr hm, hne⟩
        · intro ⟨hmem, hne⟩
          rcases hmem with rfl | hm
          · exact absurd rfl hk
          · exact Or.inr ⟨hm, hne⟩

theorem model_fold_sorted (ops : List (Op K V)) :
    ∀ l : List (K × V), List.Chain' (· < ·) (l.map Prod.fst) →
      List.Chain' (· < ·)
        ((ops.foldl (fun l op =>
          match op with
          | .ins k v => listInsert k v l
          | .del k => eraseKey k l) l).map Prod.fst) := by
  induction ops with
  | nil => intro l hl ; exact hl
  | cons op rest ih =>
    intro l hl
    rw [List.foldl_cons]
    cases op with
    | ins k v => exact ih _ (listInsert_sorted k v l hl)
    | del k => exact ih _ (eraseKey_sorted k l hl)

theorem model_fold_mem (k : K) (ops : List (Op K V)) :
    ∀ (l : List (K × V)) (b : Bool),
      List.Chain' (· < ·) (l.map Prod.fst) →
      (b = true ↔ k ∈ l.map Prod.fst) →
      ((ops.foldl (fun b op =>
          match op with
          | .ins k2 _ => if k2 = k then true else b
          | .del k2 => if k2 = k then false else b) b) = true ↔
        k ∈ ((ops.foldl (fun l op =>
          match op with
          | .ins k2 v => listInsert k2 v l
          | .del k2 => eraseKey k2 l) l).map Prod.fst)) := by
  induction ops with
  | nil => intro l b _ hb ; exact hb
  | cons op rest ih =>
    intro l b hl hb
    rw [List.foldl_cons, List.foldl_cons]
    cases op with
    | ins k2 v =>
      refine ih _ _ (listInsert_sorted k2 v l hl) ?_
      dsimp only
      rw [listInsert_mem_keys]
      split_ifs with hk
      · subst hk
        simp
      · simp only [show ¬ k = k2 from fun hc => hk hc.symm, false_or]
        exact hb
    | del k2 =>
      refine ih _ _ (eraseKey_sorted k2 l hl) ?_
      dsimp only
      rw [eraseKey_mem_keys k2 k l hl]
      split_ifs with hk
      · subst hk
        simp
      · rw [hb]
        exact ⟨fun hm => ⟨hm, fun hc => hk hc.symm⟩, fun hm => hm.1⟩

end SizeSupport

section BulkSupport

variable [LinearOrder K] [Inhabited K] [Inhabited V]

/-- Specification-side coalescing: each run of equal adjacent keys keeps
only its last pair. -/
def coalesce : List (K × V) → List (K × V)
  | [] => []
  | [p] => [p]
  | p :: q :: rest =>
    if p.1 = q.1 then coalesce (q :: rest) else p :: coalesce (q :: rest)

theorem bulkBufferStep_snoc (init : List (K × V)) (q p : K × V) :
    bulkBufferStep (init ++ [q]) p =
      if q.1 = p.1 then init ++ [(q.1, p.2)] else (init ++ [q]) ++ [p] := by
  unfold bulkBufferStep
  rw [List.getLast?_concat]
  dsimp only
  split_ifs with h
  · rw [List.dropLast_concat]
  · rfl

theorem bulkBuffer_go (data : List (K × V)) :
    ∀ (init : List (K × V)) (q : K × V),
      data.foldl bulkBufferStep (init ++ [q]) = init ++ coalesce (q :: data) := by
  induction data with
  | nil =>
    intro init q
    rfl
  | cons p rest ih =>
    intro init q
    rw [List.foldl_cons, bulkBufferStep_snoc]
    split_ifs with h
    · rw [ih init (q.1, p.2)]
      rw [show coalesce (q :: p :: rest) = coalesce (p :: rest) from by
        rw [coalesce, if_pos h]]
      rw [show ((q.1, p.2) : K × V) = p from by rw [h]]
    · rw [ih (init ++ [q]) p]
      rw [show coalesce (q :: p :: rest) = q :: coalesce (p :: rest) from by
        rw [coalesce, if_neg h]]
      simp

/-- The buffer loop of `bulkLoad` computes exactly the spec-side
coalescing of adjacent duplicate keys to the last value. -/
theorem bulkBuffer_eq_coalesce (data : List (K × V)) :
    bulkBuffer data = coalesce data := by
  match data with
  | [] => rfl
  | p :: rest =>
    unfold bulkBuffer
    rw [List.foldl_cons]
    rw [show bulkBufferStep [] p = [] ++ [p] from rfl]
    rw [bulkBuffer_go rest [] p]
    rfl

theorem coalesce_keys_subset (l : List (K × V)) :
    ∀ p ∈ coalesce l, p.1 ∈ l.map Prod.fst := by
  induction l with
  | nil => simp [coalesce]
  | cons p rest ih =>
    match rest with
    | [] =>
      intro q hq
      rw [coalesce] at hq
      obtain rfl : q = p := by simpa using hq
      simp
    | r :: rest2 =>
      intro q hq
      rw [coalesce] at hq
      split_ifs at hq with h
      · exact List.mem_cons_of_mem _ (ih q hq)
      · rcases List.mem_cons.mp hq with rfl | hq2
        · simp
        · exact List.mem_cons_of_mem _ (ih q hq2)

theorem coalesce_sorted (l : List (K × V))
    (hs : List.Chain' (· ≤ ·) (l.map Prod.fst)) :
    List.Chain' (· < ·) ((coalesce l).map Prod.fst) := by
  induction l with
  | nil => simp [coalesce]
  | cons p rest ih =>
    match rest with
    | [] => simp [coalesce]
    | r :: rest2 =>
      simp only [List.map_cons, List.chain'_cons] at hs
      have ih2 := ih (by simpa using hs.2)
      rw [coalesce]
      split_ifs with h
      · exact ih2
      · have hplt : p.1 < r.1 := lt_of_le_of_ne hs.1 h
        have hp2 := List.chain'_iff_pairwise.mp hs.2
        have hrle := (List.pairwise_cons.mp hp2).1
        match hcl : coalesce (r :: rest2) with
        | [] => simp
        | c0 :: crest =>
          rw [hcl] at ih2
          rw [List.map_cons, List.map_cons, List.chain'_cons]
          refine ⟨?_, by simpa using ih2⟩
          have hc0mem : c0 ∈ coalesce (r :: rest2) := by
            rw [hcl]
            simp
          have hc0k := coalesce_keys_subset (r :: rest2) c0 hc0mem
          simp only [List.map_cons, List.mem_cons] at hc0k
          rcases hc0k with heq | hmem
          · rw [heq]
            exact hplt
          · exact lt_of_lt_of_le hplt (hrle c0.1 hmem)

theorem flatten_chunks {α : Type} (cap : Nat) :
    ∀ (k : Nat) (l : List α), l.length ≤ k * cap →
      (chunks cap k l).flatten = l := by
  intro k
  induction k with
  | zero =>
    intro l hl
    simp only [Nat.zero_mul, Nat.le_zero, List.length_eq_zero] at hl
    subst hl
    rfl
  | succ k ih =>
    intro l hl
    rw [chunks]
    simp only [List.flatten_cons]
    have hd := Nat.div_add_mod (l.length + k) (k + 1)
    have hm := Nat.mod_lt (l.length + k) (show 0 < k + 1 from by omega)
    have hsucc : (k + 1) * ((l.length + k) / (k + 1)) =
        k * ((l.length + k) / (k + 1)) + (l.length + k) / (k + 1) := by ring
    have hcap2 : (k + 1) * cap = k * cap + cap := by ring
    rw [ih (l.drop (min ((l.length + k) / (k + 1)) cap))]
    · exact List.take_append_drop _ l
    · rw [List.length_drop]
      rcases le_total ((l.length + k) / (k + 1)) cap with hmin | hmin
      · rw [min_eq_left hmin]
        have hmono : k * ((l.length + k) / (k + 1)) ≤ k * cap :=
          Nat.mul_le_mul_left k hmin
        omega
      · rw [min_eq_right hmin]
        omega

theorem chunks_bounds {α : Type} (cap low : Nat) (hlow1 : 1 ≤ low)
    (hlowcap : low ≤ cap) :
    ∀ (k : Nat) (l : List α), low * k ≤ l.length → l.length ≤ k * cap →
      ∀ c ∈ chunks cap k l, low ≤ c.length ∧ c.length ≤ cap := by
  intro k
  induction k with
  | zero =>
    intro l _ _ c hc
    simp [chunks] at hc
  | succ k ih =>
    intro l hge hle c hc
    have hd := Nat.div_add_mod (l.length + k) (k + 1)
    have hm := Nat.mod_lt (l.length + k) (show 0 < k + 1 from by omega)
    have hsucc : (k + 1) * ((l.length + k) / (k + 1)) =
        k * ((l.length + k) / (k + 1)) + (l.length + k) / (k + 1) := by ring
    have hlowsucc : low * (k + 1) = low * k + low := by ring
    have hcapsucc : (k + 1) * cap = k * cap + cap := by ring
    have hlowk : low * k = k * low := by ring
    -- the quotient is at least `low` and at most the remaining length
    have hdlow : low ≤ (l.length + k) / (k + 1) := by
      rw [Nat.le_div_iff_mul_le (show 0 < k + 1 from by omega)]
      have : low * (k + 1) ≤ l.length := hge.trans (le_refl _) |>.trans
        (le_refl _) |>.trans (le_refl _)
      omega
    have hdlen : (l.length + k) / (k + 1) ≤ l.length := by
      rcases le_or_lt ((l.length + k) / (k + 1)) l.length with h1 | h1
      · exact h1
      · exfalso
        have hmono : k * (l.length + 1) ≤ k * ((l.length + k) / (k + 1)) :=
          Nat.mul_le_mul_left k h1
        have hexp : k * (l.length + 1) = k * l.length + k := by ring
        have hpos : 0 ≤ k * l.length := Nat.zero_le _
        omega
    rw [chunks] at hc
    rcases List.mem_cons.mp hc with rfl | hc
    · rw [List.length_take]
      rcases le_total ((l.length + k) / (k + 1)) cap with hmin | hmin
      · rw [min_eq_left hmin, min_eq_left hdlen]
        omega
      · rw [min_eq_right hmin, min_eq_left (le_trans hmin hdlen)]
        omega
    · refine ih (l.drop (min ((l.length + k) / (k + 1)) cap)) ?_ ?_ c hc
      · rw [List.length_drop]
        rcases le_total ((l.length + k) / (k + 1)) cap with hmin | hmin
        · rw [min_eq_left hmin]
          have hsplit : (l.length + k) / (k + 1) ≤ low ∨
              low * k + k ≤ k * ((l.length + k) / (k + 1)) := by
            rcases le_or_lt ((l.length + k) / (k + 1)) low with h1 | h1
            · exact Or.inl h1
            · right
              have hmono : k * (low + 1) ≤ k * ((l.length + k) / (k + 1)) :=
                Nat.mul_le_mul_left k h1
              have hexp : k * (low + 1) = k * low + k := by ring
              omega
          omega
        · rw [min_eq_right hmin]
          have hsplit : cap ≤ low ∨ low * k + k ≤ k * cap := by
            rcases le_or_lt cap low with h1 | h1
            · exact Or.inl h1
            · right
              have hmono : k * (low + 1) ≤ k * cap :=
                Nat.mul_le_mul_left k h1
              have hexp : k * (low + 1) = k * low + k := by ring
              omega
          have hkd2 : k * cap ≤ k * ((l.length + k) / (k + 1)) :=
            Nat.mul_le_mul_left k hmin
          omega
      · rw [List.length_drop]
        rcases le_total ((l.length + k) / (k + 1)) cap with hmin | hmin
        · rw [min_eq_left hmin]
          have hmono : k * ((l.length + k) / (k + 1)) ≤ k * cap :=
            Nat.mul_le_mul_left k hmin
          omega
        · rw [min_eq_right hmin]
          omega

/-- The two-step node-count policy: the count is at least one, provides
enough capacity, and — except for a single final node — guarantees the
minimum occupancy. -/
theorem computeNodeCount_spec (cap low n : Nat) (hlow1 : 1 ≤ low)
    (hlowcap : low ≤ cap) (h2low : 2 * low ≤ cap + 1) (hn : 1 ≤ n) :
    1 ≤ computeNodeCount cap low n ∧
    n ≤ computeNodeCount cap low n * cap ∧
    (computeNodeCount cap low n = 1 ∨
      computeNodeCount cap low n * low ≤ n) := by
  have hcap1 : 1 ≤ cap := le_trans hlow1 hlowcap
  have hdc := Nat.div_add_mod (n + cap - 1) cap
  have hmc := Nat.mod_lt (n + cap - 1) (show 0 < cap from hcap1)
  have hdl := Nat.div_add_mod n low
  have hml := Nat.mod_lt n (show 0 < low from hlow1)
  set cnt := (n + cap - 1) / cap with hcnt
  set maxP := n / low with hmaxP
  have hcnt1 : 1 ≤ cnt := by
    rw [hcnt, Nat.le_div_iff_mul_le (show 0 < cap from hcap1)]
    omega
  have hcntcap : n ≤ cnt * cap := by
    have hcomm : cap * cnt = cnt * cap := by ring
    omega
  have hval : computeNodeCount cap low n =
      if cnt > (if maxP = 0 then 1 else maxP)
      then (if maxP = 0 then 1 else maxP) else cnt := rfl
  rw [hval]
  by_cases hmp0 : maxP = 0
  · rw [if_pos hmp0]
    have hnlow : n < low := by
      by_contra hcon
      push_neg at hcon
      have h1 : 1 ≤ maxP := by
        rw [hmaxP, Nat.le_div_iff_mul_le (show 0 < low from hlow1)]
        omega
      omega
    have hcnt_le : cnt < 2 := by
      rw [hcnt, Nat.div_lt_iff_lt_mul (show 0 < cap from hcap1)]
      omega
    have hcnteq : cnt = 1 := by omega
    rw [hcnteq, if_neg (by omega : ¬ (1 : Nat) > 1)]
    refine ⟨le_refl 1, ?_, Or.inl rfl⟩
    rw [hcnteq] at hcntcap
    exact hcntcap
  · rw [if_neg hmp0]
    have hmp1 : 1 ≤ maxP := Nat.one_le_iff_ne_zero.mpr hmp0
    have hmplow : maxP * low ≤ n := by
      have hcomm : low * maxP = maxP * low := by ring
      omega
    split_ifs with hgt
    · -- reduced to maxP
      refine ⟨hmp1, ?_, Or.inr hmplow⟩
      -- n ≤ maxP * cap
      obtain ⟨mp', hmp'⟩ : ∃ mp', maxP = mp' + 1 := ⟨maxP - 1, by omega⟩
      have hmul1 : (2 * low - 1) * maxP ≤ cap * maxP :=
        Nat.mul_le_mul_right maxP (by omega)
      have hexp1 : (2 * low - 1) * maxP = 2 * (low * maxP) - maxP := by
        rw [Nat.sub_mul, one_mul]
        congr 1
        ring
      have hexp2 : low * maxP = low * mp' + low := by rw [hmp'] ; ring
      have hexp3 : mp' ≤ low * mp' := Nat.le_mul_of_pos_left mp' (by omega)
      have hcomm : cap * maxP = maxP * cap := by ring
      omega
    · refine ⟨hcnt1, hcntcap, Or.inr ?_⟩
      push_neg at hgt
      have hmono : cnt * low ≤ maxP * low := Nat.mul_le_mul_right low hgt
      omega

/-- The leaf-count policy of `bulkLoad`: a single (possibly small) leaf
when everything fits, otherwise at least two leaves with guaranteed
minimum occupancy and sufficient capacity. -/
theorem computeNumLeaves_spec (mx mn n : Nat) (hmn1 : 1 ≤ mn)
    (h2mn : 2 * mn ≤ mx) (hn : 1 ≤ n) :
    1 ≤ computeNumLeaves mx mn n ∧
    n ≤ computeNumLeaves mx mn n * mx ∧
    ((computeNumLeaves mx mn n = 1 ∧ n ≤ mx) ∨
      (2 ≤ computeNumLeaves mx mn n ∧ computeNumLeaves mx mn n * mn ≤ n)) := by
  have hmx1 : 1 ≤ mx := by omega
  have hdc := Nat.div_add_mod (n + mx - 1) mx
  have hmc := Nat.mod_lt (n + mx - 1) (show 0 < mx from hmx1)
  have hdl := Nat.div_add_mod n mn
  have hml := Nat.mod_lt n (show 0 < mn from hmn1)
  set cnt := (n + mx - 1) / mx with hcnt
  set maxP := n / mn with hmaxP
  have hval : computeNumLeaves mx mn n =
      if n ≤ mx then 1
      else if cnt > maxP ∧ maxP > 0 then maxP else cnt := rfl
  rw [hval]
  split_ifs with hfit hgt
  · exact ⟨le_refl 1, by omega, Or.inl ⟨rfl, hfit⟩⟩
  · push_neg at hfit
    have hmp2 : 2 ≤ maxP := by
      rw [hmaxP, Nat.le_div_iff_mul_le (show 0 < mn from hmn1)]
      omega
    have hmplow : maxP * mn ≤ n := by
      have hcomm : mn * maxP = maxP * mn := by ring
      omega
    refine ⟨by omega, ?_, Or.inr ⟨hmp2, hmplow⟩⟩
    obtain ⟨mp', hmp'⟩ : ∃ mp', maxP = mp' + 1 := ⟨maxP - 1, by omega⟩
    have hmul1 : (2 * mn - 1) * maxP ≤ mx * maxP :=
      Nat.mul_le_mul_right maxP (by omega)
    have hexp1 : (2 * mn - 1) * maxP = 2 * (mn * maxP) - maxP := by
      rw [Nat.sub_mul, one_mul]
      congr 1
      ring
    have hexp2 : mn * maxP = mn * mp' + mn := by rw [hmp'] ; ring
    have hexp3 : mp' ≤ mn * mp' := Nat.le_mul_of_pos_left mp' (by omega)
    have hcomm : mx * maxP = maxP * mx := by ring
    omega
  · push_neg at hfit
    have hcnt2 : 2 ≤ cnt := by
      rw [hcnt, Nat.le_div_iff_mul_le (show 0 < mx from hmx1)]
      omega
    have hcntcap : n ≤ cnt * mx := by
      have hcomm : mx * cnt = cnt * mx := by ring
      omega
    have hmplow : maxP * mn ≤ n := by
      have hcomm : mn * maxP = maxP * mn := by ring
      omega
    refine ⟨by omega, hcntcap, Or.inr ⟨hcnt2, ?_⟩⟩
    have hor : cnt ≤ maxP ∨ maxP = 0 := by
      by_cases h1 : cnt > maxP
      · by_cases h2 : maxP > 0
        · exact absurd ⟨h1, h2⟩ hgt
        · exact Or.inr (Nat.eq_zero_of_not_pos h2)
      · exact Or.inl (le_of_not_lt h1)
    rcases hor with hor | hor
    · have hmono : cnt * mn ≤ maxP * mn := Nat.mul_le_mul_right mn hor
      omega
    · exfalso
      rw [hor, Nat.mul_zero, Nat.zero_add] at hdl
      omega

theorem flatten_map_flatten {α β : Type} (f : α → List β) (cls : List (List α)) :
    (cls.map (fun c => (c.map f).flatten)).flatten = (cls.flatten.map f).flatten := by
  induction cls with
  | nil => rfl
  | cons c cls ih =>
    simp only [List.map_cons, List.flatten_cons, List.map_append,
      List.flatten_append, ih]

theorem getLeftmostKey_mkInternal (x : BNode K V) (c' : List (BNode K V)) :
    getLeftmostKey (mkInternal (x :: c')) = getLeftmostKey x := rfl

theorem chainSeq_split_at {α : Type} {P : Option K → Option K → α → Prop} :
    ∀ (ks1 : List K) (cs1 : List α) {lo hi : Option K} {s : K} {ks2 : List K}
      {cs2 : List α},
      ks1.length + 1 = cs1.length →
      chainSeq P lo hi (ks1 ++ s :: ks2) (cs1 ++ cs2) →
      chainSeq P lo (some s) ks1 cs1 ∧ chainSeq P (some s) hi ks2 cs2 := by
  intro ks1
  induction ks1 with
  | nil =>
    intro cs1 lo hi s ks2 cs2 hlen hch
    match cs1 with
    | [] =>
      simp only [List.length_cons, List.length_nil] at hlen
      omega
    | [c] =>
      simp only [List.nil_append, List.cons_append] at hch
      exact ⟨hch.1, hch.2⟩
    | c :: c2 :: tl =>
      simp only [List.length_cons, List.length_nil] at hlen
      omega
  | cons s1 ss1 ih =>
    intro cs1 lo hi s ks2 cs2 hlen hch
    match cs1 with
    | [] =>
      simp only [List.length_cons, List.length_nil] at hlen
      omega
    | c :: cs1' =>
      simp only [List.cons_append] at hch
      obtain ⟨h1, h2⟩ := hch
      have hrest := ih cs1' (by simpa using hlen) h2
      exact ⟨⟨h1, hrest.1⟩, hrest.2⟩

/-- One round of step 5 of `bulkLoad`: grouping a well-chained level into
internal nodes (each within the children bounds) yields a well-chained
level one height up, with the separators being the leftmost keys. -/
theorem chunk_chain (mx mn : Nat) (h : Nat) :
    ∀ (cls : List (List (BNode K V))) (lo : Option K),
      cls ≠ [] →
      (∀ c ∈ cls, mn + 1 ≤ c.length ∧ c.length ≤ mx + 1) →
      chainSeq (WFN mx mn mn h) lo none
        ((cls.flatten.drop 1).map getLeftmostKey) cls.flatten →
      chainSeq (WFN mx mn mn (h + 1)) lo none
        (((cls.map mkInternal).drop 1).map getLeftmostKey)
        (cls.map mkInternal) := by
  intro cls
  induction cls with
  | nil => intro lo hne _ _; exact absurd rfl hne
  | cons c cls ih =>
    intro lo _ hbounds hch
    match cls with
    | [] =>
      simp only [List.flatten_cons, List.flatten_nil, List.append_nil] at hch
      have hcb := hbounds c (List.mem_cons_self c [])
      show WFN mx mn mn (h + 1) lo none (mkInternal c)
      refine ⟨?_, ?_, hch⟩
      · rw [List.length_map, List.length_drop]
        omega
      · rw [List.length_map, List.length_drop]
        omega
    | c2 :: rest =>
      have hcb := hbounds c (List.mem_cons_self c _)
      have hc2b := hbounds c2 (List.mem_cons.mpr (Or.inr (List.mem_cons_self c2 _)))
      match c, c2 with
      | x :: c', y :: c2' =>
        have hsplitarg :
            ((x :: c') ++ ((y :: c2') :: rest).flatten).drop 1 =
              c' ++ ((y :: c2') :: rest).flatten := by
          simp
        have hch2 : chainSeq (WFN mx mn mn h) lo none
            ((c'.map getLeftmostKey) ++ getLeftmostKey y ::
              ((((y :: c2') :: rest).flatten.drop 1).map getLeftmostKey))
            ((x :: c') ++ ((y :: c2') :: rest).flatten) := by
          have hflat : ((x :: c') :: (y :: c2') :: rest).flatten =
              (x :: c') ++ ((y :: c2') :: rest).flatten := by simp
          rw [hflat] at hch
          rw [hsplitarg] at hch
          have hseps : (c' ++ ((y :: c2') :: rest).flatten).map getLeftmostKey =
              (c'.map getLeftmostKey) ++ getLeftmostKey y ::
                ((((y :: c2') :: rest).flatten.drop 1).map getLeftmostKey) := by
            simp
          rw [hseps] at hch
          exact hch
        have hparts := chainSeq_split_at (c'.map getLeftmostKey) (x :: c')
          (by simp) hch2
        have hleft : WFN mx mn mn (h + 1) lo (some (getLeftmostKey y))
            (mkInternal (x :: c')) := by
          refine ⟨?_, ?_, ?_⟩
          · rw [List.length_map, List.length_drop]
            simp only [List.length_cons] at hcb ⊢
            omega
          · rw [List.length_map, List.length_drop]
            simp only [List.length_cons] at hcb ⊢
            omega
          · show chainSeq (WFN mx mn mn h) lo (some (getLeftmostKey y))
              (((x :: c').drop 1).map getLeftmostKey) (x :: c')
            simpa using hparts.1
        have hright := ih (some (getLeftmostKey y)) (by simp)
          (fun cc hcc => hbounds cc (List.mem_cons.mpr (Or.inr hcc)))
          hparts.2
        show chainSeq (WFN mx mn mn (h + 1)) lo none
          (getLeftmostKey (mkInternal (y :: c2')) ::
            ((((y :: c2') :: rest).map mkInternal).drop 1).map getLeftmostKey)
          (mkInternal (x :: c') :: ((y :: c2') :: rest).map mkInternal)
        rw [getLeftmostKey_mkInternal]
        exact ⟨hleft, hright⟩

/-- The leaf level of `bulkLoad`: splitting a strictly sorted buffer into
chunks within the key bounds yields a well-chained leaf level whose
separators are the first keys of the later chunks. -/
theorem leaf_chunk_chain (mx mn : Nat) :
    ∀ (cls : List (List (K × V))) (lo : Option K),
      cls ≠ [] →
      (∀ c ∈ cls, mn ≤ c.length ∧ c.length ≤ mx ∧ c ≠ []) →
      List.Chain' (· < ·) (cls.flatten.map Prod.fst) →
      (∀ p ∈ cls.flatten, okLo lo p.1) →
      chainSeq (WFN mx mn mn 0) lo none
        (((cls.map (@BNode.leaf K V)).drop 1).map getLeftmostKey)
        (cls.map BNode.leaf) := by
  intro cls
  induction cls with
  | nil => intro lo hne _ _ _; exact absurd rfl hne
  | cons c cls ih =>
    intro lo _ hbounds hsort hlo
    have hcb := hbounds c (List.mem_cons_self c _)
    match cls with
    | [] =>
      simp only [List.flatten_cons, List.flatten_nil, List.append_nil] at hsort hlo
      show WFN mx mn mn 0 lo none (.leaf c)
      exact ⟨hcb.1, hcb.2.1, hsort, fun p hp => ⟨hlo p hp, trivial⟩⟩
    | c2 :: rest =>
      have hc2b := hbounds c2 (List.mem_cons.mpr (Or.inr (List.mem_cons_self c2 _)))
      match c2, hc2b.2.2 with
      | q :: c2', _ =>
        have hflat : (c :: (q :: c2') :: rest).flatten =
            c ++ ((q :: c2') :: rest).flatten := by simp
        rw [hflat] at hsort hlo
        have hpw : List.Pairwise (· < ·)
            (c.map Prod.fst ++ (((q :: c2') :: rest).flatten).map Prod.fst) := by
          rw [← List.map_append]
          exact List.chain'_iff_pairwise.mp hsort
        rw [List.pairwise_append] at hpw
        obtain ⟨hpwc, hpwrest, hcross⟩ := hpw
        have hqmem : q.1 ∈ (((q :: c2') :: rest).flatten).map Prod.fst := by
          simp
        have hleft : WFN mx mn mn 0 lo (some q.1) (.leaf c) := by
          refine ⟨hcb.1, hcb.2.1, List.chain'_iff_pairwise.mpr hpwc, ?_⟩
          intro p hp
          exact ⟨hlo p (List.mem_append.mpr (Or.inl hp)),
            hcross p.1 (List.mem_map_of_mem Prod.fst hp) q.1 hqmem⟩
        have hflat2 : ((q :: c2') :: rest).flatten = q :: (c2' ++ rest.flatten) := by
          simp
        have hpwrest' : List.Chain' (· < ·)
            ((((q :: c2') :: rest).flatten).map Prod.fst) :=
          List.chain'_iff_pairwise.mpr hpwrest
        rw [hflat2, List.map_cons] at hpwrest
        obtain ⟨hqlt, _⟩ := List.pairwise_cons.mp hpwrest
        have hrestlo : ∀ p ∈ ((q :: c2') :: rest).flatten, okLo (some q.1) p.1 := by
          intro p hp
          rw [hflat2] at hp
          rcases List.mem_cons.mp hp with rfl | hp
          · exact le_refl _
          · exact le_of_lt (hqlt p.1 (List.mem_map_of_mem Prod.fst hp))
        have hrest := ih (some q.1) (by simp)
          (fun cc hcc => hbounds cc (List.mem_cons.mpr (Or.inr hcc)))
          hpwrest' hrestlo
        show chainSeq (WFN mx mn mn 0) lo none
          (getLeftmostKey (BNode.leaf (q :: c2') : BNode K V) ::
            ((((q :: c2') :: rest).map (@BNode.leaf K V)).drop 1).map
              getLeftmostKey)
          (BNode.leaf c :: ((q :: c2') :: rest).map BNode.leaf)
        exact ⟨hleft, hrest⟩

theorem coalesce_eq_self_of_strict (l : List (K × V))
    (h : List.Chain' (· < ·) (l.map Prod.fst)) : coalesce l = l := by
  induction l with
  | nil => rfl
  | cons p l ih =>
    match l with
    | [] => rfl
    | q :: rest =>
      simp only [List.map_cons, List.chain'_cons] at h
      show (if p.1 = q.1 then coalesce (q :: rest)
        else p :: coalesce (q :: rest)) = p :: q :: rest
      rw [if_neg (ne_of_lt h.1), ih (by simpa using h.2)]

theorem chunks_one {α : Type} (cap : Nat) (l : List α) (hl : l.length ≤ cap) :
    chunks cap 1 l = [l] := by
  show chunks cap (0 + 1) l = [l]
  simp only [chunks, Nat.add_zero, Nat.zero_add, Nat.div_one]
  rw [min_eq_left hl, List.take_length]

theorem buildUp_singleton (mx mn : Nat) (hmx : 1 ≤ mx) (hmn : 1 ≤ mn)
    (n : BNode K V) : buildUp mx mn hmx hmn [n] = n := by
  simp [buildUp]

/-- The bottom-up level loop of `bulkLoad`: from a well-chained level it
builds a well-formed root holding exactly the level's contents in
order. -/
theorem buildUp_spec (mx mn : Nat) (hmx : 1 ≤ mx) (hmn : 1 ≤ mn)
    (h2mn : 2 * mn ≤ mx) :
    ∀ (N : Nat) (ns : List (BNode K V)) (h : Nat), ns.length ≤ N →
      1 ≤ ns.length →
      chainSeq (WFN mx mn mn h) none none ((ns.drop 1).map getLeftmostKey) ns →
      ∃ hh, WFN mx mn 1 hh none none (buildUp mx mn hmx hmn ns) ∧
        (buildUp mx mn hmx hmn ns).toList = (ns.map BNode.toList).flatten := by
  intro N
  induction N with
  | zero =>
    intro ns h hle h1 _
    omega
  | succ N ih =>
    intro ns h hle h1 hch
    match ns with
    | [] => simp at h1
    | [n] =>
      rw [buildUp_singleton]
      exact ⟨h, WFN_mono_lb hmn hch, by simp⟩
    | n0 :: n1 :: rest =>
      have hspec := computeNodeCount_spec (mx + 1) (mn + 1)
        (n0 :: n1 :: rest).length (by omega) (by omega) (by omega)
        (by simp only [List.length_cons]; omega)
      obtain ⟨hnc1, hnccap, hncor⟩ := hspec
      have hflatten := flatten_chunks (mx + 1)
        (computeNodeCount (mx + 1) (mn + 1) (n0 :: n1 :: rest).length)
        (n0 :: n1 :: rest) hnccap
      have hstep : buildUp mx mn hmx hmn (n0 :: n1 :: rest) =
          buildUp mx mn hmx hmn
            ((chunks (mx + 1)
              (computeNodeCount (mx + 1) (mn + 1) (n0 :: n1 :: rest).length)
              (n0 :: n1 :: rest)).map mkInternal) := by
        simp only [buildUp]
      by_cases hnc1e :
          computeNodeCount (mx + 1) (mn + 1) (n0 :: n1 :: rest).length = 1
      · have hlencap : (n0 :: n1 :: rest).length ≤ mx + 1 := by
          rw [hnc1e, one_mul] at hnccap
          exact hnccap
        have hchunks1 : chunks (mx + 1)
            (computeNodeCount (mx + 1) (mn + 1) (n0 :: n1 :: rest).length)
            (n0 :: n1 :: rest) = [n0 :: n1 :: rest] := by
          rw [hnc1e]
          exact chunks_one (mx + 1) _ hlencap
        rw [hstep, hchunks1]
        simp only [List.map_cons, List.map_nil]
        rw [buildUp_singleton]
        refine ⟨h + 1, ⟨?_, ?_, hch⟩, BNode.toList_internal_flatten _ _⟩
        · simp only [List.length_map, List.length_drop, List.length_cons]
          omega
        · simp only [List.length_map, List.length_drop, List.length_cons]
          simp only [List.length_cons] at hlencap
          omega
      · have hnclow :=  hncor.resolve_left hnc1e
        have hcbounds := chunks_bounds (mx + 1) (mn + 1) (by omega) (by omega)
          (computeNodeCount (mx + 1) (mn + 1) (n0 :: n1 :: rest).length)
          (n0 :: n1 :: rest)
          (by
            have hcomm : (mn + 1) *
                computeNodeCount (mx + 1) (mn + 1) (n0 :: n1 :: rest).length =
              computeNodeCount (mx + 1) (mn + 1) (n0 :: n1 :: rest).length *
                (mn + 1) := by ring
            omega)
          hnccap
        have hne : chunks (mx + 1)
            (computeNodeCount (mx + 1) (mn + 1) (n0 :: n1 :: rest).length)
            (n0 :: n1 :: rest) ≠ [] := by
          have hl := chunks_length (mx + 1)
            (computeNodeCount (mx + 1) (mn + 1) (n0 :: n1 :: rest).length)
            (n0 :: n1 :: rest)
          intro hc
          rw [hc] at hl
          simp only [List.length_nil] at hl
          omega
        have hchain2 := chunk_chain mx mn h
          (chunks (mx + 1)
            (computeNodeCount (mx + 1) (mn + 1) (n0 :: n1 :: rest).length)
            (n0 :: n1 :: rest)) none hne
          (fun c hc => hcbounds c hc)
          (by rw [hflatten]; exact hch)
        have hlt := computeNodeCount_lt (mx + 1) (mn + 1)
          (n0 :: n1 :: rest).length (by omega) (by omega)
          (by simp only [List.length_cons]; omega)
        have hihres := ih ((chunks (mx + 1)
            (computeNodeCount (mx + 1) (mn + 1) (n0 :: n1 :: rest).length)
            (n0 :: n1 :: rest)).map mkInternal) (h + 1)
          (by
            rw [List.length_map, chunks_length]
            omega)
          (by rw [List.length_map, chunks_length]; omega)
          hchain2
        obtain ⟨hh, hwf, htl⟩ := hihres
        refine ⟨hh, ?_, ?_⟩
        · rw [hstep]
          exact hwf
        · rw [hstep, htl, List.map_map]
          have hcongr : (chunks (mx + 1)
              (computeNodeCount (mx + 1) (mn + 1) (n0 :: n1 :: rest).length)
              (n0 :: n1 :: rest)).map (BNode.toList ∘ mkInternal) =
            (chunks (mx + 1)
              (computeNodeCount (mx + 1) (mn + 1) (n0 :: n1 :: rest).length)
              (n0 :: n1 :: rest)).map (fun c => (c.map BNode.toList).flatten) :=
            List.map_congr_left (fun c _ => BNode.toList_internal_flatten _ _)
          rw [hcongr, flatten_map_flatten, hflatten]

/-- `bulkLoad`'s node-building pipeline: an empty buffer yields an empty
root, a non-empty sorted buffer yields a well-formed root holding exactly
the buffer. -/
theorem bulkLoadCore_spec (mx mn : Nat) (hmx : 1 ≤ mx) (hmn : 1 ≤ mn)
    (h2mn : 2 * mn ≤ mx) (data : List (K × V))
    (hsorted : List.Chain' (· ≤ ·) (data.map Prod.fst)) :
    (bulkLoadCore mx mn hmx hmn data = none → bulkBuffer data = []) ∧
    (∀ r, bulkLoadCore mx mn hmx hmn data = some r →
      (∃ hh, WFN mx mn 1 hh none none r) ∧ r.toList = bulkBuffer data) := by
  have hbs : List.Chain' (· < ·) ((bulkBuffer data).map Prod.fst) := by
    rw [bulkBuffer_eq_coalesce]
    exact coalesce_sorted data hsorted
  have hval : bulkLoadCore mx mn hmx hmn data =
      if (bulkBuffer data).isEmpty then none
      else some (buildUp mx mn hmx hmn
        ((chunks mx (computeNumLeaves mx mn (bulkBuffer data).length)
          (bulkBuffer data)).map BNode.leaf)) := rfl
  rw [hval]
  by_cases hemp : (bulkBuffer data).isEmpty
  · rw [if_pos hemp]
    exact ⟨fun _ => by simpa using hemp, fun r hr => Option.noConfusion hr⟩
  · rw [if_neg hemp]
    refine ⟨fun hcon => Option.noConfusion hcon, ?_⟩
    have hbne : bulkBuffer data ≠ [] := by simpa using hemp
    have hlen1 : 1 ≤ (bulkBuffer data).length := by
      have := List.length_pos.mpr hbne
      omega
    have hnl := computeNumLeaves_spec mx mn (bulkBuffer data).length hmn h2mn hlen1
    obtain ⟨hnl1, hnlcap, hnlor⟩ := hnl
    have hflatten := flatten_chunks mx
      (computeNumLeaves mx mn (bulkBuffer data).length) (bulkBuffer data) hnlcap
    intro r hr
    injection hr with hr
    subst hr
    rcases hnlor with ⟨hone, hfits⟩ | ⟨htwo, hlow⟩
    · have hch1 : chunks mx (computeNumLeaves mx mn (bulkBuffer data).length)
          (bulkBuffer data) = [bulkBuffer data] := by
        rw [hone]
        exact chunks_one mx _ hfits
      rw [hch1]
      simp only [List.map_cons, List.map_nil]
      rw [buildUp_singleton]
      exact ⟨⟨0, hlen1, hfits, hbs, fun p _ => ⟨trivial, trivial⟩⟩,
        BNode.toList_leaf _⟩
    · have hcbounds := chunks_bounds mx mn hmn (by omega)
        (computeNumLeaves mx mn (bulkBuffer data).length) (bulkBuffer data)
        (by
          have hcomm : mn * computeNumLeaves mx mn (bulkBuffer data).length =
              computeNumLeaves mx mn (bulkBuffer data).length * mn := by ring
          omega)
        hnlcap
      have hne : chunks mx (computeNumLeaves mx mn (bulkBuffer data).length)
          (bulkBuffer data) ≠ [] := by
        have hl := chunks_length mx
          (computeNumLeaves mx mn (bulkBuffer data).length) (bulkBuffer data)
        intro hc
        rw [hc] at hl
        simp only [List.length_nil] at hl
        omega
      have hlchain := leaf_chunk_chain mx mn
        (chunks mx (computeNumLeaves mx mn (bulkBuffer data).length)
          (bulkBuffer data)) none hne
        (fun c hc => ⟨(hcbounds c hc).1, (hcbounds c hc).2, by
          have h1 := (hcbounds c hc).1
          intro hcnil
          rw [hcnil] at h1
          simp only [List.length_nil] at h1
          omega⟩)
        (by rw [hflatten]; exact hbs)
        (fun p _ => trivial)
      have hbures := buildUp_spec mx mn hmx hmn h2mn
        ((chunks mx (computeNumLeaves mx mn (bulkBuffer data).length)
          (bulkBuffer data)).map BNode.leaf).length
        ((chunks mx (computeNumLeaves mx mn (bulkBuffer data).length)
          (bulkBuffer data)).map BNode.leaf) 0 (le_refl _)
        (by rw [List.length_map, chunks_length]; omega)
        hlchain
      obtain ⟨hh, hwf, htl⟩ := hbures
      refine ⟨⟨hh, hwf⟩, ?_⟩
      rw [htl, List.map_map]
      have hcongr : (chunks mx (computeNumLeaves mx mn (bulkBuffer data).length)
          (bulkBuffer data)).map (BNode.toList ∘ BNode.leaf) =
        (chunks mx (computeNumLeaves mx mn (bulkBuffer data).length)
          (bulkBuffer data)).map id :=
        List.map_congr_left (fun c _ => BNode.toList_leaf c)
      rw [hcongr, List.map_id, hflatten]

/-- `BPlusTree::bulkLoad` on a presorted input: the result is well-formed
and holds exactly the coalesced buffer. -/
theorem bulkLoad_spec (t : BPlusTree K V) (hord : MIN_ORDER ≤ t.order)
    (data : List (K × V))
    (hsorted : List.Chain' (· ≤ ·) (data.map Prod.fst)) :
    (t.bulkLoad hord data).WF ∧
    (t.bulkLoad hord data).toList = bulkBuffer data := by
  have h2mn : 2 * t.minKeys ≤ t.maxKeys := by
    unfold BPlusTree.minKeys BPlusTree.maxKeys MIN_ORDER at *
    omega
  have hcore := bulkLoadCore_spec t.maxKeys t.minKeys
    (order_clamped_maxKeys t hord) (order_clamped_minKeys t hord) h2mn
    data hsorted
  constructor
  · refine ⟨hord, ?_⟩
    show (match bulkLoadCore t.maxKeys t.minKeys
        (order_clamped_maxKeys t hord) (order_clamped_minKeys t hord) data with
      | none => True
      | some r => ∃ hh, WFN t.maxKeys t.minKeys 1 hh none none r)
    match hroot : bulkLoadCore t.maxKeys t.minKeys
        (order_clamped_maxKeys t hord) (order_clamped_minKeys t hord) data with
    | none => trivial
    | some r => exact (hcore.2 r hroot).1
  · show (match bulkLoadCore t.maxKeys t.minKeys
        (order_clamped_maxKeys t hord) (order_clamped_minKeys t hord) data with
      | none => ([] : List (K × V))
      | some r => r.toList) = bulkBuffer data
    match hroot : bulkLoadCore t.maxKeys t.minKeys
        (order_clamped_maxKeys t hord) (order_clamped_minKeys t hord) data with
    | none => exact (hcore.1 hroot).symm
    | some r => exact (hcore.2 r hroot).2

end BulkSupport

section Claims

variable [LinearOrder K] [Inhabited K] [Inhabited V]

/-- C1: for every sequence of insert and remove operations applied to an
initially empty tree of any order `m ≥ 3`, the resulting externally
observable state passes `validate()`, which checks exactly that every
non-root node has between `min_keys = ⌈m/2⌉ - 1` and `max_keys = m - 1`
keys, that keys within each node are strictly ascending, and that all
leaves are at the same depth.  (Quantifying over all sequences covers
every externally observable intermediate state.) -/
theorem C1_invariants (order : Nat) (hord : MIN_ORDER ≤ order)
    (ops : List (Op K V)) :
    (applyOps (BPlusTree.new order : BPlusTree K V) ops).validate = true :=
  validate_WF _ (applyOps_spec ops _ (new_WF order)).1

/-- Witness for C1 at a concrete order and operation sequence. -/
theorem C1_invariants_witness :
    MIN_ORDER ≤ 4 ∧
    (applyOps (BPlusTree.new 4 : BPlusTree Nat Nat)
      [Op.ins 1 10, Op.ins 2 20, Op.del 1]).validate = true :=
  ⟨by decide, C1_invariants 4 (by decide) [Op.ins 1 10, Op.ins 2 20, Op.del 1]⟩

/-- C2: after `insert(k, v)`, `search(k)` returns `v`; every other key's
lookup is unchanged; and if `k` was already present the tree undergoes no
structural change — the value is overwritten in place, so the skeleton
(all nodes and all keys) is identical. -/
theorem C2_insert_search (t : BPlusTree K V) (hWF : t.WF) (key : K) (v : V) :
    (t.insert key v).search key = some v ∧
    (∀ k2, k2 ≠ key → (t.insert key v).search k2 = t.search k2) ∧
    (findValue t.toList key ≠ none →
      (t.insert key v).root.map BNode.skeleton = t.root.map BNode.skeleton) := by
  obtain ⟨hW, hL⟩ := insert_spec t hWF key v
  refine ⟨?_, ?_, ?_⟩
  · rw [BPlusTree.search_eq _ hW, hL]
    exact findValue_listInsert_self key v t.toList
  · intro k2 hne
    rw [BPlusTree.search_eq _ hW, BPlusTree.search_eq _ hWF, hL]
    exact findValue_listInsert_other key k2 v t.toList hne
  · intro hpresent
    unfold BPlusTree.insert
    match hr : t.root with
    | none =>
      have htl : t.toList = [] := by
        unfold BPlusTree.toList
        rw [hr]
      rw [htl] at hpresent
      exact absurd rfl hpresent
    | some r =>
      have hroot : ∃ hh, WFN t.maxKeys t.minKeys 1 hh none none r := by
        have := hWF.2
        rw [hr] at this
        exact this
      obtain ⟨h, hWFr⟩ := hroot
      have htl : t.toList = r.toList := by
        unfold BPlusTree.toList
        rw [hr]
      rw [htl] at hpresent
      obtain ⟨r', hone, hskel⟩ := insertRec_dup_skeleton
        (order_clamped_minKeys t hWF.1) key v h hWFr trivial trivial hpresent
      dsimp only
      rw [hone]
      dsimp only
      simp [hskel]

/-- Witness for C2 on a concrete well-formed tree. -/
theorem C2_insert_search_witness :
    ((applyOps (BPlusTree.new 4 : BPlusTree Nat Nat)
      [Op.ins 1 10, Op.ins 2 20]).insert 1 99).search 1 = some 99 :=
  (C2_insert_search _ (applyOps_new_spec 4 [Op.ins 1 10, Op.ins 2 20]).1
    1 99).1

/-- C3: `remove(k)` returns true exactly when `k` is present; a false
return leaves the tree unchanged; after a true return `search(k)` is
not-found; and removing the only pair of a root-leaf singleton empties
the tree. -/
theorem C3_remove (t : BPlusTree K V) (hWF : t.WF) (key : K) :
    ((t.remove key).1 = true ↔ findValue t.toList key ≠ none) ∧
    ((t.remove key).1 = false → (t.remove key).2 = t) ∧
    (t.remove key).2.search key = none ∧
    (∀ v, t.root = some (.leaf [(key, v)]) →
      (t.remove key).2.isEmpty = true) := by
  obtain ⟨hW, hiff, hL, hsame⟩ := remove_spec t hWF key
  refine ⟨hiff, hsame, ?_, ?_⟩
  · rw [BPlusTree.search_eq _ hW, hL]
    exact eraseKey_findValue_self key t.toList (WF_toList_sorted t hWF)
  · intro v hr
    unfold BPlusTree.remove
    rw [hr]
    dsimp only
    rw [removeRec]
    rw [leafRemove, if_pos rfl]
    rfl

/-- Witness for C3 on a concrete well-formed tree. -/
theorem C3_remove_witness :
    ((applyOps (BPlusTree.new 4 : BPlusTree Nat Nat)
      [Op.ins 1 10, Op.ins 2 20]).remove 1).2.search 1 = none :=
  (C3_remove _ (applyOps_new_spec 4 [Op.ins 1 10, Op.ins 2 20]).1 1).2.2.1

/-- C5 (counterexample to the claim as stated): with `max_keys = 2`, the
overflowing slot list of `max_keys + 1 = 3` entries is split by
`splitLeaf` so that the original leaf keeps only `⌊(max_keys+1)/2⌋ = 1`
slot, not `⌈(max_keys+1)/2⌉ = 2` as the claim's ceiling formula demands:
the C++ `(max_keys_ + 1) / 2` is integer (floor) division. -/
theorem C5_split_counterexample :
    splitLeaf 2 [((1 : Nat), (10 : Nat)), (2, 20), (3, 30)] =
      .split (.leaf [(1, 10)]) 2 (.leaf [(2, 20), (3, 30)]) ∧
    (2 + 1 + 1) / 2 = 2 ∧
    (BNode.leaf [((1 : Nat), (10 : Nat))] : BNode Nat Nat).numKeys = 1 :=
  ⟨rfl, rfl, rfl⟩

/-- C5 (amended): whenever a leaf holds `max_keys + 1` slots, the split
chooses `split_point = ⌊(max_keys + 1)/2⌋` (C++ integer division), keeps
the first `split_point` slots in the original leaf, moves the remaining
slots in order to the new right leaf, and promotes a copy of the new
leaf's first key — which remains present in the new leaf. -/
theorem C5_splitLeaf_floor (mx : Nat) (es : List (K × V))
    (hlen : es.length = mx + 1) (hmx : 1 ≤ mx) :
    splitLeaf mx es =
      .split (.leaf (es.take ((mx + 1) / 2)))
        ((es.drop ((mx + 1) / 2)).headD default).1
        (.leaf (es.drop ((mx + 1) / 2))) ∧
    es.take ((mx + 1) / 2) ++ es.drop ((mx + 1) / 2) = es ∧
    ((es.drop ((mx + 1) / 2)).headD default).1 ∈
      (es.drop ((mx + 1) / 2)).map Prod.fst := by
  refine ⟨rfl, List.take_append_drop _ es, ?_⟩
  have hdlen : 0 < (es.drop ((mx + 1) / 2)).length := by
    rw [List.length_drop, hlen]
    have : (mx + 1) / 2 < mx + 1 := Nat.div_lt_self (by omega) (by omega)
    omega
  match hd : es.drop ((mx + 1) / 2) with
  | [] =>
    rw [hd] at hdlen
    exact absurd hdlen (by simp)
  | q :: rest =>
    simp only [List.headD_cons]
    exact List.mem_map_of_mem Prod.fst (List.mem_cons_self q rest)

/-- Witness for the amended C5 at a concrete overflowing leaf. -/
theorem C5_splitLeaf_floor_witness :
    ([((1 : Nat), (10 : Nat)), (2, 20), (3, 30)].length = 2 + 1) ∧
    splitLeaf 2 [((1 : Nat), (10 : Nat)), (2, 20), (3, 30)] =
      .split (.leaf ([((1 : Nat), (10 : Nat)), (2, 20), (3, 30)].take ((2 + 1) / 2)))
        (([((1 : Nat), (10 : Nat)), (2, 20), (3, 30)].drop ((2 + 1) / 2)).headD default).1
        (.leaf ([((1 : Nat), (10 : Nat)), (2, 20), (3, 30)].drop ((2 + 1) / 2))) :=
  ⟨by decide,
    (C5_splitLeaf_floor 2 [((1 : Nat), (10 : Nat)), (2, 20), (3, 30)]
      (by decide) (by decide)).1⟩

/-- C6 (the `size()` operation is modelled from the spec, its definition
not being among the sources): after every sequence of inserts and removes
on a fresh tree, `size()` equals the length of the model contents, whose
keys are pairwise distinct and are exactly the keys that have been
inserted and not subsequently removed — so `size()` counts exactly the
distinct live keys. -/
theorem C6_size (order : Nat) (hord : MIN_ORDER ≤ order)
    (ops : List (Op K V)) :
    (applyOps (BPlusTree.new order : BPlusTree K V) ops).size =
      (modelList ops).length ∧
    ((modelList ops).map Prod.fst).Nodup ∧
    (∀ k, k ∈ (modelList ops).map Prod.fst ↔ liveKey ops k = true) := by
  obtain ⟨hW, hL⟩ := applyOps_new_spec order ops
  have hsorted : List.Chain' (· < ·) ((modelList ops).map Prod.fst) :=
    model_fold_sorted ops [] (by simp)
  refine ⟨?_, ?_, ?_⟩
  · rw [BPlusTree.size_eq_toList_length, hL]
  · exact (List.chain'_iff_pairwise.mp hsorted).imp ne_of_lt
  · intro k
    exact (model_fold_mem k ops [] false (by simp) (by simp)).symm

/-- Witness for C6 at a concrete order and operation sequence. -/
theorem C6_size_witness :
    MIN_ORDER ≤ 4 ∧
    (applyOps (BPlusTree.new 4 : BPlusTree Nat Nat)
        [Op.ins 1 10, Op.ins 2 20, Op.del 1]).size =
      (modelList [Op.ins (1 : Nat) (10 : Nat), Op.ins 2 20, Op.del 1]).length :=
  ⟨by decide, (C6_size 4 (by decide) [Op.ins 1 10, Op.ins 2 20, Op.del 1]).1⟩

/-- C9: forward iteration visits every stored pair exactly once in
strictly ascending key order (it yields exactly the stored contents,
which are strictly sorted); reverse iteration visits them in strictly
descending order; and the reverse traversal is the exact reversal of the
forward traversal. -/
theorem C9_iteration (t : BPlusTree K V) (hWF : t.WF) :
    t.forwardTraversal = t.toList ∧
    List.Chain' (· < ·) (t.forwardTraversal.map Prod.fst) ∧
    t.reverseTraversal = t.forwardTraversal.reverse ∧
    List.Chain' (· > ·) (t.reverseTraversal.map Prod.fst) := by
  have hfwd := forwardTraversal_eq t hWF
  have hrev := reverseTraversal_eq t hWF
  have hsorted := WF_toList_sorted t hWF
  refine ⟨hfwd, ?_, ?_, ?_⟩
  · rw [hfwd]
    exact hsorted
  · rw [hrev, hfwd]
  · rw [hrev, List.map_reverse, List.chain'_reverse]
    exact hsorted

/-- Witness for C9 on a concrete well-formed tree. -/
theorem C9_iteration_witness :
    (applyOps (BPlusTree.new 4 : BPlusTree Nat Nat)
        [Op.ins 2 20, Op.ins 1 10]).reverseTraversal =
      (applyOps (BPlusTree.new 4 : BPlusTree Nat Nat)
        [Op.ins 2 20, Op.ins 1 10]).forwardTraversal.reverse :=
  (C9_iteration _ (applyOps_new_spec 4 [Op.ins 2 20, Op.ins 1 10]).1).2.2.1

/-- C10: `range_query(lo, hi)` with `lo > hi` returns the empty sequence
on every tree (the query is a pure read and never changes the tree);
and on an empty tree `search` returns not-found and `remove` returns
false with the tree unchanged, with no error. -/
theorem C10_degenerate (t : BPlusTree K V) (lo hi : K) (hlohi : hi < lo)
    (key : K) :
    t.rangeQuery lo hi = [] ∧
    (∀ t2 : BPlusTree K V, t2.root = none →
      t2.search key = none ∧ t2.remove key = (false, t2)) := by
  constructor
  · unfold BPlusTree.rangeQuery
    match t.root with
    | none => rfl
    | some r => exact rangeScan_rev hlohi _
  · intro t2 h2
    unfold BPlusTree.search BPlusTree.remove
    rw [h2]
    exact ⟨rfl, rfl⟩

/-- C4: `range_query(lo, hi)` with `lo ≤ hi` returns exactly the stored
pairs whose keys lie in the inclusive interval `[lo, hi]` (a filter of
the contents), in strictly ascending key order.  The query is a pure
read of the leaf list and never modifies the tree. -/
theorem C4_rangeQuery (t : BPlusTree K V) (hWF : t.WF) (lo hi : K)
    (hlohi : lo ≤ hi) :
    t.rangeQuery lo hi =
      t.toList.filter (fun p => decide (lo ≤ p.1) && decide (p.1 ≤ hi)) ∧
    List.Chain' (· < ·) ((t.rangeQuery lo hi).map Prod.fst) := by
  have hsorted := WF_toList_sorted t hWF
  have hmain : t.rangeQuery lo hi =
      t.toList.filter (fun p => decide (lo ≤ p.1) && decide (p.1 ≤ hi)) := by
    unfold BPlusTree.rangeQuery
    match hr : t.root with
    | none =>
      have htl : t.toList = [] := by
        unfold BPlusTree.toList
        rw [hr]
      rw [htl]
      rfl
    | some r =>
      have hroot : ∃ hh, WFN t.maxKeys t.minKeys 1 hh none none r := by
        have := hWF.2
        rw [hr] at this
        exact this
      obtain ⟨h, hWFr⟩ := hroot
      have htl : t.toList = r.toList := by
        unfold BPlusTree.toList
        rw [hr]
      rw [htl] at hsorted ⊢
      obtain ⟨pre, hpre, hprek⟩ :=
        leavesFrom_decomp (order_clamped_minKeys t hWF.1) lo h hWFr
      have hdecomp : r.toList = pre.flatten ++ (leavesFrom lo r).flatten := by
        rw [BNode.toList_eq_leafLists_flatten, hpre, List.flatten_append]
      rw [hdecomp] at hsorted ⊢
      rw [List.map_append, List.chain'_iff_pairwise, List.pairwise_append]
        at hsorted
      dsimp only
      rw [rangeScan_eq lo hi _ (List.chain'_iff_pairwise.mpr hsorted.2.1)]
      rw [List.filter_append]
      have hpre_nil : pre.flatten.filter
          (fun p => decide (lo ≤ p.1) && decide (p.1 ≤ hi)) = [] := by
        rw [List.filter_eq_nil_iff]
        intro p hpm
        simp only [Bool.and_eq_true, decide_eq_true_eq, not_and]
        intro hlop
        exact absurd (hprek p hpm) (not_lt.mpr hlop)
      rw [hpre_nil, List.nil_append]
  refine ⟨hmain, ?_⟩
  rw [hmain]
  rw [List.chain'_iff_pairwise]
  exact List.Pairwise.sublist
    (List.Sublist.map Prod.fst (List.filter_sublist t.toList))
    (List.chain'_iff_pairwise.mp hsorted)

/-- Witness for C4 on a concrete well-formed tree and range. -/
theorem C4_rangeQuery_witness :
    (1 : Nat) ≤ 2 ∧
    (applyOps (BPlusTree.new 4 : BPlusTree Nat Nat)
        [Op.ins 1 10, Op.ins 2 20, Op.ins 3 30]).rangeQuery 1 2 =
      (applyOps (BPlusTree.new 4 : BPlusTree Nat Nat)
        [Op.ins 1 10, Op.ins 2 20, Op.ins 3 30]).toList.filter
        (fun p => decide (1 ≤ p.1) && decide (p.1 ≤ 2)) :=
  ⟨by decide,
    (C4_rangeQuery _ (applyOps_new_spec 4 [Op.ins 1 10, Op.ins 2 20, Op.ins 3 30]).1
      1 2 (by decide)).1⟩

/-- Witness for C10 at concrete keys with `lo > hi`. -/
theorem C10_degenerate_witness :
    (2 : Nat) < 5 ∧
    (applyOps (BPlusTree.new 4 : BPlusTree Nat Nat)
      [Op.ins 3 30]).rangeQuery 5 2 = [] :=
  ⟨by decide, (C10_degenerate _ 5 2 (by decide) 7).1⟩

/-- C7: for every finite input sequence of (key, value) pairs sorted
ascending by key (equal keys adjacent), `bulk_load` builds a tree whose
in-order forward iteration reproduces exactly the input sequence with
each run of duplicate consecutive keys coalesced to a single pair
carrying the last value of the run (`coalesce`). -/
theorem C7_bulkLoad (t : BPlusTree K V) (hord : MIN_ORDER ≤ t.order)
    (data : List (K × V))
    (hsorted : List.Chain' (· ≤ ·) (data.map Prod.fst)) :
    (t.bulkLoad hord data).forwardTraversal = coalesce data := by
  have hspec := bulkLoad_spec t hord data hsorted
  rw [forwardTraversal_eq _ hspec.1, hspec.2, bulkBuffer_eq_coalesce]

/-- Witness for C7 at a concrete order and input sequence (with a
duplicate run). -/
theorem C7_bulkLoad_witness :
    MIN_ORDER ≤ (BPlusTree.new 4 : BPlusTree Nat Nat).order ∧
    List.Chain' (· ≤ ·)
      (([(1, 10), (1, 11), (2, 20), (3, 30)] : List (Nat × Nat)).map Prod.fst) ∧
    ((BPlusTree.new 4 : BPlusTree Nat Nat).bulkLoad (by decide)
        [(1, 10), (1, 11), (2, 20), (3, 30)]).forwardTraversal =
      coalesce [(1, 10), (1, 11), (2, 20), (3, 30)] :=
  ⟨by decide, by simp, C7_bulkLoad _ (by decide) _ (by simp)⟩

/-- C8: saving any tree and loading the file into a tree of the same
order succeeds and yields a tree containing exactly the same (key, value)
pairs with the same iteration order as the original. -/
theorem C8_save_load (t t2 : BPlusTree K V) (hWF : t.WF)
    (h2 : MIN_ORDER ≤ t2.order) (horder : t2.order = t.order) :
    ∃ t3, t2.load h2 t.save = .ok t3 ∧
      t3.WF ∧ t3.toList = t.toList ∧
      t3.forwardTraversal = t.forwardTraversal := by
  have hm : (t.save).magic = BPTREE_MAGIC := rfl
  have hv : (t.save).version = BPTREE_VERSION := rfl
  have ho : (t.save).order = t.order := rfl
  have hsave_entries : (t.save).entries = t.toList := by
    show (match t.root with
      | none => ([] : List (K × V))
      | some r => r.leafLists.flatten) = t.toList
    unfold BPlusTree.toList
    match t.root with
    | none => rfl
    | some r => exact (BNode.toList_eq_leafLists_flatten r).symm
  have hcount : (t.save).count = (t.save).entries.length := rfl
  have htake : (t.save).entries.take (t.save).count = t.toList := by
    rw [hcount, List.take_length, hsave_entries]
  have hstrict := WF_toList_sorted t hWF
  have hsorted : List.Chain' (· ≤ ·) (t.toList.map Prod.fst) :=
    List.Chain'.imp (fun a b hab => le_of_lt hab) hstrict
  have hload : t2.load h2 t.save =
      .ok (t2.bulkLoad h2 ((t.save).entries.take (t.save).count)) := by
    unfold BPlusTree.load
    rw [if_neg (fun hc => hc hm), if_neg (fun hc => hc hv),
      if_neg (fun hc => hc (ho.trans horder.symm)),
      if_neg (by rw [hcount]; exact lt_irrefl _)]
  have hblspec := bulkLoad_spec t2 h2 t.toList hsorted
  refine ⟨t2.bulkLoad h2 t.toList, ?_, hblspec.1, ?_, ?_⟩
  · rw [hload, htake]
  · rw [hblspec.2, bulkBuffer_eq_coalesce, coalesce_eq_self_of_strict _ hstrict]
  · rw [forwardTraversal_eq _ hblspec.1, forwardTraversal_eq t hWF,
      hblspec.2, bulkBuffer_eq_coalesce, coalesce_eq_self_of_strict _ hstrict]

/-- Witness for C8: a concrete three-pair tree saved and reloaded into a
fresh tree of the same order. -/
theorem C8_save_load_witness :
    ((BPlusTree.new 4 : BPlusTree Nat Nat).bulkLoad (by decide)
      [(1, 10), (2, 20), (3, 30)]).WF ∧
    MIN_ORDER ≤ (BPlusTree.new 4 : BPlusTree Nat Nat).order ∧
    (BPlusTree.new 4 : BPlusTree Nat Nat).order =
      ((BPlusTree.new 4 : BPlusTree Nat Nat).bulkLoad (by decide)
        [(1, 10), (2, 20), (3, 30)]).order ∧
    ∃ t3, (BPlusTree.new 4 : BPlusTree Nat Nat).load (by decide)
        ((BPlusTree.new 4 : BPlusTree Nat Nat).bulkLoad (by decide)
          [(1, 10), (2, 20), (3, 30)]).save = .ok t3 ∧
      t3.WF ∧
      t3.toList = ((BPlusTree.new 4 : BPlusTree Nat Nat).bulkLoad (by decide)
        [(1, 10), (2, 20), (3, 30)]).toList ∧
      t3.forwardTraversal =
        ((BPlusTree.new 4 : BPlusTree Nat Nat).bulkLoad (by decide)
          [(1, 10), (2, 20), (3, 30)]).forwardTraversal :=
  ⟨(bulkLoad_spec (BPlusTree.new 4) (by decide) [(1, 10), (2, 20), (3, 30)]
      (by simp)).1,
    by decide, rfl,
    C8_save_load _ (BPlusTree.new 4)
      (bulkLoad_spec (BPlusTree.new 4) (by decide) [(1, 10), (2, 20), (3, 30)]
        (by simp)).1
      (by decide) rfl⟩

end Claims

end BPT
